import Mathlib

/-!
# ficout: a verification development

A shallow embedding of `main.go` (the flat file copy utility) and theorems about it.

Conventions of the embedding.

* A Go `string` is the list of its Unicode code points (`GoString`); the strings the program
  handles are valid UTF-8, so ranging over a string yields exactly these code points.
  Where the source counts or cuts bytes, and in the text that `View` draws, a string is the
  list of its UTF-8 bytes (`Bytes`).
* The `lipgloss` styles are a parameter (`Styles`): the development does not depend on how
  a style renders a text.
* Library functions of the Go standard library (`strings`, `unicode`, `path/filepath` on a
  Unix system) are written out after their Go implementation.
* The Unicode case table of `unicode.ToLower` beyond ASCII is a parameter `tbl`.
* A slice is a list; `nil` and the empty slice are the same empty list.
-/

namespace Ficout

/-- A Go string, as the sequence of its code points. -/
abbrev GoString := List Char

/-- Go `int` arithmetic on a 64-bit platform: a result is reduced to the range
`-2^63 .. 2^63 - 1`. -/
def wrapInt64 (i : Int) : Int :=
  (i + 2 ^ 63) % 2 ^ 64 - 2 ^ 63

/-- Go `len` of a slice, as an `int`. -/
def len {α : Type} (xs : List α) : Int :=
  (xs.length : Int)

/-! ## Package `unicode` -/

/-- Go `unicode.IsSpace`: the Latin-1 spaces and the code points of the White_Space table. -/
def unicode.IsSpace (r : Char) : Bool :=
  let n := r.toNat
  if n ≤ 0xFF then
    n = 0x09 || n = 0x0A || n = 0x0B || n = 0x0C || n = 0x0D || n = 0x20 || n = 0x85 || n = 0xA0
  else
    n = 0x1680 || (0x2000 ≤ n && n ≤ 0x200A) || n = 0x2028 || n = 0x2029 || n = 0x202F ||
      n = 0x205F || n = 0x3000

/-- Go `unicode.ToLower`: ASCII is handled in place (`A`..`Z` are shifted by 32, every other
ASCII code point is kept), every other code point is looked up in the case table `tbl`. -/
def unicode.ToLower (tbl : Char → Char) (r : Char) : Char :=
  if r.toNat ≤ 127 then
    if 65 ≤ r.toNat ∧ r.toNat ≤ 90 then Char.ofNat (r.toNat + 32) else r
  else tbl r

/-- What the development assumes of the case table beyond ASCII, all of it true of the
Unicode table: a lower-cased code point is neither a comma nor a space, it is white space
only if the original is, and lower-casing it again changes nothing. -/
def CaseTableOk (tbl : Char → Char) : Prop :=
  ∀ r : Char, 127 < r.toNat →
    tbl r ≠ ',' ∧ tbl r ≠ ' ' ∧ (unicode.IsSpace (tbl r) = true → unicode.IsSpace r = true) ∧
      unicode.ToLower tbl (tbl r) = tbl r

/-! ## Package `strings` -/

/-- Go `strings.ToLower`: every code point is mapped by `unicode.ToLower`. -/
def strings.ToLower (tbl : Char → Char) (s : GoString) : GoString :=
  s.map (unicode.ToLower tbl)

/-- Go `strings.TrimSpace`: leading and trailing white space removed. -/
def strings.TrimSpace (s : GoString) : GoString :=
  List.rdropWhile unicode.IsSpace (s.dropWhile unicode.IsSpace)

/-- Go `strings.HasPrefix`. -/
def strings.HasPrefix (s pfx : GoString) : Bool :=
  pfx.isPrefixOf s

/-- Go `strings.TrimPrefix`. -/
def strings.TrimPrefix (s pfx : GoString) : GoString :=
  if strings.HasPrefix s pfx then s.drop pfx.length else s

/-- Go `strings.HasSuffix`. -/
def strings.HasSuffix (s sfx : GoString) : Bool :=
  sfx.isSuffixOf s

/-- Go `strings.TrimSuffix`. -/
def strings.TrimSuffix (s sfx : GoString) : GoString :=
  if strings.HasSuffix s sfx then s.take (s.length - sfx.length) else s

/-- Go `strings.Join`. -/
def strings.Join : List GoString → GoString → GoString
  | [], _ => []
  | [a], _ => a
  | a :: b :: rest, sep => a ++ sep ++ strings.Join (b :: rest) sep

/-- The loop of Go `strings.FieldsFunc`: `cur` is the field being read (`start >= 0`), in
reverse, or `none` between fields (`start < 0`). -/
def strings.fieldsLoop (f : Char → Bool) : List Char → Option (List Char) → List GoString
  | [], none => []
  | [], some w => [w.reverse]
  | c :: cs, none =>
    if f c then strings.fieldsLoop f cs none else strings.fieldsLoop f cs (some [c])
  | c :: cs, some w =>
    if f c then w.reverse :: strings.fieldsLoop f cs none
    else strings.fieldsLoop f cs (some (c :: w))

/-- Go `strings.FieldsFunc`: the maximal runs of code points that do not satisfy `f`. -/
def strings.FieldsFunc (s : GoString) (f : Char → Bool) : List GoString :=
  strings.fieldsLoop f s none

/-- One decimal digit. -/
def digitChar (d : Nat) : Char :=
  Char.ofNat (48 + d)

/-- The digits of `n`, most significant first, in front of `acc`; `fuel` bounds the number of
digits. -/
def decimalLoop : Nat → Nat → List Char → List Char
  | 0, _, acc => acc
  | fuel + 1, n, acc =>
    if n / 10 = 0 then digitChar (n % 10) :: acc
    else decimalLoop fuel (n / 10) (digitChar (n % 10) :: acc)

/-- The verb `%d` of `fmt.Sprintf` on an `int`. -/
def formatInt (i : Int) : GoString :=
  if i < 0 then '-' :: decimalLoop (i.natAbs + 1) i.natAbs []
  else decimalLoop (i.natAbs + 1) i.natAbs []

/-! ## Package `path/filepath` (Unix) -/

/-- Go `os.IsPathSeparator`. -/
def os.IsPathSeparator (c : Char) : Bool :=
  c = '/'

/-- The elements of a path: the pieces between separators, empty ones included. -/
def filepath.elements : List Char → List GoString
  | [] => [[]]
  | c :: cs =>
    if os.IsPathSeparator c then [] :: filepath.elements cs
    else
      match filepath.elements cs with
      | [] => [[c]]
      | w :: ws => (c :: w) :: ws

/-- One round of the loop of `filepath.Clean`, on a whole path element. `out` holds the
elements written so far, the last one first; `dotdot` counts the leading elements that a
`..` must not remove. -/
def filepath.cleanStep (rooted : Bool) (st : List GoString × Nat) (e : GoString) :
    List GoString × Nat :=
  if e = [] then st
  else if e = ['.'] then st
  else if e = ['.', '.'] then
    if st.1.length > st.2 then (st.1.tail, st.2)
    else if !rooted then (e :: st.1, st.1.length + 1)
    else st
  else (e :: st.1, st.2)

/-- Go `filepath.Clean`. -/
def filepath.Clean (path : GoString) : GoString :=
  if path = [] then ['.']
  else
    let rooted := path.head? = some '/'
    let out := ((filepath.elements path).foldl (filepath.cleanStep rooted) ([], 0)).1
    if rooted then '/' :: strings.Join out.reverse ['/']
    else if out = [] then ['.']
    else strings.Join out.reverse ['/']

/-- Go `filepath.Join`: the elements from the first non-empty one on, joined by the
separator and cleaned. -/
def filepath.Join : List GoString → GoString
  | [] => []
  | e :: rest => if e ≠ [] then filepath.Clean (strings.Join (e :: rest) ['/']) else filepath.Join rest

/-- Go `filepath.Base`. -/
def filepath.Base (path : GoString) : GoString :=
  if path = [] then ['.']
  else
    let path := List.rdropWhile os.IsPathSeparator path
    let path := List.rtakeWhile (fun c => !os.IsPathSeparator c) path
    if path = [] then ['/'] else path

/-- The loop of `filepath.Ext`, from the last code point backwards: `rev` is what is left to
read (reversed), `acc` what was read. -/
def filepath.extLoop : List Char → List Char → GoString
  | [], _ => []
  | c :: rev, acc =>
    if os.IsPathSeparator c then []
    else if c = '.' then c :: acc
    else filepath.extLoop rev (c :: acc)

/-- Go `filepath.Ext`. -/
def filepath.Ext (path : GoString) : GoString :=
  filepath.extLoop path.reverse []

/-- Go `filepath.Dir`. -/
def filepath.Dir (path : GoString) : GoString :=
  filepath.Clean (List.rdropWhile (fun c => !os.IsPathSeparator c) path)

/-! ## The data of `main.go` -/

/-- The type `state` of `main.go`. -/
inductive state where
  | stateMenu
  | stateSourceSelect
  | stateDestSelect
  | stateBrowseSource
  | stateBrowseDest
  | stateExtensions
  | stateCustomExtensions
  | stateOptions
  | stateConfirm
  | stateCopying
  | stateComplete
  deriving DecidableEq, Repr

/-- The struct `Config` of `main.go`. -/
structure Config where
  SourceDir : GoString
  DestDir : GoString
  Extensions : List GoString
  Recursive : Bool
  Verbose : Bool
  DryRun : Bool
  deriving DecidableEq, Repr

/-- The struct `model` of `main.go`, without the fields `err` and `progressChan`, which no
function reads or assigns after `initialModel`. -/
structure model where
  state : state
  cursor : Int
  config : Config
  currentPath : GoString
  directories : List GoString
  message : GoString
  progress : Int
  totalFiles : Int
  copiedFiles : Int
  currentFile : GoString
  customInput : GoString
  quitting : Bool
  deriving DecidableEq, Repr

/-- The struct `copyProgressMsg` of `main.go`. -/
structure copyProgressMsg where
  file : GoString
  progress : Int
  total : Int
  copied : Int
  deriving DecidableEq, Repr

/-- The struct `copyCompleteMsg` of `main.go`. -/
structure copyCompleteMsg where
  success : Bool
  copied : Int
  total : Int
  deriving DecidableEq, Repr

/-- The zero value of `copyProgressMsg`, the value of `var lastProgress copyProgressMsg`. -/
def copyProgressMsg.zero : copyProgressMsg :=
  { file := [], progress := 0, total := 0, copied := 0 }

/-! ## Extension parsing -/

/-- The separator predicate that `parseExtensions` hands to `strings.FieldsFunc`. -/
def isExtSeparator (c : Char) : Bool :=
  c = ',' || c = ' '

/-- The body of the loop `for _, part := range parts` of `parseExtensions`. -/
def parseExtensionsStep (tbl : Char → Char) (extensions : List GoString) (part : GoString) :
    List GoString :=
  let part := strings.TrimSpace part
  if part ≠ [] then
    let part := if !strings.HasPrefix part ['.'] then '.' :: part else part
    extensions ++ [strings.ToLower tbl part]
  else extensions

/-- The method `parseExtensions` of `main.go`. -/
def parseExtensions (tbl : Char → Char) (input : GoString) : List GoString :=
  if input = [] then []
  else (strings.FieldsFunc input isExtSeparator).foldl (parseExtensionsStep tbl) []

/-! ## Collision resolution -/

/-- The name that `resolveFileConflict` tries for the counter value `counter`:
`filepath.Join(dir, fmt.Sprintf("%s_%d%s", nameWithoutExt, counter, ext))`. -/
def conflictCandidate (originalPath : GoString) (counter : Int) : GoString :=
  let dir := filepath.Dir originalPath
  let base := filepath.Base originalPath
  let ext := filepath.Ext base
  let nameWithoutExt := strings.TrimSuffix base ext
  filepath.Join [dir, nameWithoutExt ++ ['_'] ++ formatInt counter ++ ext]

/-- The loop of `resolveFileConflict`. `statOk p` says that `os.Stat(p)` does not fail with a
not-exist error; `fuel` bounds the number of rounds, and `none` means the bound was reached. -/
def resolveLoop (statOk : GoString → Bool) (originalPath : GoString) :
    Nat → GoString → Int → Option GoString
  | 0, _, _ => none
  | fuel + 1, destPath, counter =>
    if !statOk destPath then some destPath
    else
      resolveLoop statOk originalPath fuel (conflictCandidate originalPath counter)
        (wrapInt64 (counter + 1))

/-- The method `resolveFileConflict` of `main.go`. -/
def resolveFileConflict (statOk : GoString → Bool) (fuel : Nat) (destPath : GoString) :
    Option GoString :=
  resolveLoop statOk destPath fuel destPath 1

/-! ## The copy pipeline -/

/-- The loop `for i, file := range files` of the goroutine of `processFiles`. The state `s`
of the world is touched by `copyFile` only, which returns the new state and whether its
error is nil. The result is the sequence of messages sent on the channel and the final
state of the world. -/
def processLoop {σ : Type} (copyFile : σ → GoString → σ × Bool) (dryRun : Bool) (total : Int) :
    List GoString → Int → Int → σ → List copyProgressMsg × σ
  | [], _, _, s => ([], s)
  | file :: rest, i, copied, s =>
    let progress := Int.tdiv (wrapInt64 ((i + 1) * 100)) total
    let currentFile := filepath.Base file
    let msg : copyProgressMsg :=
      { file := currentFile, progress := progress, total := total, copied := copied }
    let next : σ × Int :=
      if !dryRun then
        let r := copyFile s file
        if r.2 then (r.1, copied + 1) else (r.1, copied)
      else (s, copied + 1)
    let out := processLoop copyFile dryRun total rest (i + 1) next.2 next.1
    (msg :: out.1, out.2)

/-- The command returned by the method `processFiles` of `main.go`, run to its end: the
messages the goroutine sent on `progressChan` (the channel is first-in first-out and read by
this command alone), the message the command returns, and the final state of the world. -/
def processFiles {σ : Type} (copyFile : σ → GoString → σ × Bool) (m : model)
    (files : List GoString) (s : σ) : List copyProgressMsg × copyCompleteMsg × σ :=
  let out := processLoop copyFile m.config.DryRun (len files) files 0 0 s
  let lastProgress := out.1.foldl (fun _ progress => progress) copyProgressMsg.zero
  (out.1, { success := true, copied := lastProgress.copied, total := len files }, out.2)

/-- The outcomes (`err == nil`) of the successive `copyFile` calls of a run that is not a dry
run. -/
def copyOutcomes {σ : Type} (copyFile : σ → GoString → σ × Bool) : List GoString → σ → List Bool
  | [], _ => []
  | file :: rest, s => (copyFile s file).2 :: copyOutcomes copyFile rest (copyFile s file).1

/-! ## File discovery -/

/-- A directory entry as `filepath.WalkDir` meets it: a non-directory, or a directory with
the entries `os.ReadDir` lists for it and whether `os.ReadDir` also reported an error. -/
inductive DirEntry where
  | file (name : GoString)
  | dir (name : GoString) (entries : List DirEntry) (readErr : Bool)

/-- The method `Name` of `fs.DirEntry`. -/
def DirEntry.Name : DirEntry → GoString
  | .file name => name
  | .dir name _ _ => name

/-- The method `IsDir` of `fs.DirEntry`. -/
def DirEntry.IsDir : DirEntry → Bool
  | .file _ => false
  | .dir _ _ _ => true

/-- The non-nil errors a `fs.WalkDirFunc` may return. -/
inductive WalkError where
  | SkipDir
  | SkipAll
  | other
  deriving DecidableEq, Repr

/-- A `fs.WalkDirFunc` acting on a state `σ`: it receives the path, the entry (nil when
`os.Lstat` of the root failed) and whether the error argument is non-nil. -/
abbrev WalkDirFunc (σ : Type) := σ → GoString → Option DirEntry → Bool → σ × Option WalkError

mutual
/-- Go `filepath.walkDir`. -/
def filepath.walkDir {σ : Type} (fn : WalkDirFunc σ) (path : GoString) :
    DirEntry → σ → σ × Option WalkError
  | .file name, s => fn s path (some (.file name)) false
  | .dir name entries readErr, s =>
    let d := DirEntry.dir name entries readErr
    let r := fn s path (some d) false
    match r.2 with
    | some e => if e = WalkError.SkipDir then (r.1, none) else (r.1, some e)
    | none =>
      let r2 : σ × Option WalkError := if readErr then fn r.1 path (some d) true else (r.1, none)
      match r2.2 with
      | some e => if e = WalkError.SkipDir then (r2.1, none) else (r2.1, some e)
      | none => filepath.walkDirEntries fn path entries r2.1
/-- The loop `for _, d1 := range dirs` of Go `filepath.walkDir`. -/
def filepath.walkDirEntries {σ : Type} (fn : WalkDirFunc σ) (path : GoString) :
    List DirEntry → σ → σ × Option WalkError
  | [], s => (s, none)
  | d1 :: rest, s =>
    let r := filepath.walkDir fn (filepath.Join [path, d1.Name]) d1 s
    match r.2 with
    | some e => if e = WalkError.SkipDir then (r.1, none) else (r.1, some e)
    | none => filepath.walkDirEntries fn path rest r.1
end

/-- Go `filepath.WalkDir`; `root` is what `os.Lstat` finds at the root path, `none` when it
fails. -/
def filepath.WalkDir {σ : Type} (fn : WalkDirFunc σ) (rootPath : GoString)
    (root : Option DirEntry) (s : σ) : σ × Option WalkError :=
  let r : σ × Option WalkError :=
    match root with
    | none => fn s rootPath none true
    | some d => filepath.walkDir fn rootPath d s
  if r.2 = some WalkError.SkipDir ∨ r.2 = some WalkError.SkipAll then (r.1, none) else r

/-- The loop `for _, allowedExt := range m.config.Extensions` of `scanFiles`, with its
`break`. -/
def scanMatch (ext path : GoString) (files : List GoString) : List GoString → List GoString
  | [] => files
  | allowedExt :: rest =>
    if ext = allowedExt then files ++ [path] else scanMatch ext path files rest

/-- The function literal that `scanFiles` hands to `filepath.WalkDir`. -/
def scanFn (tbl : Char → Char) (m : model) : WalkDirFunc (List GoString) :=
  fun files path d err =>
    if err then (files, none)
    else
      match d with
      | none => (files, none)
      | some d =>
        if d.IsDir then (files, none)
        else
          let ext := strings.ToLower tbl (filepath.Ext d.Name)
          (scanMatch ext path files m.config.Extensions, none)

/-- The method `scanFiles` of `main.go`: the files found and the error of the walk. -/
def scanFiles (tbl : Char → Char) (m : model) (root : Option DirEntry) :
    List GoString × Option WalkError :=
  filepath.WalkDir (scanFn tbl m) m.config.SourceDir root []

mutual
/-- The entries below and including `d`, with their paths, in the order of the walk. -/
def walkOrder (path : GoString) : DirEntry → List (GoString × DirEntry)
  | .file name => [(path, .file name)]
  | .dir name entries readErr =>
    (path, .dir name entries readErr) :: walkOrderEntries path entries
/-- The entries below the directory at `path`, in the order of the walk. -/
def walkOrderEntries (path : GoString) : List DirEntry → List (GoString × DirEntry)
  | [] => []
  | d1 :: rest =>
    walkOrder (filepath.Join [path, d1.Name]) d1 ++ walkOrderEntries path rest
end

/-- The entries that a walk from `rootPath` visits, with their paths, in order. -/
def visited (rootPath : GoString) : Option DirEntry → List (GoString × DirEntry)
  | none => []
  | some d => walkOrder rootPath d

/-- Whether `scanFiles` is to keep an entry: it is not a directory and its lower-cased
extension is one of the configured extensions. -/
def wanted (tbl : Char → Char) (m : model) (d : DirEntry) : Bool :=
  !d.IsDir && decide (strings.ToLower tbl (filepath.Ext d.Name) ∈ m.config.Extensions)

/-- The paths of the wanted entries among `entries`, in order, one for each such entry. -/
def wantedPaths (tbl : Char → Char) (m : model) (entries : List (GoString × DirEntry)) :
    List GoString :=
  (entries.filter (fun pd => wanted tbl m pd.2)).map Prod.fst

/-! ## The wizard -/

/-- The operating system as the wizard sees it: the home directory (`os.UserHomeDir`), the
working directory (`os.Getwd`) and the listing of a directory (`os.ReadDir`: the names with
their `IsDir` flags, or `none` when it reports an error). -/
structure Env where
  homeDir : GoString
  workDir : GoString
  readDir : GoString → Option (List (GoString × Bool))

/-- The struct `shortcut` of `main.go`. -/
structure shortcut where
  label : GoString
  path : GoString
  deriving DecidableEq, Repr

/-- The commands `Update` returns: nil, `tea.Quit`, the batch of `startCopying` (the scan of
the given model together with a tick), the command of `processFiles`, and a tick. -/
inductive Cmd where
  | nil
  | Quit
  | startCopying (m : model)
  | processFiles (m : model) (files : List GoString)
  | tick
  deriving DecidableEq, Repr

/-- The messages `Update` receives; a key message is given by its `String()`. -/
inductive Msg where
  | KeyMsg (key : GoString)
  | progress (msg : copyProgressMsg)
  | complete (msg : copyCompleteMsg)
  | tickMsg
  | startCopyMsg (files : List GoString)
  | other
  deriving DecidableEq, Repr

/-- Go `len` of a string: the number of bytes of its UTF-8 encoding. -/
def byteLen (s : GoString) : Int :=
  ((s.map Char.utf8Size).sum : Nat)

/-- Go `<` on strings (byte-wise, which on UTF-8 is the order of the code points). -/
def stringLess : GoString → GoString → Bool
  | [], [] => false
  | [], _ :: _ => true
  | _ :: _, [] => false
  | a :: s, b :: t =>
    if a.toNat < b.toNat then true
    else if b.toNat < a.toNat then false
    else stringLess s t

/-- Go `sort.Strings`. -/
def sortStrings (l : List GoString) : List GoString :=
  l.insertionSort (fun a b => stringLess b a = false)

/-- The function `initialModel` of `main.go`. -/
def initialModel (env : Env) : model :=
  { state := state.stateMenu
    cursor := 0
    config :=
      { SourceDir := []
        DestDir := []
        Extensions := [".jpg".toList, ".png".toList, ".pdf".toList]
        Recursive := true
        Verbose := false
        DryRun := false }
    currentPath := env.workDir
    directories := []
    message := []
    progress := 0
    totalFiles := 0
    copiedFiles := 0
    currentFile := []
    customInput := []
    quitting := false }

/-- The function `getShortcuts` of `main.go`. -/
def getShortcuts (env : Env) : List shortcut :=
  [ { label := "📁 Current folder".toList, path := env.workDir },
    { label := "🏠 Home folder".toList, path := env.homeDir },
    { label := "🖥️  Desktop".toList, path := filepath.Join [env.homeDir, "Desktop".toList] },
    { label := "📁 Documents".toList, path := filepath.Join [env.homeDir, "Documents".toList] },
    { label := "📁 Downloads".toList, path := filepath.Join [env.homeDir, "Downloads".toList] },
    { label := "📸 Pictures".toList, path := filepath.Join [env.homeDir, "Pictures".toList] },
    { label := "🎵 Music".toList, path := filepath.Join [env.homeDir, "Music".toList] },
    { label := "🎬 Videos".toList, path := filepath.Join [env.homeDir, "Videos".toList] },
    { label := "📂 Browse folders...".toList, path := [] },
    { label := "🔙 Back".toList, path := [] } ]

/-- The function `getDirectories` of `main.go`. -/
def getDirectories (env : Env) (path : GoString) : List GoString :=
  match env.readDir path with
  | none => []
  | some entries =>
    sortStrings
      ((entries.filter (fun e => e.2 && !strings.HasPrefix e.1 ['.'])).map
        (fun e => "📁 ".toList ++ e.1))

/-- The warning that `updateMenu` sets when the start row is refused. -/
def startWarning : GoString :=
  "Please select source and destination folders first!".toList

/-- The method `updateMenu` of `main.go`. -/
def updateMenu (m : model) (key : GoString) : model × Cmd :=
  if key = "up".toList ∨ key = "k".toList then
    (if m.cursor > 0 then { m with cursor := m.cursor - 1 } else m, Cmd.nil)
  else if key = "down".toList ∨ key = "j".toList then
    (if m.cursor < 5 then { m with cursor := m.cursor + 1 } else m, Cmd.nil)
  else if key = "enter".toList then
    if m.cursor = 0 then ({ m with state := state.stateSourceSelect, cursor := 0 }, Cmd.nil)
    else if m.cursor = 1 then ({ m with state := state.stateDestSelect, cursor := 0 }, Cmd.nil)
    else if m.cursor = 2 then ({ m with state := state.stateExtensions }, Cmd.nil)
    else if m.cursor = 3 then ({ m with state := state.stateOptions, cursor := 0 }, Cmd.nil)
    else if m.cursor = 4 then
      if m.config.SourceDir ≠ [] ∧ m.config.DestDir ≠ [] then
        ({ m with state := state.stateConfirm, cursor := 0 }, Cmd.nil)
      else ({ m with message := startWarning }, Cmd.nil)
    else if m.cursor = 5 then ({ m with quitting := true }, Cmd.Quit)
    else (m, Cmd.nil)
  else (m, Cmd.nil)

/-- The shortcut at index `i`, as `shortcuts[i]` reads it. The source reads it below
`len(shortcuts) - 2` only, so the index is in range unless the cursor is negative, which it
never is in a session (a negative index would stop the program). -/
def shortcutAt (shortcuts : List shortcut) (i : Int) : shortcut :=
  shortcuts.getD i.toNat { label := [], path := [] }

/-- The method `updateSourceSelect` of `main.go`. -/
def updateSourceSelect (env : Env) (m : model) (key : GoString) : model × Cmd :=
  let shortcuts := getShortcuts env
  if key = "up".toList ∨ key = "k".toList then
    (if m.cursor > 0 then { m with cursor := m.cursor - 1 } else m, Cmd.nil)
  else if key = "down".toList ∨ key = "j".toList then
    (if m.cursor < len shortcuts - 1 then { m with cursor := m.cursor + 1 } else m, Cmd.nil)
  else if key = "enter".toList then
    if m.cursor < len shortcuts - 2 then
      ({ m with
          config := { m.config with SourceDir := (shortcutAt shortcuts m.cursor).path }
          state := state.stateMenu
          cursor := 1 }, Cmd.nil)
    else if m.cursor = len shortcuts - 2 then
      ({ m with
          state := state.stateBrowseSource
          cursor := 0
          directories := getDirectories env m.currentPath }, Cmd.nil)
    else ({ m with state := state.stateMenu, cursor := 0 }, Cmd.nil)
  else if key = "backspace".toList then
    ({ m with state := state.stateMenu, cursor := 0 }, Cmd.nil)
  else (m, Cmd.nil)

/-- The method `updateDestSelect` of `main.go`. -/
def updateDestSelect (env : Env) (m : model) (key : GoString) : model × Cmd :=
  let shortcuts := getShortcuts env
  if key = "up".toList ∨ key = "k".toList then
    (if m.cursor > 0 then { m with cursor := m.cursor - 1 } else m, Cmd.nil)
  else if key = "down".toList ∨ key = "j".toList then
    (if m.cursor < len shortcuts - 1 then { m with cursor := m.cursor + 1 } else m, Cmd.nil)
  else if key = "enter".toList then
    if m.cursor < len shortcuts - 2 then
      ({ m with
          config := { m.config with DestDir := (shortcutAt shortcuts m.cursor).path }
          state := state.stateMenu
          cursor := 2 }, Cmd.nil)
    else if m.cursor = len shortcuts - 2 then
      ({ m with
          state := state.stateBrowseDest
          cursor := 0
          directories := getDirectories env m.currentPath }, Cmd.nil)
    else ({ m with state := state.stateMenu, cursor := 1 }, Cmd.nil)
  else if key = "backspace".toList then
    ({ m with state := state.stateMenu, cursor := 1 }, Cmd.nil)
  else (m, Cmd.nil)

/-- The label of the row that leads to the parent directory. -/
def upLabel : GoString :=
  "⬆️  Up".toList

/-- The rows of the browse screen, as `updateBrowse` builds them. -/
def browseOptions (m : model) : List GoString :=
  let options := ["✅ Select this folder".toList]
  let options :=
    if m.currentPath ≠ ['/'] ∧ m.currentPath ≠ filepath.Dir m.currentPath then
      options ++ [upLabel]
    else options
  let options := options ++ m.directories
  options ++ ["🔙 Back".toList]

/-- The method `updateBrowse` of `main.go`. -/
def updateBrowse (env : Env) (m : model) (key : GoString) : model × Cmd :=
  let options := browseOptions m
  if key = "up".toList ∨ key = "k".toList then
    (if m.cursor > 0 then { m with cursor := m.cursor - 1 } else m, Cmd.nil)
  else if key = "down".toList ∨ key = "j".toList then
    (if m.cursor < len options - 1 then { m with cursor := m.cursor + 1 } else m, Cmd.nil)
  else if key = "enter".toList then
    if m.cursor = 0 then
      if m.state = state.stateBrowseSource then
        ({ m with
            config := { m.config with SourceDir := m.currentPath }
            state := state.stateMenu
            cursor := 1 }, Cmd.nil)
      else
        ({ m with
            config := { m.config with DestDir := m.currentPath }
            state := state.stateMenu
            cursor := 2 }, Cmd.nil)
    else if len options > 1 ∧ m.cursor = 1 ∧ options[1]? = some upLabel then
      let currentPath := filepath.Dir m.currentPath
      ({ m with
          currentPath := currentPath
          directories := getDirectories env currentPath
          cursor := 0 }, Cmd.nil)
    else if m.cursor = len options - 1 then
      if m.state = state.stateBrowseSource then
        ({ m with state := state.stateSourceSelect, cursor := 0 }, Cmd.nil)
      else ({ m with state := state.stateDestSelect, cursor := 0 }, Cmd.nil)
    else
      let dirIndex : Int :=
        if len options > 1 ∧ options[1]? = some upLabel then wrapInt64 (m.cursor - 2)
        else wrapInt64 (m.cursor - 1)
      if dirIndex ≥ 0 ∧ dirIndex < len m.directories then
        let dirName := strings.TrimPrefix (m.directories.getD dirIndex.toNat []) "📁 ".toList
        let currentPath := filepath.Join [m.currentPath, dirName]
        ({ m with
            currentPath := currentPath
            directories := getDirectories env currentPath
            cursor := 0 }, Cmd.nil)
      else (m, Cmd.nil)
  else if key = "backspace".toList then
    if m.state = state.stateBrowseSource then
      ({ m with state := state.stateSourceSelect, cursor := 0 }, Cmd.nil)
    else ({ m with state := state.stateDestSelect, cursor := 0 }, Cmd.nil)
  else (m, Cmd.nil)

/-- The preset groups of `updateExtensions`. -/
def presets : List (List GoString) :=
  [ [".jpg".toList, ".png".toList, ".gif".toList, ".bmp".toList],
    [".pdf".toList, ".doc".toList, ".docx".toList, ".txt".toList],
    [".mp4".toList, ".avi".toList, ".mkv".toList, ".mov".toList],
    [".mp3".toList, ".wav".toList, ".flac".toList, ".m4a".toList],
    [".zip".toList, ".rar".toList, ".7z".toList, ".tar".toList] ]

/-- The method `updateExtensions` of `main.go`. The preset is read at a cursor below
`len(presets)`, in range unless the cursor is negative, which it never is in a session. -/
def updateExtensions (m : model) (key : GoString) : model × Cmd :=
  let maxCursor := len presets + 1
  if key = "up".toList ∨ key = "k".toList then
    (if m.cursor > 0 then { m with cursor := m.cursor - 1 } else m, Cmd.nil)
  else if key = "down".toList ∨ key = "j".toList then
    (if m.cursor < maxCursor then { m with cursor := m.cursor + 1 } else m, Cmd.nil)
  else if key = "enter".toList then
    if m.cursor < len presets then
      ({ m with
          config := { m.config with Extensions := presets.getD m.cursor.toNat [] }
          state := state.stateMenu
          cursor := 3 }, Cmd.nil)
    else if m.cursor = len presets then
      ({ m with
          state := state.stateCustomExtensions
          customInput := strings.Join m.config.Extensions ", ".toList
          cursor := 0 }, Cmd.nil)
    else ({ m with state := state.stateMenu, cursor := 2 }, Cmd.nil)
  else if key = "backspace".toList then
    ({ m with state := state.stateMenu, cursor := 2 }, Cmd.nil)
  else (m, Cmd.nil)

/-- The method `updateCustomExtensions` of `main.go`. The buffer holds ASCII only wherever
the wizard fills it, so cutting its last byte cuts its last code point. -/
def updateCustomExtensions (tbl : Char → Char) (m : model) (key : GoString) : model × Cmd :=
  if key = "enter".toList then
    ({ m with
        config := { m.config with Extensions := parseExtensions tbl m.customInput }
        state := state.stateMenu
        cursor := 3 }, Cmd.nil)
  else if key = "backspace".toList then
    (if byteLen m.customInput > 0 then { m with customInput := m.customInput.dropLast } else m,
      Cmd.nil)
  else if key = "esc".toList then
    ({ m with state := state.stateExtensions, cursor := len presets }, Cmd.nil)
  else if byteLen key = 1 then
    if (stringLess key "a".toList = false ∧ stringLess "z".toList key = false) ∨
        (stringLess key "A".toList = false ∧ stringLess "Z".toList key = false) ∨
        (stringLess key "0".toList = false ∧ stringLess "9".toList key = false) ∨
        key = ".".toList ∨ key = ",".toList ∨ key = " ".toList then
      ({ m with customInput := m.customInput ++ key }, Cmd.nil)
    else (m, Cmd.nil)
  else (m, Cmd.nil)

/-- The method `updateOptions` of `main.go`. -/
def updateOptions (m : model) (key : GoString) : model × Cmd :=
  if key = "up".toList ∨ key = "k".toList then
    (if m.cursor > 0 then { m with cursor := m.cursor - 1 } else m, Cmd.nil)
  else if key = "down".toList ∨ key = "j".toList then
    (if m.cursor < 3 then { m with cursor := m.cursor + 1 } else m, Cmd.nil)
  else if key = "enter".toList then
    if m.cursor = 0 then
      ({ m with config := { m.config with Recursive := !m.config.Recursive } }, Cmd.nil)
    else if m.cursor = 1 then
      ({ m with config := { m.config with Verbose := !m.config.Verbose } }, Cmd.nil)
    else if m.cursor = 2 then
      ({ m with config := { m.config with DryRun := !m.config.DryRun } }, Cmd.nil)
    else if m.cursor = 3 then ({ m with state := state.stateMenu, cursor := 4 }, Cmd.nil)
    else (m, Cmd.nil)
  else if key = "backspace".toList then
    ({ m with state := state.stateMenu, cursor := 3 }, Cmd.nil)
  else (m, Cmd.nil)

/-- The method `updateConfirm` of `main.go`. -/
def updateConfirm (m : model) (key : GoString) : model × Cmd :=
  if key = "left".toList ∨ key = "h".toList then ({ m with cursor := 0 }, Cmd.nil)
  else if key = "right".toList ∨ key = "l".toList then ({ m with cursor := 1 }, Cmd.nil)
  else if key = "enter".toList then
    if m.cursor = 0 then
      let m1 := { m with state := state.stateCopying, progress := 0 }
      (m1, Cmd.startCopying m1)
    else ({ m with state := state.stateMenu, cursor := 4 }, Cmd.nil)
  else if key = "backspace".toList then
    ({ m with state := state.stateMenu, cursor := 4 }, Cmd.nil)
  else (m, Cmd.nil)

/-- The method `Update` of `main.go`. -/
def Update (tbl : Char → Char) (env : Env) (m : model) (msg : Msg) : model × Cmd :=
  match msg with
  | Msg.KeyMsg key =>
    if key = "ctrl+c".toList ∨ key = "esc".toList then ({ m with quitting := true }, Cmd.Quit)
    else if key = "q".toList ∧ m.state = state.stateComplete then
      ({ m with quitting := true }, Cmd.Quit)
    else
      match m.state with
      | state.stateMenu => updateMenu m key
      | state.stateSourceSelect => updateSourceSelect env m key
      | state.stateDestSelect => updateDestSelect env m key
      | state.stateBrowseSource => updateBrowse env m key
      | state.stateBrowseDest => updateBrowse env m key
      | state.stateExtensions => updateExtensions m key
      | state.stateCustomExtensions => updateCustomExtensions tbl m key
      | state.stateOptions => updateOptions m key
      | state.stateConfirm => updateConfirm m key
      | state.stateCopying => (m, Cmd.nil)
      | state.stateComplete => (m, Cmd.nil)
  | Msg.progress msg =>
    ({ m with
        currentFile := msg.file
        progress := msg.progress
        totalFiles := msg.total
        copiedFiles := msg.copied }, Cmd.nil)
  | Msg.complete msg =>
    ({ m with state := state.stateComplete, copiedFiles := msg.copied, totalFiles := msg.total },
      Cmd.nil)
  | Msg.tickMsg => if m.state = state.stateCopying then (m, Cmd.tick) else (m, Cmd.nil)
  | Msg.startCopyMsg files => (m, Cmd.processFiles m files)
  | Msg.other => (m, Cmd.nil)

/-! ## The presentation -/

/-- The bytes of a Go string. Where the source counts or cuts bytes (`getDisplayPath`) and
where it writes text for the terminal, a string is taken as its UTF-8 bytes; any sequence
of bytes is a Go string. -/
abbrev Bytes := List UInt8

/-- The UTF-8 encoding of a string of code points. -/
def utf8 (s : GoString) : Bytes :=
  s.flatMap String.utf8EncodeChar

/-- The `lipgloss` styles of `main.go`, each given by its method `Render`. -/
structure Styles where
  titleStyle : Bytes → Bytes
  headerStyle : Bytes → Bytes
  selectedStyle : Bytes → Bytes
  normalStyle : Bytes → Bytes
  warningStyle : Bytes → Bytes
  infoStyle : Bytes → Bytes
  boxStyle : Bytes → Bytes
  progressBarStyle : Bytes → Bytes
  progressFilledStyle : Bytes → Bytes
  progressEmptyStyle : Bytes → Bytes

/-- The function `getDisplayPath` of `main.go`. -/
def getDisplayPath (path : Bytes) : Bytes :=
  if path = [] then utf8 "not selected".toList
  else if len path > 50 then utf8 "...".toList ++ path.drop (path.length - 47)
  else path

/-- The function `getBoolDisplay` of `main.go`. -/
def getBoolDisplay (value : Bool) : Bytes :=
  if value then utf8 "✅ Yes".toList else utf8 "❌ No".toList

/-- The loop `for i, item := range items` of the view functions: every row is rendered with
`selectedStyle` when its index is the cursor and with `normalStyle` otherwise, and followed
by `sep`. -/
def renderRows (st : Styles) (cursor : Int) (items : List Bytes) (sep : Bytes) : Bytes :=
  items.enum.flatMap (fun row =>
    (if (row.1 : Int) = cursor then st.selectedStyle row.2 else st.normalStyle row.2) ++ sep)

/-- The rows of the main menu, the slice `items` of `viewMenu`. -/
def menuItems (m : model) : List Bytes :=
  [ utf8 "📂 Source folder: ".toList ++ getDisplayPath (utf8 m.config.SourceDir),
    utf8 "📁 Destination folder: ".toList ++ getDisplayPath (utf8 m.config.DestDir),
    utf8 "📄 File formats: ".toList ++ utf8 (strings.Join m.config.Extensions ", ".toList),
    utf8 "⚙️  Additional settings".toList,
    utf8 "🚀 Start copying".toList,
    utf8 "🚪 Exit".toList ]

/-- The method `viewMenu` of `main.go`. -/
def viewMenu (st : Styles) (m : model) : Bytes :=
  st.headerStyle (utf8 "📋 Main Menu".toList) ++ utf8 "\n\n".toList ++
    renderRows st m.cursor (menuItems m) (utf8 "\n".toList)

/-- The method `viewDirectorySelect` of `main.go`. -/
def viewDirectorySelect (st : Styles) (env : Env) (m : model) (title : GoString) : Bytes :=
  st.headerStyle (utf8 title) ++ utf8 "\n\n".toList ++
    renderRows st m.cursor ((getShortcuts env).map (fun sc => utf8 sc.label)) (utf8 "\n".toList)

/-- The method `viewSourceSelect` of `main.go`. -/
def viewSourceSelect (st : Styles) (env : Env) (m : model) : Bytes :=
  viewDirectorySelect st env m "📂 Select source folder".toList

/-- The method `viewDestSelect` of `main.go`. -/
def viewDestSelect (st : Styles) (env : Env) (m : model) : Bytes :=
  viewDirectorySelect st env m "📁 Select destination folder".toList

/-- The method `viewBrowse` of `main.go`; its rows are built as in `updateBrowse`. -/
def viewBrowse (st : Styles) (m : model) : Bytes :=
  st.headerStyle (utf8 "📁 ".toList ++ utf8 m.currentPath) ++ utf8 "\n\n".toList ++
    renderRows st m.cursor ((browseOptions m).map utf8) (utf8 "\n".toList)

/-- The labels of the rows of `viewExtensions`. -/
def extensionLabels : List GoString :=
  [ "🖼️  Images".toList, "📄 Documents".toList, "🎬 Video".toList, "🎵 Audio".toList,
    "📦 Archives".toList, "✏️  Custom extensions".toList, "🔙 Back".toList ]

/-- The method `viewExtensions` of `main.go`. -/
def viewExtensions (st : Styles) (m : model) : Bytes :=
  st.headerStyle (utf8 "📄 Select file types".toList) ++ utf8 "\n\n".toList ++
    renderRows st m.cursor (extensionLabels.map utf8) (utf8 "\n".toList) ++
    utf8 "\n".toList ++
    st.infoStyle (utf8 "Current: ".toList ++ utf8 (strings.Join m.config.Extensions ", ".toList))

/-- The help line of the custom extensions screen. -/
def customExtensionsHelp : GoString :=
  "Enter: save • Backspace: delete character • Esc: cancel".toList

/-- The method `viewCustomExtensions` of `main.go`. -/
def viewCustomExtensions (st : Styles) (m : model) : Bytes :=
  st.headerStyle (utf8 "✏️ Custom extensions".toList) ++ utf8 "\n\n".toList ++
    st.boxStyle
      (utf8 "Enter file extensions separated by commas\nExample: .txt, .log, pdf, docx\n\nInput: ".toList ++
        utf8 m.customInput ++ utf8 "|".toList) ++
    utf8 "\n\n".toList ++ st.infoStyle (utf8 customExtensionsHelp) ++ utf8 "\n".toList ++
    st.infoStyle
      (utf8 "Current extensions: ".toList ++ utf8 (strings.Join m.config.Extensions ", ".toList))

/-- The method `viewOptions` of `main.go`. -/
def viewOptions (st : Styles) (m : model) : Bytes :=
  st.headerStyle (utf8 "⚙️ Additional settings".toList) ++ utf8 "\n\n".toList ++
    renderRows st m.cursor
      [ utf8 "🔍 Search in subfolders: ".toList ++ getBoolDisplay m.config.Recursive,
        utf8 "📝 Verbose output: ".toList ++ getBoolDisplay m.config.Verbose,
        utf8 "🧪 Dry run mode: ".toList ++ getBoolDisplay m.config.DryRun,
        utf8 "🔙 Back".toList ]
      (utf8 "\n".toList)

/-- The method `viewConfirm` of `main.go`. -/
def viewConfirm (st : Styles) (m : model) : Bytes :=
  st.headerStyle (utf8 "🚀 Operation confirmation".toList) ++ utf8 "\n\n".toList ++
    st.boxStyle
      (utf8 "📂 Source folder: ".toList ++ utf8 m.config.SourceDir ++
        utf8 "\n📁 Destination folder: ".toList ++ utf8 m.config.DestDir ++
        utf8 "\n📄 Formats: ".toList ++ utf8 (strings.Join m.config.Extensions ", ".toList) ++
        utf8 "\n🔍 Recursive: ".toList ++ getBoolDisplay m.config.Recursive ++
        utf8 "\n📋 Copy mode: flat (all files in one folder)\n🧪 Dry run mode: ".toList ++
        getBoolDisplay m.config.DryRun) ++
    utf8 "\n\n".toList ++
    renderRows st m.cursor [utf8 "✅ Start".toList, utf8 "❌ Cancel".toList] (utf8 "  ".toList)

/-- The method `viewCopying` of `main.go`. -/
def viewCopying (st : Styles) (m : model) : Bytes :=
  let progressWidth : Int := 50
  let filled := Int.tdiv (wrapInt64 (m.progress * progressWidth)) 100
  let progressBar : Bytes :=
    (List.range 50).flatMap (fun i =>
      if (i : Int) < filled then st.progressFilledStyle (utf8 "█".toList)
      else st.progressEmptyStyle (utf8 "░".toList))
  st.headerStyle (utf8 "📋 Copying files".toList) ++ utf8 "\n\n".toList ++
    st.progressBarStyle
      (utf8 "Progress: ".toList ++ utf8 (formatInt m.progress) ++ utf8 "%\n".toList ++
        progressBar ++ utf8 "\nFiles: ".toList ++ utf8 (formatInt m.copiedFiles) ++
        utf8 "/".toList ++ utf8 (formatInt m.totalFiles) ++ utf8 "\nCurrent: ".toList ++
        utf8 m.currentFile)

/-- The method `viewComplete` of `main.go`. -/
def viewComplete (st : Styles) (m : model) : Bytes :=
  st.headerStyle (utf8 "✅ Operation completed".toList) ++ utf8 "\n\n".toList ++
    st.boxStyle
      (utf8 "Files copied: ".toList ++ utf8 (formatInt m.copiedFiles) ++ utf8 " of ".toList ++
        utf8 (formatInt m.totalFiles) ++ utf8 "\nOperation completed successfully!".toList) ++
    utf8 "\n\n".toList ++ st.infoStyle (utf8 "Press \x27q\x27 to exit".toList)

/-- The method `View` of `main.go`. It has a value receiver: besides the text it returns,
the second component is the method's own copy of the model as the method leaves it, which
the caller never sees. -/
def View (st : Styles) (env : Env) (m : model) : Bytes × model :=
  if m.quitting then ([], m)
  else
    let s : Bytes := st.titleStyle (utf8 "📁 Flat File Copy Utility".toList) ++ utf8 "\n\n".toList
    let s : Bytes :=
      s ++
        (match m.state with
        | state.stateMenu => viewMenu st m
        | state.stateSourceSelect => viewSourceSelect st env m
        | state.stateDestSelect => viewDestSelect st env m
        | state.stateBrowseSource => viewBrowse st m
        | state.stateBrowseDest => viewBrowse st m
        | state.stateExtensions => viewExtensions st m
        | state.stateCustomExtensions => viewCustomExtensions st m
        | state.stateOptions => viewOptions st m
        | state.stateConfirm => viewConfirm st m
        | state.stateCopying => viewCopying st m
        | state.stateComplete => viewComplete st m)
    let r : Bytes × model :=
      if m.message ≠ [] then
        (s ++ (utf8 "\n".toList ++ st.warningStyle (utf8 "⚠️ ".toList ++ utf8 m.message)),
          { m with message := [] })
      else (s, m)
    (r.1 ++ (utf8 "\n\n".toList ++
        st.infoStyle
          (utf8 "↑/↓: navigation • Enter: select • Backspace: back • Esc: exit".toList)),
      r.2)

/-! ## Sessions -/

/-- One round of the program's loop: the model is drawn with `View` and then updated with
the next message. The model that `Update` receives is the one that was drawn: `View` works
on a copy. The result is the text drawn, the next model and the command. -/
def drawThenUpdate (tbl : Char → Char) (st : Styles) (env : Env) (m : model) (msg : Msg) :
    Bytes × model × Cmd :=
  ((View st env m).1, Update tbl env m msg)

/-- The model after the key events `keys`, in order. -/
def runKeys (tbl : Char → Char) (env : Env) (m : model) (keys : List GoString) : model :=
  keys.foldl (fun m key => (Update tbl env m (Msg.KeyMsg key)).1) m

/-- The models reachable from the initial model by key events. -/
inductive Reachable (tbl : Char → Char) (env : Env) : model → Prop where
  | init : Reachable tbl env (initialModel env)
  | key (m : model) (key : GoString) :
    Reachable tbl env m → Reachable tbl env (Update tbl env m (Msg.KeyMsg key)).1

/-- The glyph that `getDirectories` puts in front of a directory name. -/
def folderGlyph : GoString :=
  "📁 ".toList

/-! ## Invariants of a session -/

/-- The cursor is a row of the active screen: it is not negative, and it is at most 5 in
the menu, 9 in the two selection screens, the last row of the options in the two browse
screens, 6 in the extensions screen, 3 in the options screen and 1 in the confirmation. -/
def cursorInRange (m : model) : Prop :=
  0 ≤ m.cursor ∧
    match m.state with
    | state.stateMenu => m.cursor ≤ 5
    | state.stateSourceSelect => m.cursor ≤ 9
    | state.stateDestSelect => m.cursor ≤ 9
    | state.stateBrowseSource => m.cursor ≤ len (browseOptions m) - 1
    | state.stateBrowseDest => m.cursor ≤ len (browseOptions m) - 1
    | state.stateExtensions => m.cursor ≤ 6
    | state.stateOptions => m.cursor ≤ 3
    | state.stateConfirm => m.cursor ≤ 1
    | _ => True

/-- On the confirmation and the copying screen both folders are chosen. -/
def foldersChosen (m : model) : Prop :=
  m.state = state.stateConfirm ∨ m.state = state.stateCopying →
    m.config.SourceDir ≠ [] ∧ m.config.DestDir ≠ []

/-- An extension in the form that `parseExtensions` produces: it starts with a dot, does not
end in white space, is its own lower-casing and holds no comma and no space. -/
def normalExtension (tbl : Char → Char) (e : GoString) : Prop :=
  (∃ u, e = '.' :: u) ∧ (∃ i z, e = i ++ [z] ∧ unicode.IsSpace z = false) ∧
    strings.ToLower tbl e = e ∧ ∀ c ∈ e, isExtSeparator c = false

/-- On the two browse screens the directories shown are those listed for the current path. -/
def directoriesListed (env : Env) (m : model) : Prop :=
  m.state = state.stateBrowseSource ∨ m.state = state.stateBrowseDest →
    m.directories = getDirectories env m.currentPath

/-- What `Update` returns keeps the folders chosen: the model has both folders on the
confirmation and the copying screen, and a command that starts the copy carries a model
with both folders. -/
def foldersKept (r : model × Cmd) : Prop :=
  foldersChosen r.1 ∧
    ∀ m1 : model, r.2 = Cmd.startCopying m1 → m1.config.SourceDir ≠ [] ∧ m1.config.DestDir ≠ []

/-- A string of ASCII code points. -/
def asciiOnly (s : GoString) : Prop :=
  ∀ c ∈ s, c.toNat ≤ 127

/-- The extensions of a session are in the form that `parseExtensions` produces, and they
and the buffer of the editor hold ASCII only. -/
def extensionsSettled (m : model) : Prop :=
  asciiOnly m.customInput ∧
    ∀ e ∈ m.config.Extensions, normalExtension (fun r => r) e ∧ asciiOnly e

/-! ## The file system -/

/-- A file system as a finite map from paths to contents: the list of its files, each path
bound once (a write replaces the binding). -/
abbrev FileSystem := List (GoString × Bytes)

/-- The paths that exist in a file system. -/
def fsPaths (fs : FileSystem) : List GoString :=
  fs.map Prod.fst

/-- The content of the file at `path`, if there is one. -/
def fsRead (fs : FileSystem) (path : GoString) : Option Bytes :=
  (fs.find? (fun e => decide (e.1 = path))).map Prod.snd

/-- The file system after `content` is written to `path`: the file is created, or replaced
if it exists. -/
def fsWrite (fs : FileSystem) (path : GoString) (content : Bytes) : FileSystem :=
  (path, content) :: fs.filter (fun e => decide (e.1 ≠ path))

/-- The operating system under `copyFile`, beside the files themselves. `canon` gives the
path of the map that a spelling names (the resolution of `.`, `..` and links). The other
fields are what the system calls may answer, as functions of the state of the file system:
`statErr` says that `os.Stat` of a path returns something else than a not-exist error for a
reason that the map does not show (an empty directory is there, or the error is another
one, such as EACCES); `os.MkdirAll`, `os.Open` and `os.Create` may return
an error; and `io.Copy` may fail after some bytes (`none` when it does not fail). -/
structure Platform where
  canon : GoString → GoString
  statErr : FileSystem → GoString → Bool
  mkdirErr : FileSystem → GoString → Bool
  openErr : FileSystem → GoString → Bool
  createErr : FileSystem → GoString → Bool
  copyErr : FileSystem → GoString → GoString → Option Nat

/-- A platform without links on which no call is refused: a spelling names the path that
`filepath.Clean` gives. -/
def noFaults : Platform :=
  { canon := filepath.Clean
    statErr := fun _ _ => false
    mkdirErr := fun _ _ => false
    openErr := fun _ _ => false
    createErr := fun _ _ => false
    copyErr := fun _ _ _ => none }

/-- What `os.Stat` is to `resolveFileConflict`: `false` when the error is a not-exist error,
`true` otherwise. A path is never reported as not existing when it names a file of the map,
when it lies below one (the error is then ENOTDIR) or when it names a directory above one;
for every other path the platform decides. -/
def osStat (sys : Platform) (fs : FileSystem) (path : GoString) : Bool :=
  (fsPaths fs).any (fun f =>
      decide (f = sys.canon path) || strings.HasPrefix (sys.canon path) (f ++ ['/']) ||
        strings.HasPrefix f (sys.canon path ++ ['/'])) ||
    sys.statErr fs path

/-- The method `copyFile` of `main.go` on a file system: `none` when the call does not
return within `fuel` rounds of the loop of `resolveFileConflict`, otherwise the new file
system and whether the error returned is nil. -/
def copyFile (sys : Platform) (fuel : Nat) (m : model) (fs : FileSystem) (srcPath : GoString) :
    Option (FileSystem × Bool) :=
  let fileName := filepath.Base srcPath
  let destPath := filepath.Join [m.config.DestDir, fileName]
  match resolveFileConflict (osStat sys fs) fuel destPath with
  | none => none
  | some destPath =>
    if sys.mkdirErr fs m.config.DestDir then some (fs, false)
    else
      match (if sys.openErr fs srcPath then none else fsRead fs (sys.canon srcPath)) with
      | none => some (fs, false)
      | some content =>
        if sys.createErr fs destPath then some (fs, false)
        else
          match sys.copyErr fs srcPath destPath with
          | some n => some (fsWrite fs (sys.canon destPath) (content.take n), false)
          | none => some (fsWrite fs (sys.canon destPath) content, true)

/-- A call of `copyFile` within a run of `processFiles`. The state `none` is a run that is
stuck in a call that does not return: nothing more happens to the files, and the call counts
as not succeeded. -/
def copyFileIn (sys : Platform) (fuel : Nat) (m : model) :
    Option FileSystem → GoString → Option FileSystem × Bool
  | none, _ => (none, false)
  | some fs, srcPath =>
    match copyFile sys fuel m fs srcPath with
    | none => (none, false)
    | some r => (some r.1, r.2)

/-! ## Concrete inputs -/

/-- A source tree whose only matching file lies in a nested subdirectory: `src/sub/a.txt`. -/
def nestedTree : DirEntry :=
  DirEntry.dir "src".toList [DirEntry.dir "sub".toList [DirEntry.file "a.txt".toList] false] false

/-- A session that is to collect the `.txt` files of `src` without recursion. -/
def flatScanModel : model :=
  { initialModel { homeDir := [], workDir := [], readDir := fun _ => none } with
    config :=
      { SourceDir := "src".toList
        DestDir := "dst".toList
        Extensions := [".txt".toList]
        Recursive := false
        Verbose := false
        DryRun := false } }

/-- A session at the start row of the menu with no folder chosen yet. -/
def startRowModel : model :=
  { initialModel { homeDir := [], workDir := [], readDir := fun _ => none } with cursor := 4 }

/-- A system whose working directory `/w` has the subdirectories `a` and `b`, but also a
hidden directory and a file. -/
def sampleEnv : Env :=
  { homeDir := "/home/u".toList
    workDir := "/w".toList
    readDir := fun p =>
      if p = "/w".toList then
        some [("b".toList, true), (".git".toList, true), ("a".toList, true),
          ("f.txt".toList, false)]
      else none }

/-- Styles that render a text as it is. -/
def plainStyles : Styles :=
  { titleStyle := fun s => s
    headerStyle := fun s => s
    selectedStyle := fun s => s
    normalStyle := fun s => s
    warningStyle := fun s => s
    infoStyle := fun s => s
    boxStyle := fun s => s
    progressBarStyle := fun s => s
    progressFilledStyle := fun s => s
    progressEmptyStyle := fun s => s }

/-- The keys that lead from the menu to the browse screen of the source folder: Enter on the
source row, eight times down to the row `Browse folders...`, Enter. -/
def toBrowseKeys : List GoString :=
  ["enter".toList] ++ List.replicate 8 "down".toList ++ ["enter".toList]

/-- Three source files with the same base name, and an empty destination `dst`. -/
def sameNameFiles : FileSystem :=
  [ ("x/a.txt".toList, utf8 "one".toList), ("y/a.txt".toList, utf8 "two".toList),
    ("z/a.txt".toList, utf8 "three".toList) ]

/-- The keys that lead from the start of a session to the confirmation: the current folder
is taken as source, the home folder as destination, and the start row is entered. -/
def toConfirmKeys : List GoString :=
  ["enter".toList, "enter".toList, "enter".toList, "down".toList, "enter".toList,
    "down".toList, "down".toList, "enter".toList]

/-- The keys that lead from the start of a session to the row `Custom` of the extensions
screen: down to the extensions row, Enter, down to the sixth row. -/
def toCustomRowKeys : List GoString :=
  ["down".toList, "down".toList, "enter".toList, "down".toList, "down".toList, "down".toList]

/-- A system like `sampleEnv` whose directory `/w/a` has the subdirectories `y` and `x`, a
hidden directory and a file. -/
def nestedEnv : Env :=
  { homeDir := "/home/u".toList
    workDir := "/w".toList
    readDir := fun p =>
      if p = "/w".toList then
        some [("b".toList, true), (".git".toList, true), ("a".toList, true),
          ("f.txt".toList, false)]
      else if p = "/w/a".toList then
        some [("y".toList, true), (".cache".toList, true), ("x".toList, true),
          ("n.txt".toList, false)]
      else none }

/-- The browse screen of the source folder at `/w` on `nestedEnv`, with the cursor on the
row of the first listed directory. -/
def nestedBrowseModel : model :=
  { initialModel nestedEnv with
    state := state.stateBrowseSource
    directories := ["📁 a".toList, "📁 b".toList]
    cursor := 2 }

/-- A file system in which `dst` is a regular file, beside the source file `s/a.txt`. -/
def dstIsFile : FileSystem :=
  [("dst".toList, utf8 "x".toList), ("s/a.txt".toList, utf8 "one".toList)]

/-! ## Lemmas on characters and on `strings.FieldsFunc` -/

theorem char_eq_iff (c d : Char) : c = d ↔ c.toNat = d.toNat := by
  constructor
  · intro h; rw [h]
  · intro h
    rw [← Char.ofNat_toNat c, ← Char.ofNat_toNat d, h]

theorem ascii_upper_cases (r : Char) (h1 : 65 ≤ r.toNat) (h2 : r.toNat ≤ 90) :
    (Char.ofNat (r.toNat + 32)).toNat = r.toNat + 32 := by
  generalize r.toNat = n at *
  interval_cases n <;> rfl

theorem toLower_toNat_ascii (tbl : Char → Char) (r : Char) (h : r.toNat ≤ 127) :
    (unicode.ToLower tbl r).toNat =
      if 65 ≤ r.toNat ∧ r.toNat ≤ 90 then r.toNat + 32 else r.toNat := by
  unfold unicode.ToLower
  rw [if_pos h]
  split_ifs with h2
  · exact ascii_upper_cases r h2.1 h2.2
  · rfl

theorem toLower_of_not_ascii (tbl : Char → Char) (r : Char) (h : 127 < r.toNat) :
    unicode.ToLower tbl r = tbl r := by
  unfold unicode.ToLower
  rw [if_neg (by omega)]

theorem isExtSeparator_iff (c : Char) : isExtSeparator c = true ↔ c.toNat = 44 ∨ c.toNat = 32 := by
  unfold isExtSeparator
  rw [Bool.or_eq_true, decide_eq_true_eq, decide_eq_true_eq, char_eq_iff c ',', char_eq_iff c ' ']
  rfl

theorem isSpace_ascii (r : Char) (h : r.toNat ≤ 127) :
    unicode.IsSpace r = true ↔
      (r.toNat = 9 ∨ r.toNat = 10 ∨ r.toNat = 11 ∨ r.toNat = 12 ∨ r.toNat = 13 ∨ r.toNat = 32) := by
  unfold unicode.IsSpace
  simp only [show r.toNat ≤ 0xFF from by omega, if_true, Bool.or_eq_true, decide_eq_true_eq]
  omega

theorem toLower_sep (tbl : Char → Char) (ht : CaseTableOk tbl) (c : Char)
    (h : isExtSeparator (unicode.ToLower tbl c) = true) : isExtSeparator c = true := by
  by_cases hc : c.toNat ≤ 127
  · rw [isExtSeparator_iff] at h ⊢
    rw [toLower_toNat_ascii tbl c hc] at h
    split_ifs at h <;> omega
  · have hc2 : 127 < c.toNat := by omega
    rw [toLower_of_not_ascii tbl c hc2] at h
    have := ht c hc2
    unfold isExtSeparator at h
    simp [this.1, this.2.1] at h

theorem toLower_space (tbl : Char → Char) (ht : CaseTableOk tbl) (c : Char)
    (h : unicode.IsSpace (unicode.ToLower tbl c) = true) : unicode.IsSpace c = true := by
  by_cases hc : c.toNat ≤ 127
  · have hl := toLower_toNat_ascii tbl c hc
    have hl2 : (unicode.ToLower tbl c).toNat ≤ 127 := by
      rw [hl]; split_ifs <;> omega
    rw [isSpace_ascii _ hl2, hl] at h
    rw [isSpace_ascii _ hc]
    split_ifs at h <;> omega
  · have hc2 : 127 < c.toNat := by omega
    rw [toLower_of_not_ascii tbl c hc2] at h
    exact (ht c hc2).2.2.1 h

theorem toLower_idem (tbl : Char → Char) (ht : CaseTableOk tbl) (c : Char) :
    unicode.ToLower tbl (unicode.ToLower tbl c) = unicode.ToLower tbl c := by
  by_cases hc : c.toNat ≤ 127
  · have hl := toLower_toNat_ascii tbl c hc
    have hl2 : (unicode.ToLower tbl c).toNat ≤ 127 := by
      rw [hl]; split_ifs <;> omega
    rw [char_eq_iff, toLower_toNat_ascii tbl _ hl2, hl]
    split_ifs <;> omega
  · have hc2 : 127 < c.toNat := by omega
    rw [toLower_of_not_ascii tbl c hc2]
    exact (ht c hc2).2.2.2

theorem caseTableOk_id : CaseTableOk (fun r => r) := by
  intro r hr
  refine ⟨?_, ?_, fun h => h, ?_⟩
  · intro h
    have h2 : r = ',' := h
    subst h2
    revert hr
    decide
  · intro h
    have h2 : r = ' ' := h
    subst h2
    revert hr
    decide
  · exact toLower_of_not_ascii _ r hr



theorem fieldsLoop_append_sep (f : Char → Bool) (a b : List Char) (c : Char) (hc : f c = true)
    (st : Option (List Char)) :
    strings.fieldsLoop f (a ++ c :: b) st =
      strings.fieldsLoop f a st ++ strings.fieldsLoop f b none := by
  induction a generalizing st with
  | nil => cases st <;> simp [strings.fieldsLoop, hc]
  | cons x a ih => cases st <;> by_cases hx : f x = true <;> simp [strings.fieldsLoop, hx, ih]

theorem fieldsLoop_field (f : Char → Bool) (w : List Char) (hw : ∀ c ∈ w, f c = false)
    (cur : List Char) : strings.fieldsLoop f w (some cur) = [cur.reverse ++ w] := by
  induction w generalizing cur with
  | nil => simp [strings.fieldsLoop]
  | cons x w ih =>
    have hx : f x = false := hw x (List.mem_cons_self x w)
    simp [strings.fieldsLoop, hx, ih (fun c hc => hw c (List.mem_cons_of_mem x hc))]

theorem fieldsLoop_field_none (f : Char → Bool) (w : List Char) (hne : w ≠ [])
    (hw : ∀ c ∈ w, f c = false) : strings.fieldsLoop f w none = [w] := by
  cases w with
  | nil => exact absurd rfl hne
  | cons x w =>
    have hx : f x = false := hw x (List.mem_cons_self x w)
    simp [strings.fieldsLoop, hx, fieldsLoop_field f w (fun c hc => hw c (List.mem_cons_of_mem x hc))]

theorem fieldsLoop_mem (f : Char → Bool) (s : List Char) (st : Option (List Char))
    (hst : ∀ cur, st = some cur → cur ≠ [] ∧ ∀ c ∈ cur, f c = false) :
    ∀ w ∈ strings.fieldsLoop f s st,
      w ≠ [] ∧ (∀ c ∈ w, f c = false) ∧ ∀ c ∈ w, c ∈ s ∨ c ∈ st.getD [] := by
  induction s generalizing st with
  | nil =>
    cases st with
    | none => simp [strings.fieldsLoop]
    | some cur =>
      have h := hst cur rfl
      intro w hw
      simp only [strings.fieldsLoop, List.mem_singleton] at hw
      subst hw
      refine ⟨by simpa using h.1, ?_, ?_⟩
      · intro c hc; exact h.2 c (List.mem_reverse.mp hc)
      · intro c hc; right; simpa using hc
  | cons x s ih =>
    cases st with
    | none =>
      by_cases hx : f x = true
      · simp only [strings.fieldsLoop, hx, if_true]
        intro w hw
        obtain ⟨h1, h2, h3⟩ := ih none (by simp) w hw
        refine ⟨h1, h2, fun c hc => ?_⟩
        rcases h3 c hc with h | h
        · left; exact List.mem_cons_of_mem x h
        · simp at h
      · simp only [strings.fieldsLoop, hx]
        intro w hw
        have hx2 : f x = false := by simpa using hx
        obtain ⟨h1, h2, h3⟩ := ih (some [x]) (by simp [hx2]) w hw
        refine ⟨h1, h2, fun c hc => ?_⟩
        rcases h3 c hc with h | h
        · left; exact List.mem_cons_of_mem x h
        · left; simp at h; simp [h]
    | some cur =>
      have hcur := hst cur rfl
      by_cases hx : f x = true
      · simp only [strings.fieldsLoop, hx, if_true]
        intro w hw
        rcases List.mem_cons.mp hw with hw | hw
        · subst hw
          refine ⟨by simpa using hcur.1, ?_, ?_⟩
          · intro c hc; exact hcur.2 c (List.mem_reverse.mp hc)
          · intro c hc; right; simpa using hc
        · obtain ⟨h1, h2, h3⟩ := ih none (by simp) w hw
          refine ⟨h1, h2, fun c hc => ?_⟩
          rcases h3 c hc with h | h
          · left; exact List.mem_cons_of_mem x h
          · simp at h
      · simp only [strings.fieldsLoop, hx]
        intro w hw
        have hx2 : f x = false := by simpa using hx
        obtain ⟨h1, h2, h3⟩ := ih (some (x :: cur)) (by
          intro cur2 h2
          simp only [Option.some.injEq] at h2
          subst h2
          refine ⟨by simp, ?_⟩
          intro c hc
          rcases List.mem_cons.mp hc with h | h
          · rw [h]; exact hx2
          · exact hcur.2 c h) w hw
        refine ⟨h1, h2, fun c hc => ?_⟩
        rcases h3 c hc with h | h
        · left; exact List.mem_cons_of_mem x h
        · simp only [Option.getD_some, List.mem_cons] at h
          rcases h with h | h
          · left; simp [h]
          · right; simpa using h

/-! ## Lemmas on `parseExtensions` -/

theorem parseExtensionsStep_acc (tbl : Char → Char) (acc : List GoString) (p : GoString) :
    parseExtensionsStep tbl acc p = acc ++ parseExtensionsStep tbl [] p := by
  unfold parseExtensionsStep
  by_cases h : strings.TrimSpace p = []
  · simp [h]
  · simp [h]

theorem foldl_parseExtensionsStep (tbl : Char → Char) (parts : List GoString)
    (acc : List GoString) :
    parts.foldl (parseExtensionsStep tbl) acc =
      acc ++ parts.flatMap (parseExtensionsStep tbl []) := by
  induction parts generalizing acc with
  | nil => simp
  | cons p parts ih =>
    rw [List.foldl_cons, ih, parseExtensionsStep_acc]
    simp

theorem parseExtensions_eq_flatMap (tbl : Char → Char) (s : GoString) :
    parseExtensions tbl s =
      (strings.FieldsFunc s isExtSeparator).flatMap (parseExtensionsStep tbl []) := by
  unfold parseExtensions
  by_cases h : s = []
  · subst h
    simp [strings.FieldsFunc, strings.fieldsLoop]
  · rw [if_neg h, foldl_parseExtensionsStep]
    simp

/-- The shape of the token that `parseExtensionsStep` lower-cases. -/
theorem dotted_token (t : GoString) (ht : t ≠ []) (hlast : ∃ i z, t = i ++ [z] ∧ unicode.IsSpace z = false) :
    let t2 := if !strings.HasPrefix t ['.'] then '.' :: t else t
    (∃ u, t2 = '.' :: u) ∧ (∃ i z, t2 = i ++ [z] ∧ unicode.IsSpace z = false) ∧
      ∀ c ∈ t2, c = '.' ∨ c ∈ t := by
  intro t2
  by_cases h : strings.HasPrefix t ['.'] = true
  · have e2 : t2 = t := by simp [t2, h]
    rw [e2]
    refine ⟨?_, hlast, fun c hc => Or.inr hc⟩
    cases t with
    | nil => exact absurd rfl ht
    | cons a u =>
      simp [strings.HasPrefix, List.isPrefixOf] at h
      exact ⟨u, by rw [h]⟩
  · have e2 : t2 = '.' :: t := by simp [t2, h]
    rw [e2]
    obtain ⟨i, z, hiz, hz⟩ := hlast
    refine ⟨⟨t, rfl⟩, ⟨'.' :: i, z, by rw [hiz]; rfl, hz⟩, ?_⟩
    intro c hc
    rcases List.mem_cons.mp hc with h | h
    · left; exact h
    · right; exact h

theorem trimSpace_shape (p : GoString) (h : strings.TrimSpace p ≠ []) :
    (∃ i z, strings.TrimSpace p = i ++ [z] ∧ unicode.IsSpace z = false) ∧
      ∀ c ∈ strings.TrimSpace p, c ∈ p := by
  constructor
  · have hl := List.rdropWhile_last_not unicode.IsSpace (p.dropWhile unicode.IsSpace) h
    refine ⟨(strings.TrimSpace p).dropLast, (strings.TrimSpace p).getLast h, ?_, ?_⟩
    · exact (List.dropLast_append_getLast h).symm
    · simpa using hl
  · intro c hc
    have h1 := (List.rdropWhile_prefix unicode.IsSpace (p.dropWhile unicode.IsSpace)).subset hc
    exact (List.dropWhile_sublist unicode.IsSpace).subset h1

theorem trimSpace_fixed (u i : GoString) (z : Char) (h : '.' :: u = i ++ [z])
    (hz : unicode.IsSpace z = false) : strings.TrimSpace ('.' :: u) = '.' :: u := by
  unfold strings.TrimSpace
  rw [List.dropWhile_cons_of_neg (by decide), h]
  exact List.rdropWhile_concat_neg _ _ _ (by simp [hz])

theorem step_settled (tbl : Char → Char) (ht : CaseTableOk tbl) (p : GoString)
    (hp : ∀ c ∈ p, isExtSeparator c = false) :
    ∀ e ∈ parseExtensionsStep tbl [] p,
      (∃ u, e = '.' :: u) ∧ (∃ i z, e = i ++ [z] ∧ unicode.IsSpace z = false) ∧
        strings.ToLower tbl e = e ∧ (∀ c ∈ e, isExtSeparator c = false) ∧
          ∀ c ∈ e, c = '.' ∨ ∃ d ∈ p, c = unicode.ToLower tbl d := by
  intro e he
  unfold parseExtensionsStep at he
  by_cases h : strings.TrimSpace p = []
  · simp [h] at he
  · simp only [h, ne_eq, not_false_eq_true, if_true, List.nil_append, List.mem_singleton] at he
    obtain ⟨hshape, hsub⟩ := trimSpace_shape p h
    obtain ⟨⟨u, hu⟩, ⟨i, z, hiz, hz⟩, hmem⟩ := dotted_token (strings.TrimSpace p) h hshape
    rw [he]
    refine ⟨?_, ?_, ?_, ?_, ?_⟩
    · rw [hu]
      exact ⟨u.map (unicode.ToLower tbl), rfl⟩
    · rw [hiz]
      refine ⟨i.map (unicode.ToLower tbl), unicode.ToLower tbl z, by simp [strings.ToLower], ?_⟩
      cases hzz : unicode.IsSpace (unicode.ToLower tbl z) with
      | false => rfl
      | true => rw [toLower_space tbl ht z hzz] at hz; exact absurd hz (by decide)
    · unfold strings.ToLower
      rw [List.map_map]
      apply List.map_congr_left
      intro c _
      exact toLower_idem tbl ht c
    · intro c hc
      unfold strings.ToLower at hc
      obtain ⟨d, hd, hdc⟩ := List.mem_map.mp hc
      cases hcc : isExtSeparator c with
      | false => rfl
      | true =>
        rw [← hdc] at hcc
        have hd2 := toLower_sep tbl ht d hcc
        rcases hmem d hd with h1 | h1
        · rw [h1] at hd2; exact absurd hd2 (by decide)
        · rw [hp d (hsub d h1)] at hd2; exact absurd hd2 (by decide)
    · intro c hc
      unfold strings.ToLower at hc
      obtain ⟨d, hd, hdc⟩ := List.mem_map.mp hc
      rcases hmem d hd with h1 | h1
      · left; rw [← hdc, h1]; rfl
      · right; exact ⟨d, hsub d h1, hdc.symm⟩

theorem step_fixed (tbl : Char → Char) (e : GoString) (hdot : ∃ u, e = '.' :: u)
    (hlast : ∃ i z, e = i ++ [z] ∧ unicode.IsSpace z = false)
    (hlow : strings.ToLower tbl e = e) : parseExtensionsStep tbl [] e = [e] := by
  obtain ⟨u, hu⟩ := hdot
  obtain ⟨i, z, hiz, hz⟩ := hlast
  subst hu
  have ht : strings.TrimSpace ('.' :: u) = '.' :: u := trimSpace_fixed u i z hiz hz
  unfold parseExtensionsStep
  simp only [ht]
  simp [strings.HasPrefix, List.isPrefixOf, hlow]

theorem fields_join (R : List GoString)
    (hR : ∀ e ∈ R, e ≠ [] ∧ ∀ c ∈ e, isExtSeparator c = false) :
    strings.fieldsLoop isExtSeparator (strings.Join R ", ".toList) none = R := by
  induction R with
  | nil => simp [strings.Join, strings.fieldsLoop]
  | cons a R ih =>
    have ha := hR a (List.mem_cons_self a R)
    cases R with
    | nil => simpa [strings.Join] using fieldsLoop_field_none isExtSeparator a ha.1 ha.2
    | cons b R =>
      have hrest := ih (fun e he => hR e (List.mem_cons_of_mem a he))
      have hj : strings.Join (a :: b :: R) ", ".toList =
          a ++ ',' :: (' ' :: strings.Join (b :: R) ", ".toList) := by
        simp [strings.Join]
      rw [hj, fieldsLoop_append_sep isExtSeparator a _ ',' (by decide) none,
        fieldsLoop_field_none isExtSeparator a ha.1 ha.2]
      simp only [strings.fieldsLoop, show isExtSeparator ' ' = true from by decide, if_true]
      rw [hrest]
      rfl

theorem parse_join_fixed (tbl : Char → Char) (R : List GoString)
    (hR : ∀ e ∈ R, (∃ u, e = '.' :: u) ∧ (∃ i z, e = i ++ [z] ∧ unicode.IsSpace z = false) ∧
        strings.ToLower tbl e = e ∧ (∀ c ∈ e, isExtSeparator c = false)) :
    parseExtensions tbl (strings.Join R ", ".toList) = R := by
  rw [parseExtensions_eq_flatMap]
  unfold strings.FieldsFunc
  rw [fields_join R (fun e he => by
    obtain ⟨⟨u, hu⟩, _, _, h4⟩ := hR e he
    exact ⟨by rw [hu]; simp, h4⟩)]
  induction R with
  | nil => rfl
  | cons a R ih =>
    obtain ⟨h1, h2, h3, _⟩ := hR a (List.mem_cons_self a R)
    rw [List.flatMap_cons, step_fixed tbl a h1 h2 h3, ih (fun e he => hR e (List.mem_cons_of_mem a he))]
    rfl

theorem parse_settled (tbl : Char → Char) (ht : CaseTableOk tbl) (s : GoString) :
    ∀ e ∈ parseExtensions tbl s,
      (∃ u, e = '.' :: u) ∧ (∃ i z, e = i ++ [z] ∧ unicode.IsSpace z = false) ∧
        strings.ToLower tbl e = e ∧ (∀ c ∈ e, isExtSeparator c = false) ∧
          ∀ c ∈ e, c = '.' ∨ ∃ d ∈ s, isExtSeparator d = false ∧ c = unicode.ToLower tbl d := by
  intro e he
  rw [parseExtensions_eq_flatMap] at he
  obtain ⟨p, hp, hep⟩ := List.mem_flatMap.mp he
  obtain ⟨_, hsep, hsrc⟩ := fieldsLoop_mem isExtSeparator s none (by simp) p hp
  obtain ⟨h1, h2, h3, h4, h5⟩ := step_settled tbl ht p hsep e hep
  refine ⟨h1, h2, h3, h4, fun c hc => ?_⟩
  rcases h5 c hc with h | ⟨d, hd, hcd⟩
  · left; exact h
  · right
    refine ⟨d, ?_, hsep d hd, hcd⟩
    rcases hsrc d hd with h | h
    · exact h
    · simp at h

/-! ## Lemmas on the copy pipeline -/

theorem processLoop_dry_state {σ : Type} (copyFile : σ → GoString → σ × Bool) (total : Int)
    (files : List GoString) (i copied : Int) (s : σ) :
    (processLoop copyFile true total files i copied s).2 = s := by
  induction files generalizing i copied with
  | nil => rfl
  | cons file rest ih => simp [processLoop, ih]

theorem processLoop_dry_eq_real {σ : Type} (copyFile : σ → GoString → σ × Bool) (total : Int)
    (files : List GoString) (i copied : Int) (s s0 : σ)
    (hok : ∀ b ∈ copyOutcomes copyFile files s, b = true) :
    (processLoop copyFile true total files i copied s0).1 =
      (processLoop copyFile false total files i copied s).1 := by
  induction files generalizing i copied s with
  | nil => rfl
  | cons file rest ih =>
    have h1 : (copyFile s file).2 = true := hok _ (by simp [copyOutcomes])
    have h2 : ∀ b ∈ copyOutcomes copyFile rest (copyFile s file).1, b = true :=
      fun b hb => hok b (by simp [copyOutcomes, hb])
    simp only [processLoop, Bool.not_true, Bool.false_eq_true, if_false, Bool.not_false, if_true,
      h1]
    rw [ih (i + 1) (copied + 1) (copyFile s file).1 h2]

theorem processLoop_length {σ : Type} (copyFile : σ → GoString → σ × Bool) (dryRun : Bool)
    (total : Int) (files : List GoString) (i copied : Int) (s : σ) :
    (processLoop copyFile dryRun total files i copied s).1.length = files.length := by
  induction files generalizing i copied s with
  | nil => rfl
  | cons file rest ih => simp [processLoop, ih]

theorem processLoop_last_copied_dry {σ : Type} (copyFile : σ → GoString → σ × Bool)
    (total : Int) (files : List GoString) (i copied : Int) (s : σ) (z : copyProgressMsg)
    (hne : files ≠ []) :
    ((processLoop copyFile true total files i copied s).1.foldl (fun _ progress => progress)
      z).copied = copied + (len files - 1) := by
  induction files generalizing i copied s z with
  | nil => exact absurd rfl hne
  | cons file rest ih =>
    cases rest with
    | nil => simp [processLoop, len]
    | cons g rest =>
      have h := ih (i + 1) (copied + 1) s
        { file := filepath.Base file
          progress := Int.tdiv (wrapInt64 ((i + 1) * 100)) total
          total := total
          copied := copied } (by simp)
      simp only [processLoop, Bool.not_true, Bool.false_eq_true, if_false, List.foldl_cons] at h ⊢
      rw [h]
      simp only [len, List.length_cons]
      push_cast
      ring

/-! ## Lemmas on the file discovery -/

theorem scanMatch_eq (ext path : GoString) (files exts : List GoString) :
    scanMatch ext path files exts = if ext ∈ exts then files ++ [path] else files := by
  induction exts with
  | nil => simp [scanMatch]
  | cons a exts ih =>
    by_cases h : ext = a
    · simp [scanMatch, h]
    · simp [scanMatch, h, ih]

theorem scanFn_entry (tbl : Char → Char) (m : model) (files : List GoString) (path : GoString)
    (d : DirEntry) :
    scanFn tbl m files path (some d) false = (files ++ wantedPaths tbl m [(path, d)], none) := by
  cases d with
  | file name =>
    simp only [scanFn, DirEntry.IsDir, DirEntry.Name, scanMatch_eq, wantedPaths, wanted]
    by_cases h : strings.ToLower tbl (filepath.Ext name) ∈ m.config.Extensions
    · simp [h]
    · simp [h]
  | dir name entries readErr => simp [scanFn, DirEntry.IsDir, wantedPaths, wanted]

theorem scanFn_error (tbl : Char → Char) (m : model) (files : List GoString) (path : GoString)
    (d : Option DirEntry) : scanFn tbl m files path d true = (files, none) := by
  simp [scanFn]

theorem wantedPaths_append (tbl : Char → Char) (m : model) (a b : List (GoString × DirEntry)) :
    wantedPaths tbl m (a ++ b) = wantedPaths tbl m a ++ wantedPaths tbl m b := by
  simp [wantedPaths]

mutual
theorem walkDir_scanFn (tbl : Char → Char) (m : model) (path : GoString) :
    ∀ (d : DirEntry) (files : List GoString),
      filepath.walkDir (scanFn tbl m) path d files =
        (files ++ wantedPaths tbl m (walkOrder path d), none)
  | .file name, files => by
    rw [filepath.walkDir, scanFn_entry, walkOrder]
  | .dir name entries readErr, files => by
    rw [filepath.walkDir]
    simp only [scanFn_entry, scanFn_error]
    have h := walkDirEntries_scanFn tbl m path entries
      (files ++ wantedPaths tbl m [(path, DirEntry.dir name entries readErr)])
    have hw : wantedPaths tbl m (walkOrder path (DirEntry.dir name entries readErr)) =
        wantedPaths tbl m [(path, DirEntry.dir name entries readErr)] ++
          wantedPaths tbl m (walkOrderEntries path entries) := by
      rw [walkOrder, ← wantedPaths_append]
      rfl
    rw [hw, ← List.append_assoc, ← h]
    cases readErr <;> rfl
theorem walkDirEntries_scanFn (tbl : Char → Char) (m : model) (path : GoString) :
    ∀ (ds : List DirEntry) (files : List GoString),
      filepath.walkDirEntries (scanFn tbl m) path ds files =
        (files ++ wantedPaths tbl m (walkOrderEntries path ds), none)
  | [], files => by
    simp [filepath.walkDirEntries, walkOrderEntries, wantedPaths]
  | d1 :: rest, files => by
    rw [filepath.walkDirEntries]
    simp only [walkDir_scanFn tbl m (filepath.Join [path, d1.Name]) d1 files]
    rw [walkDirEntries_scanFn tbl m path rest, walkOrderEntries, wantedPaths_append,
      List.append_assoc]
end

theorem scanFiles_eq (tbl : Char → Char) (m : model) (root : Option DirEntry) :
    scanFiles tbl m root = (wantedPaths tbl m (visited m.config.SourceDir root), none) := by
  cases root with
  | none => simp [scanFiles, filepath.WalkDir, scanFn_error, visited, wantedPaths]
  | some d => simp [scanFiles, filepath.WalkDir, walkDir_scanFn, visited]

/-! ## Lemmas on `filepath.Clean` and on the collision resolution -/

theorem elements_of_no_separator (t : List Char) (ht : ∀ c ∈ t, c ≠ '/') :
    filepath.elements t = [t] := by
  induction t with
  | nil => rfl
  | cons c t ih =>
    have hc : os.IsPathSeparator c = false := by
      simp [os.IsPathSeparator, ht c (List.mem_cons_self c t)]
    simp [filepath.elements, hc, ih (fun d hd => ht d (List.mem_cons_of_mem c hd))]

theorem elements_append (p : List Char) :
    ∃ init l, ∀ t : List Char, (∀ c ∈ t, c ≠ '/') →
      filepath.elements (p ++ t) = init ++ [l ++ t] := by
  induction p with
  | nil => exact ⟨[], [], fun t ht => by simpa using elements_of_no_separator t ht⟩
  | cons c p ih =>
    obtain ⟨init, l, h⟩ := ih
    by_cases hc : os.IsPathSeparator c = true
    · refine ⟨[] :: init, l, fun t ht => ?_⟩
      simp [filepath.elements, hc, h t ht]
    · cases init with
      | nil =>
        refine ⟨[], c :: l, fun t ht => ?_⟩
        simp [filepath.elements, hc, h t ht]
      | cons w ws =>
        refine ⟨(c :: w) :: ws, l, fun t ht => ?_⟩
        simp [filepath.elements, hc, h t ht]

theorem join_concat (A : List GoString) (e sep : GoString) :
    strings.Join (A ++ [e]) sep = A.flatMap (fun a => a ++ sep) ++ e := by
  induction A with
  | nil => simp [strings.Join]
  | cons a A ih =>
    cases A with
    | nil => simp [strings.Join]
    | cons b A =>
      have h1 : strings.Join (a :: b :: (A ++ [e])) sep =
          a ++ sep ++ strings.Join (b :: (A ++ [e])) sep := by
        simp [strings.Join]
      simp only [List.cons_append] at ih ⊢
      rw [h1, ih]
      simp

theorem cleanStep_real (rooted : Bool) (st : List GoString × Nat) (e : GoString)
    (he : '_' ∈ e) : filepath.cleanStep rooted st e = (e :: st.1, st.2) := by
  have h1 : e ≠ [] := by intro h; rw [h] at he; simp at he
  have h2 : e ≠ ['.'] := by intro h; rw [h] at he; revert he; decide
  have h3 : e ≠ ['.', '.'] := by intro h; rw [h] at he; revert he; decide
  simp [filepath.cleanStep, h1, h2, h3]

/-- Cleaning a path whose last element contains an underscore keeps that element's tail. -/
theorem clean_underscore_tail (p : List Char) :
    ∃ pre : List Char, ∀ t : List Char, (∀ c ∈ t, c ≠ '/') →
      filepath.Clean (p ++ '_' :: t) = pre ++ '_' :: t := by
  obtain ⟨init, l, h⟩ := elements_append p
  have hroot : ∀ t : List Char, ((p ++ '_' :: t).head? = some '/') ↔ (p.head? = some '/') := by
    intro t
    cases p with
    | nil => simp
    | cons c p => simp
  by_cases hr : p.head? = some '/'
  · refine ⟨'/' :: (((init.foldl (filepath.cleanStep true) ([], 0)).1.reverse).flatMap
      (fun a => a ++ ['/']) ++ l), fun t ht => ?_⟩
    have ht2 : ∀ c ∈ '_' :: t, c ≠ '/' := by
      intro c hc
      rcases List.mem_cons.mp hc with h1 | h1
      · rw [h1]; decide
      · exact ht c h1
    have hne : p ++ '_' :: t ≠ [] := by simp
    unfold filepath.Clean
    simp only [hne, if_false, (hroot t).mpr hr, decide_True, if_true, h _ ht2, List.foldl_append,
      List.foldl_cons, List.foldl_nil]
    rw [cleanStep_real true _ _ (by simp)]
    simp [join_concat]
  · refine ⟨(((init.foldl (filepath.cleanStep false) ([], 0)).1.reverse).flatMap
      (fun a => a ++ ['/']) ++ l), fun t ht => ?_⟩
    have ht2 : ∀ c ∈ '_' :: t, c ≠ '/' := by
      intro c hc
      rcases List.mem_cons.mp hc with h1 | h1
      · rw [h1]; decide
      · exact ht c h1
    have hne : p ++ '_' :: t ≠ [] := by simp
    have hr2 : ¬ ((p ++ '_' :: t).head? = some '/') := fun hh => hr ((hroot t).mp hh)
    unfold filepath.Clean
    simp only [hne, if_false, hr2, decide_False, h _ ht2, List.foldl_append,
      List.foldl_cons, List.foldl_nil]
    rw [cleanStep_real false _ _ (by simp)]
    simp [join_concat]


theorem digitChar_toNat (d : Nat) (hd : d < 10) : (digitChar d).toNat = 48 + d := by
  unfold digitChar
  interval_cases d <;> rfl

theorem decimalLoop_value (fuel n : Nat) (acc : List Char) (h : n < fuel) :
    (decimalLoop fuel n acc).foldl (fun v c => v * 10 + (c.toNat - 48)) 0 =
      acc.foldl (fun v c => v * 10 + (c.toNat - 48)) n := by
  induction fuel generalizing n acc with
  | zero => omega
  | succ fuel ih =>
    unfold decimalLoop
    have hd := digitChar_toNat (n % 10) (Nat.mod_lt n (by norm_num))
    by_cases h0 : n / 10 = 0
    · rw [if_pos h0, List.foldl_cons, hd]
      have : n % 10 = n := Nat.mod_eq_of_lt (by omega)
      congr 1
      omega
    · rw [if_neg h0, ih (n / 10) _ (by omega), List.foldl_cons, hd]
      congr 1
      omega

theorem decimalLoop_no_separator (fuel n : Nat) (acc : List Char) (hacc : ∀ c ∈ acc, c ≠ '/') :
    ∀ c ∈ decimalLoop fuel n acc, c ≠ '/' := by
  induction fuel generalizing n acc with
  | zero => exact hacc
  | succ fuel ih =>
    have hd : digitChar (n % 10) ≠ '/' := by
      intro h
      have h2 := digitChar_toNat (n % 10) (Nat.mod_lt n (by norm_num))
      rw [h] at h2
      have h3 : ('/' : Char).toNat = 47 := rfl
      omega
    have hacc2 : ∀ c ∈ digitChar (n % 10) :: acc, c ≠ '/' := by
      intro c hc
      rcases List.mem_cons.mp hc with h1 | h1
      · rw [h1]; exact hd
      · exact hacc c h1
    unfold decimalLoop
    by_cases h0 : n / 10 = 0
    · rw [if_pos h0]; exact hacc2
    · rw [if_neg h0]; exact ih (n / 10) _ hacc2

theorem formatInt_natCast (k : Nat) : formatInt (k : Int) = decimalLoop (k + 1) k [] := by
  unfold formatInt
  rw [if_neg (by omega)]
  simp

theorem formatInt_injective (a b : Nat) (h : formatInt (a : Int) = formatInt (b : Int)) :
    a = b := by
  rw [formatInt_natCast, formatInt_natCast] at h
  have ha := decimalLoop_value (a + 1) a [] (by omega)
  have hb := decimalLoop_value (b + 1) b [] (by omega)
  rw [h, hb] at ha
  simpa using ha.symm

theorem formatInt_no_separator (k : Nat) : ∀ c ∈ formatInt (k : Int), c ≠ '/' := by
  rw [formatInt_natCast]
  exact decimalLoop_no_separator _ _ [] (by simp)

theorem extLoop_no_separator (rev acc : List Char) (hacc : ∀ c ∈ acc, c ≠ '/') :
    ∀ c ∈ filepath.extLoop rev acc, c ≠ '/' := by
  induction rev generalizing acc with
  | nil => simp [filepath.extLoop]
  | cons x rev ih =>
    unfold filepath.extLoop
    by_cases hs : os.IsPathSeparator x = true
    · simp [hs]
    · have hx : x ≠ '/' := by simpa [os.IsPathSeparator] using hs
      have hacc2 : ∀ c ∈ x :: acc, c ≠ '/' := by
        intro c hc
        rcases List.mem_cons.mp hc with h1 | h1
        · rw [h1]; exact hx
        · exact hacc c h1
      rw [if_neg hs]
      by_cases hdot : x = '.'
      · rw [if_pos hdot]; exact hacc2
      · rw [if_neg hdot]; exact ih _ hacc2

theorem ext_no_separator (path : GoString) : ∀ c ∈ filepath.Ext path, c ≠ '/' :=
  extLoop_no_separator _ [] (by simp)

/-- The names that `resolveFileConflict` tries differ only in the counter, which stands just
before the extension. -/
theorem conflictCandidate_shape (originalPath : GoString) :
    ∃ pre : List Char, ∀ k : Nat,
      conflictCandidate originalPath (k : Int) =
        pre ++ '_' :: (formatInt (k : Int) ++ filepath.Ext (filepath.Base originalPath)) := by
  have htail : ∀ k : Nat, ∀ c ∈ formatInt (k : Int) ++ filepath.Ext (filepath.Base originalPath),
      c ≠ '/' := by
    intro k c hc
    rcases List.mem_append.mp hc with h | h
    · exact formatInt_no_separator k c h
    · exact ext_no_separator _ c h
  by_cases hdir : filepath.Dir originalPath = []
  · obtain ⟨pre, hpre⟩ := clean_underscore_tail
      (strings.TrimSuffix (filepath.Base originalPath) (filepath.Ext (filepath.Base originalPath)))
    refine ⟨pre, fun k => ?_⟩
    rw [← hpre _ (htail k)]
    simp [conflictCandidate, filepath.Join, hdir, strings.Join]
  · obtain ⟨pre, hpre⟩ := clean_underscore_tail
      (filepath.Dir originalPath ++ '/' ::
        strings.TrimSuffix (filepath.Base originalPath) (filepath.Ext (filepath.Base originalPath)))
    refine ⟨pre, fun k => ?_⟩
    rw [← hpre _ (htail k)]
    simp [conflictCandidate, filepath.Join, hdir, strings.Join]

theorem conflictCandidate_injective (originalPath : GoString) (a b : Nat)
    (h : conflictCandidate originalPath (a : Int) = conflictCandidate originalPath (b : Int)) :
    a = b := by
  obtain ⟨pre, hpre⟩ := conflictCandidate_shape originalPath
  rw [hpre a, hpre b] at h
  have h2 := List.append_cancel_left h
  simp only [List.cons.injEq, true_and] at h2
  exact formatInt_injective a b (List.append_cancel_right h2)

theorem wrapInt64_of_small (i : Int) (h0 : 0 ≤ i) (h1 : i < 2 ^ 63) : wrapInt64 i = i := by
  unfold wrapInt64
  norm_num at h1 ⊢
  omega

theorem resolveLoop_reaches (statOk : GoString → Bool) (originalPath : GoString) (k : Nat)
    (hk : k + 1 < 2 ^ 63) (hfree : statOk (conflictCandidate originalPath (k : Int)) = false)
    (hbusy : ∀ j : Nat, 1 ≤ j → j < k → statOk (conflictCandidate originalPath (j : Int)) = true) :
    ∀ (d c fuel : Nat), 1 ≤ c → c + d = k → d + 1 ≤ fuel →
      resolveLoop statOk originalPath fuel (conflictCandidate originalPath (c : Int))
        ((c : Int) + 1) = some (conflictCandidate originalPath (k : Int)) := by
  intro d
  induction d with
  | zero =>
    intro c fuel _ hck hfuel
    obtain ⟨f, rfl⟩ : ∃ f, fuel = f + 1 := ⟨fuel - 1, by omega⟩
    have : c = k := by omega
    subst this
    simp [resolveLoop, hfree]
  | succ d ih =>
    intro c fuel hc hck hfuel
    obtain ⟨f, rfl⟩ : ∃ f, fuel = f + 1 := ⟨fuel - 1, by omega⟩
    have hb := hbusy c hc (by omega)
    have hw : wrapInt64 ((c : Int) + 1 + 1) = ((c + 1 : Nat) : Int) + 1 := by
      rw [wrapInt64_of_small _ (by omega) (by
        have : ((c : Int) + 1 + 1) ≤ (k : Int) + 1 := by omega
        have h2 : ((k : Int) + 1) < 2 ^ 63 := by exact_mod_cast hk
        omega)]
      push_cast
      rfl
    have hc2 : ((c : Int) + 1) = ((c + 1 : Nat) : Int) := by push_cast; rfl
    simp only [resolveLoop, hb, Bool.not_true, Bool.false_eq_true, if_false]
    rw [hw, hc2]
    exact ih (c + 1) f (by omega) (by omega) (by omega)

theorem exists_free_candidate (existing : List GoString) (originalPath : GoString) :
    ∃ k : Nat, 1 ≤ k ∧ k ≤ existing.length + 1 ∧
      conflictCandidate originalPath (k : Int) ∉ existing := by
  by_contra hcon
  push_neg at hcon
  let L : List GoString :=
    (List.range (existing.length + 1)).map (fun i => conflictCandidate originalPath ((i + 1 : Nat) : Int))
  have hnd : L.Nodup := by
    apply List.Nodup.map _ (List.nodup_range _)
    intro a b hab
    have := conflictCandidate_injective originalPath (a + 1) (b + 1) hab
    omega
  have hsub : L ⊆ existing := by
    intro p hp
    obtain ⟨i, hi, rfl⟩ := List.mem_map.mp hp
    have hi2 := List.mem_range.mp hi
    exact hcon (i + 1) (by omega) (by omega)
  have hlen := (List.subperm_of_subset hnd hsub).length_le
  simp [L] at hlen

theorem resolveLoop_sound (statOk : GoString → Bool) (originalPath : GoString) :
    ∀ (fuel : Nat) (d : GoString) (c : Int) (r : GoString),
      resolveLoop statOk originalPath fuel d c = some r → statOk r = false := by
  intro fuel
  induction fuel with
  | zero => intro d c r h; simp [resolveLoop] at h
  | succ f ih =>
    intro d c r h
    unfold resolveLoop at h
    by_cases hd : statOk d = true
    · simp only [hd, Bool.not_true, Bool.false_eq_true, if_false] at h
      exact ih _ _ r h
    · simp only [Bool.not_eq_true] at hd
      simp only [hd, Bool.not_false, if_true, Option.some.injEq] at h
      rw [← h]
      exact hd

theorem resolveLoop_mono (statOk : GoString → Bool) (originalPath : GoString) :
    ∀ (fuel : Nat) (d : GoString) (c : Int) (r : GoString),
      resolveLoop statOk originalPath fuel d c = some r →
        ∀ fuel2 : Nat, fuel ≤ fuel2 → resolveLoop statOk originalPath fuel2 d c = some r := by
  intro fuel
  induction fuel with
  | zero => intro d c r h; simp [resolveLoop] at h
  | succ f ih =>
    intro d c r h fuel2 hle
    obtain ⟨g, rfl⟩ : ∃ g, fuel2 = g + 1 := ⟨fuel2 - 1, by omega⟩
    unfold resolveLoop at h ⊢
    by_cases hd : statOk d = true
    · simp only [hd, Bool.not_true, Bool.false_eq_true, if_false] at h ⊢
      exact ih _ _ r h g (by omega)
    · simp only [Bool.not_eq_true] at hd
      simp only [hd, Bool.not_false, if_true] at h ⊢
      exact h

theorem resolveLoop_none (statOk : GoString → Bool) (originalPath : GoString)
    (h : ∀ c : Int, statOk (conflictCandidate originalPath c) = true) :
    ∀ (fuel : Nat) (d : GoString) (c : Int), statOk d = true →
      resolveLoop statOk originalPath fuel d c = none := by
  intro fuel
  induction fuel with
  | zero => intro d c _; rfl
  | succ f ih =>
    intro d c hd
    unfold resolveLoop
    simp only [hd, Bool.not_true, Bool.false_eq_true, if_false]
    exact ih _ _ (h c)

/-- The path that the loop returns is the first one it tries that `os.Stat` reports as not
existing. -/
theorem resolveLoop_first (statOk : GoString → Bool) (originalPath : GoString) (r : GoString) :
    ∀ (fuel c : Nat), 1 ≤ c → c + fuel < 2 ^ 63 →
      resolveLoop statOk originalPath fuel (conflictCandidate originalPath (c : Int))
        ((c : Int) + 1) = some r →
      ∃ k : Nat, c ≤ k ∧ k < c + fuel ∧ r = conflictCandidate originalPath (k : Int) ∧
        ∀ j : Nat, c ≤ j → j < k → statOk (conflictCandidate originalPath (j : Int)) = true := by
  intro fuel
  induction fuel with
  | zero => intro c _ _ h; simp [resolveLoop] at h
  | succ f ih =>
    intro c hc hsize h
    unfold resolveLoop at h
    by_cases hd : statOk (conflictCandidate originalPath (c : Int)) = true
    · simp only [hd, Bool.not_true, Bool.false_eq_true, if_false] at h
      have hf : 1 ≤ f := by
        rcases Nat.eq_zero_or_pos f with h0 | h0
        · rw [h0] at h
          simp [resolveLoop] at h
        · exact h0
      have hw : wrapInt64 ((c : Int) + 1 + 1) = ((c + 1 : Nat) : Int) + 1 := by
        rw [wrapInt64_of_small _ (by omega) (by
          have h2 : ((c + (f + 1) : Nat) : Int) < 2 ^ 63 := by exact_mod_cast hsize
          push_cast at h2
          have : (1 : Int) ≤ (f : Int) := by exact_mod_cast hf
          omega)]
        push_cast
        rfl
      have hc2 : ((c : Int) + 1) = ((c + 1 : Nat) : Int) := by push_cast; rfl
      rw [hw, hc2] at h
      obtain ⟨k, h1, h2, h3, h4⟩ := ih (c + 1) (by omega) (by omega) h
      refine ⟨k, by omega, by omega, h3, fun j hj hlt => ?_⟩
      by_cases hjc : j = c
      · rw [hjc]; exact hd
      · exact h4 j (by omega) hlt
    · simp only [Bool.not_eq_true] at hd
      simp only [hd, Bool.not_false, if_true, Option.some.injEq] at h
      exact ⟨c, le_refl c, by omega, h.symm, fun j hj hlt => by omega⟩

theorem formatInt_no_separator_int (i : Int) : ∀ c ∈ formatInt i, c ≠ '/' := by
  unfold formatInt
  split
  · intro c hc
    rcases List.mem_cons.mp hc with h | h
    · rw [h]; decide
    · exact decimalLoop_no_separator _ _ [] (by simp) c h
  · exact decimalLoop_no_separator _ _ [] (by simp)

/-- Every name that `resolveFileConflict` tries for `dst/a.txt` is a clean path below
`dst`. -/
theorem candidate_below_dst (c : Int) :
    strings.HasPrefix (filepath.Clean (conflictCandidate "dst/a.txt".toList c))
      "dst/".toList = true := by
  obtain ⟨pre, hpre⟩ := clean_underscore_tail "dst/a".toList
  have h0 := hpre [] (by simp)
  have hclean : filepath.Clean ("dst/a".toList ++ ['_']) = "dst/a".toList ++ ['_'] := by decide
  rw [hclean] at h0
  have hp : pre = "dst/a".toList := (List.append_cancel_right h0).symm
  have htail : ∀ d ∈ formatInt c ++ ".txt".toList, d ≠ '/' := by
    intro d hd
    rcases List.mem_append.mp hd with h | h
    · exact formatInt_no_separator_int c d h
    · have hall : ∀ e ∈ ".txt".toList, e ≠ '/' := by decide
      exact hall d h
  have hcand : conflictCandidate "dst/a.txt".toList c =
      filepath.Clean ("dst/a".toList ++ '_' :: (formatInt c ++ ".txt".toList)) := by
    have hdir : filepath.Dir "dst/a.txt".toList = "dst".toList := by decide
    have hbase : filepath.Base "dst/a.txt".toList = "a.txt".toList := by decide
    have hext : filepath.Ext "a.txt".toList = ".txt".toList := by decide
    have htrim : strings.TrimSuffix "a.txt".toList ".txt".toList = "a".toList := by decide
    unfold conflictCandidate
    simp only [hdir, hbase, hext, htrim]
    simp [filepath.Join, strings.Join]
  rw [hcand, hpre _ htail, hp, hpre _ htail, hp]
  simp [strings.HasPrefix]

theorem resolveFileConflict_none (statOk : GoString → Bool) (destPath : GoString)
    (h0 : statOk destPath = true)
    (h : ∀ c : Int, statOk (conflictCandidate destPath c) = true) (fuel : Nat) :
    resolveFileConflict statOk fuel destPath = none :=
  resolveLoop_none statOk destPath h fuel destPath 1 h0

theorem resolveFileConflict_mono (statOk : GoString → Bool) (destPath r : GoString)
    (fuel fuel2 : Nat) (h : resolveFileConflict statOk fuel destPath = some r)
    (hle : fuel ≤ fuel2) : resolveFileConflict statOk fuel2 destPath = some r :=
  resolveLoop_mono statOk destPath fuel destPath 1 r h fuel2 hle

/-- What `resolveFileConflict` returns, when it returns: a path that `os.Stat` reports as
not existing, the desired one if that is such a path and otherwise the first numbered one. -/
theorem resolveFileConflict_result (statOk : GoString → Bool) (destPath r : GoString)
    (fuel : Nat) (hfuel : fuel < 2 ^ 63)
    (h : resolveFileConflict statOk fuel destPath = some r) :
    statOk r = false ∧ (statOk destPath = false → r = destPath) ∧
      (statOk destPath = true → ∃ k : Nat, 1 ≤ k ∧ k < fuel ∧
        r = conflictCandidate destPath (k : Int) ∧
        ∀ j : Nat, 1 ≤ j → j < k → statOk (conflictCandidate destPath (j : Int)) = true) := by
  refine ⟨resolveLoop_sound statOk destPath fuel destPath 1 r h, ?_, ?_⟩
  · intro hd
    obtain ⟨f, rfl⟩ : ∃ f, fuel = f + 1 := by
      cases fuel with
      | zero => simp [resolveFileConflict, resolveLoop] at h
      | succ f => exact ⟨f, rfl⟩
    simp only [resolveFileConflict, resolveLoop, hd, Bool.not_false, if_true,
      Option.some.injEq] at h
    exact h.symm
  · intro hd
    obtain ⟨f, rfl⟩ : ∃ f, fuel = f + 1 := by
      cases fuel with
      | zero => simp [resolveFileConflict, resolveLoop] at h
      | succ f => exact ⟨f, rfl⟩
    simp only [resolveFileConflict, resolveLoop, hd, Bool.not_true, Bool.false_eq_true,
      if_false] at h
    have hw : wrapInt64 (1 + 1) = ((1 : Nat) : Int) + 1 := by
      rw [wrapInt64_of_small _ (by norm_num) (by norm_num)]
      norm_num
    rw [hw] at h
    obtain ⟨k, h1, h2, h3, h4⟩ := resolveLoop_first statOk destPath r f 1 (le_refl 1)
      (by omega) h
    exact ⟨k, h1, by omega, h3, h4⟩

/-- When only finitely many of the numbered names are taken, `resolveFileConflict` returns:
the loop ends within as many rounds as there are taken names, plus two. -/
theorem resolveFileConflict_main (statOk : GoString → Bool) (occupied : List GoString)
    (destPath : GoString)
    (hfin : ∀ k : Nat, 1 ≤ k → statOk (conflictCandidate destPath (k : Int)) = true →
      conflictCandidate destPath (k : Int) ∈ occupied)
    (hsize : occupied.length + 2 < 2 ^ 63) :
    ∃ r : GoString,
      (∀ fuel : Nat, occupied.length + 2 ≤ fuel →
        resolveFileConflict statOk fuel destPath = some r) ∧
      statOk r = false ∧ (statOk destPath = false → r = destPath) ∧
      (statOk destPath = true → ∃ k : Nat, 1 ≤ k ∧ r = conflictCandidate destPath (k : Int) ∧
        ∀ j : Nat, 1 ≤ j → j < k → statOk (conflictCandidate destPath (j : Int)) = true) := by
  by_cases hd : statOk destPath = true
  · have hex : ∃ k : Nat, 1 ≤ k ∧ statOk (conflictCandidate destPath (k : Int)) = false := by
      obtain ⟨k, h1, _, h3⟩ := exists_free_candidate occupied destPath
      refine ⟨k, h1, ?_⟩
      by_contra hne
      simp only [Bool.not_eq_false] at hne
      exact h3 (hfin k h1 hne)
    classical
    have hspec := Nat.find_spec hex
    have hle : Nat.find hex ≤ occupied.length + 1 := by
      obtain ⟨k, h1, h2, h3⟩ := exists_free_candidate occupied destPath
      refine le_trans (Nat.find_min' hex ⟨h1, ?_⟩) h2
      by_contra hne
      simp only [Bool.not_eq_false] at hne
      exact h3 (hfin k h1 hne)
    have hmin : ∀ j : Nat, 1 ≤ j → j < Nat.find hex →
        statOk (conflictCandidate destPath (j : Int)) = true := by
      intro j hj hlt
      by_contra hne
      simp only [Bool.not_eq_true] at hne
      exact Nat.find_min hex hlt ⟨hj, hne⟩
    refine ⟨conflictCandidate destPath (Nat.find hex : Int), ?_, hspec.2,
      fun h => absurd hd (by rw [h]; exact Bool.false_ne_true),
      fun _ => ⟨Nat.find hex, hspec.1, rfl, hmin⟩⟩
    intro fuel hfuel
    obtain ⟨f, rfl⟩ : ∃ f, fuel = f + 1 := ⟨fuel - 1, by omega⟩
    have hreach := resolveLoop_reaches statOk destPath (Nat.find hex) (by omega)
      hspec.2 hmin (Nat.find hex - 1) 1 f (le_refl 1) (by omega) (by omega)
    simp only [resolveFileConflict, resolveLoop, hd, Bool.not_true, Bool.false_eq_true,
      if_false]
    have hw : wrapInt64 (1 + 1) = ((1 : Nat) : Int) + 1 := by
      rw [wrapInt64_of_small _ (by norm_num) (by norm_num)]
      norm_num
    rw [hw]
    exact hreach
  · simp only [Bool.not_eq_true] at hd
    refine ⟨destPath, ?_, hd, fun _ => rfl,
      fun h => absurd h (by rw [hd]; exact Bool.false_ne_true)⟩
    intro fuel hfuel
    obtain ⟨f, rfl⟩ : ∃ f, fuel = f + 1 := ⟨fuel - 1, by omega⟩
    simp [resolveFileConflict, resolveLoop, hd]

/-! ## Lemmas on the progress events -/

theorem processLoop_getElem {σ : Type} (copyFile : σ → GoString → σ × Bool) (dryRun : Bool)
    (total : Int) (files : List GoString) (i copied : Int) (s : σ) (k : Nat)
    (hk : k < files.length) :
    (processLoop copyFile dryRun total files i copied s).1[k]? =
      some
        { file := filepath.Base (files.getD k [])
          progress := Int.tdiv (wrapInt64 ((i + k + 1) * 100)) total
          total := total
          copied := copied +
            (((if dryRun then files.map (fun _ => true) else copyOutcomes copyFile files s).take
              k).count true : Nat) } := by
  induction files generalizing i copied s k with
  | nil => simp at hk
  | cons file rest ih =>
    cases k with
    | zero => simp [processLoop]
    | succ k =>
      have hk2 : k < rest.length := by simpa using hk
      cases dryRun with
      | true =>
        simp only [processLoop, Bool.not_true, Bool.false_eq_true, if_false,
          List.getElem?_cons_succ, if_true]
        rw [ih (i + 1) (copied + 1) s k hk2]
        simp only [if_true, List.map_cons, List.take_succ_cons, List.count_cons_self,
          List.getD_cons_succ]
        push_cast
        congr 2
        · ring_nf
        · ring
      | false =>
        simp only [processLoop, Bool.not_false, if_true, List.getElem?_cons_succ]
        cases hr : (copyFile s file).2 with
        | true =>
          simp only [if_true]
          rw [ih (i + 1) (copied + 1) (copyFile s file).1 k hk2]
          simp only [Bool.false_eq_true, if_false, copyOutcomes, hr, List.take_succ_cons,
            List.count_cons_self, List.getD_cons_succ]
          push_cast
          congr 2
          · ring_nf
          · ring
        | false =>
          simp only [Bool.false_eq_true, if_false]
          rw [ih (i + 1) copied (copyFile s file).1 k hk2]
          simp only [Bool.false_eq_true, if_false, copyOutcomes, hr, List.take_succ_cons,
            List.getD_cons_succ]
          rw [List.count_cons_of_ne (by decide)]
          push_cast
          congr 2
          ring_nf

theorem progress_value (i n : Nat) (hi : i < n) (hsize : n * 100 < 2 ^ 63) :
    Int.tdiv (wrapInt64 (((0 : Int) + (i : Int) + 1) * 100)) (n : Int) =
      (((i + 1) * 100 / n : Nat) : Int) := by
  have h1 : ((0 : Int) + (i : Int) + 1) * 100 = (((i + 1) * 100 : Nat) : Int) := by
    push_cast
    ring
  have h2 : (((i + 1) * 100 : Nat) : Int) < 2 ^ 63 := by
    have : (i + 1) * 100 ≤ n * 100 := Nat.mul_le_mul_right 100 (by omega)
    have h3 : (i + 1) * 100 < 2 ^ 63 := lt_of_le_of_lt this hsize
    exact_mod_cast h3
  rw [h1, wrapInt64_of_small _ (by positivity) h2]
  exact (Int.ofNat_tdiv _ _).symm

theorem processFiles_getElem {σ : Type} (copyFile : σ → GoString → σ × Bool) (m : model)
    (files : List GoString) (s : σ) (k : Nat) (hk : k < files.length) :
    (processFiles copyFile m files s).1[k]? =
      some
        { file := filepath.Base (files.get ⟨k, hk⟩)
          progress := Int.tdiv (wrapInt64 (((0 : Int) + (k : Int) + 1) * 100)) (len files)
          total := len files
          copied :=
            (((if m.config.DryRun then files.map (fun _ => true)
              else copyOutcomes copyFile files s).take k).count true : Nat) } := by
  have h := processLoop_getElem copyFile m.config.DryRun (len files) files 0 0 s k hk
  simp only [processFiles]
  rw [h, List.getD_eq_getElem _ _ hk]
  simp

/-! ## Lemmas on the wizard -/

theorem utf8EncodeChar_ascii (c : Char) (h : c.toNat ≤ 127) :
    (String.utf8EncodeChar c).length = 1 := by
  have h2 : c.val ≤ 127 := by
    rw [UInt32.le_def]
    exact h
  simp [String.utf8EncodeChar, h2]

theorem utf8_length_ascii (s : GoString) (h : ∀ c ∈ s, c.toNat ≤ 127) :
    (utf8 s).length = s.length := by
  induction s with
  | nil => rfl
  | cons c s ih =>
    have hc := utf8EncodeChar_ascii c (h c (List.mem_cons_self c s))
    have hs := ih (fun d hd => h d (List.mem_cons_of_mem c hd))
    simp only [utf8, List.flatMap_cons, List.length_append, List.length_cons] at hs ⊢
    rw [hc, hs]
    omega

theorem ite_pair_message {c : Prop} [Decidable c] (a b : model × Cmd) (x : GoString)
    (ha : a.1.message = x) (hb : b.1.message = x) :
    (if c then a else b).1.message = x := by
  split <;> assumption

theorem ite_model_message {c : Prop} [Decidable c] (a b : model) (x : GoString)
    (ha : a.message = x) (hb : b.message = x) : (if c then a else b).message = x := by
  split <;> assumption

theorem ite_pair_message_or {c : Prop} [Decidable c] (a b : model × Cmd) (x y : GoString)
    (ha : a.1.message = x ∨ a.1.message = y) (hb : b.1.message = x ∨ b.1.message = y) :
    (if c then a else b).1.message = x ∨ (if c then a else b).1.message = y := by
  split <;> assumption

theorem updateMenu_message (m : model) (key : GoString) :
    (updateMenu m key).1.message = m.message ∨ (updateMenu m key).1.message = startWarning := by
  unfold updateMenu
  repeat' first
    | exact Or.inl rfl
    | exact Or.inr rfl
    | apply ite_pair_message_or
    | exact Or.inl (ite_model_message _ _ _ rfl rfl)

theorem updateSourceSelect_message (env : Env) (m : model) (key : GoString) :
    (updateSourceSelect env m key).1.message = m.message := by
  unfold updateSourceSelect
  repeat' first | rfl | apply ite_pair_message | apply ite_model_message

theorem updateDestSelect_message (env : Env) (m : model) (key : GoString) :
    (updateDestSelect env m key).1.message = m.message := by
  unfold updateDestSelect
  repeat' first | rfl | apply ite_pair_message | apply ite_model_message

theorem updateBrowse_message (env : Env) (m : model) (key : GoString) :
    (updateBrowse env m key).1.message = m.message := by
  unfold updateBrowse
  repeat' first | rfl | apply ite_pair_message | apply ite_model_message

theorem updateExtensions_message (m : model) (key : GoString) :
    (updateExtensions m key).1.message = m.message := by
  unfold updateExtensions
  repeat' first | rfl | apply ite_pair_message | apply ite_model_message

theorem updateCustomExtensions_message (tbl : Char → Char) (m : model) (key : GoString) :
    (updateCustomExtensions tbl m key).1.message = m.message := by
  unfold updateCustomExtensions
  repeat' first | rfl | apply ite_pair_message | apply ite_model_message

theorem updateOptions_message (m : model) (key : GoString) :
    (updateOptions m key).1.message = m.message := by
  unfold updateOptions
  repeat' first | rfl | apply ite_pair_message | apply ite_model_message

theorem updateConfirm_message (m : model) (key : GoString) :
    (updateConfirm m key).1.message = m.message := by
  unfold updateConfirm
  repeat' first | rfl | apply ite_pair_message

theorem update_message (tbl : Char → Char) (env : Env) (m : model) (msg : Msg) :
    (Update tbl env m msg).1.message = m.message ∨
      (Update tbl env m msg).1.message = startWarning := by
  cases msg with
  | KeyMsg key =>
    unfold Update
    apply ite_pair_message_or _ _ _ _ (Or.inl rfl)
    apply ite_pair_message_or _ _ _ _ (Or.inl rfl)
    cases m.state
    · exact updateMenu_message m key
    · exact Or.inl (updateSourceSelect_message env m key)
    · exact Or.inl (updateDestSelect_message env m key)
    · exact Or.inl (updateBrowse_message env m key)
    · exact Or.inl (updateBrowse_message env m key)
    · exact Or.inl (updateExtensions_message m key)
    · exact Or.inl (updateCustomExtensions_message tbl m key)
    · exact Or.inl (updateOptions_message m key)
    · exact Or.inl (updateConfirm_message m key)
    · exact Or.inl rfl
    · exact Or.inl rfl
  | progress msg => exact Or.inl rfl
  | complete msg => exact Or.inl rfl
  | tickMsg =>
    unfold Update
    exact Or.inl (ite_pair_message _ _ _ rfl rfl)
  | startCopyMsg files => exact Or.inl rfl
  | other => exact Or.inl rfl

theorem update_message_stays (tbl : Char → Char) (env : Env) (m : model) (msg : Msg)
    (h : m.message ≠ []) : (Update tbl env m msg).1.message ≠ [] := by
  rcases update_message tbl env m msg with h1 | h1
  · rw [h1]
    exact h
  · rw [h1]
    decide

theorem update_q_not_complete (tbl : Char → Char) (env : Env) (m : model)
    (hs : m.state ≠ state.stateComplete) :
    Update tbl env m (Msg.KeyMsg "q".toList) =
      (if m.state = state.stateCustomExtensions then
          { m with customInput := m.customInput ++ "q".toList }
        else m, Cmd.nil) := by
  cases m with
  | mk st cursor config currentPath directories message progress totalFiles copiedFiles
      currentFile customInput quitting =>
    cases st <;> first | rfl | exact absurd rfl hs

theorem update_other_key_copying (tbl : Char → Char) (env : Env) (m : model) (key : GoString)
    (hs : m.state = state.stateCopying)
    (hk : ¬ (key = "ctrl+c".toList ∨ key = "esc".toList)) :
    Update tbl env m (Msg.KeyMsg key) = (m, Cmd.nil) := by
  unfold Update
  dsimp only
  rw [if_neg hk, if_neg (by rw [hs]; simp), hs]

theorem update_other_key_complete (tbl : Char → Char) (env : Env) (m : model) (key : GoString)
    (hs : m.state = state.stateComplete)
    (hk : ¬ (key = "ctrl+c".toList ∨ key = "esc".toList)) (hq : key ≠ "q".toList) :
    Update tbl env m (Msg.KeyMsg key) = (m, Cmd.nil) := by
  unfold Update
  dsimp only
  rw [if_neg hk, if_neg (fun h => hq h.1), hs]

theorem update_key_closed (tbl : Char → Char) (env : Env) (m : model) (key : GoString)
    (hs : m.state = state.stateCopying ∨ m.state = state.stateComplete) :
    (Update tbl env m (Msg.KeyMsg key)).1.state = m.state ∧
      (Update tbl env m (Msg.KeyMsg key)).1.config = m.config ∧
      ((Update tbl env m (Msg.KeyMsg key)).2 = Cmd.nil ∨
        (Update tbl env m (Msg.KeyMsg key)).2 = Cmd.Quit) := by
  by_cases hk : key = "ctrl+c".toList ∨ key = "esc".toList
  · have h : Update tbl env m (Msg.KeyMsg key) = ({ m with quitting := true }, Cmd.Quit) := by
      unfold Update
      dsimp only
      rw [if_pos hk]
    rw [h]
    exact ⟨rfl, rfl, Or.inr rfl⟩
  · rcases hs with hs | hs
    · rw [update_other_key_copying tbl env m key hs hk]
      exact ⟨rfl, rfl, Or.inl rfl⟩
    · by_cases hq : key = "q".toList
      · have h : Update tbl env m (Msg.KeyMsg key) = ({ m with quitting := true }, Cmd.Quit) := by
          unfold Update
          dsimp only
          rw [if_neg hk, if_pos ⟨hq, hs⟩]
        rw [h]
        exact ⟨rfl, rfl, Or.inr rfl⟩
      · rw [update_other_key_complete tbl env m key hs hk hq]
        exact ⟨rfl, rfl, Or.inl rfl⟩

theorem runKeys_closed (tbl : Char → Char) (env : Env) (keys : List GoString) (m : model)
    (hs : m.state = state.stateCopying ∨ m.state = state.stateComplete) :
    (runKeys tbl env m keys).state = m.state := by
  induction keys generalizing m with
  | nil => rfl
  | cons key keys ih =>
    have h := (update_key_closed tbl env m key hs).1
    have h2 := ih (Update tbl env m (Msg.KeyMsg key)).1 (by rw [h]; exact hs)
    simp only [runKeys, List.foldl_cons] at h2 ⊢
    rw [h2, h]

theorem len_getShortcuts (env : Env) : len (getShortcuts env) = 10 := rfl

theorem update_enter_dispatch (tbl : Char → Char) (env : Env) (m : model) :
    Update tbl env m (Msg.KeyMsg "enter".toList) =
      match m.state with
      | state.stateMenu => updateMenu m "enter".toList
      | state.stateSourceSelect => updateSourceSelect env m "enter".toList
      | state.stateDestSelect => updateDestSelect env m "enter".toList
      | state.stateBrowseSource => updateBrowse env m "enter".toList
      | state.stateBrowseDest => updateBrowse env m "enter".toList
      | state.stateExtensions => updateExtensions m "enter".toList
      | state.stateCustomExtensions => updateCustomExtensions tbl m "enter".toList
      | state.stateOptions => updateOptions m "enter".toList
      | state.stateConfirm => updateConfirm m "enter".toList
      | state.stateCopying => (m, Cmd.nil)
      | state.stateComplete => (m, Cmd.nil) := by
  unfold Update
  dsimp only
  rw [if_neg (by decide), if_neg (fun h => absurd h.1 (by decide))]

theorem updateSourceSelect_enter (env : Env) (m : model) :
    updateSourceSelect env m "enter".toList =
      if m.cursor < 8 then
        ({ m with
            config := { m.config with SourceDir := (shortcutAt (getShortcuts env) m.cursor).path }
            state := state.stateMenu
            cursor := 1 }, Cmd.nil)
      else if m.cursor = 8 then
        ({ m with
            state := state.stateBrowseSource
            cursor := 0
            directories := getDirectories env m.currentPath }, Cmd.nil)
      else ({ m with state := state.stateMenu, cursor := 0 }, Cmd.nil) := by
  unfold updateSourceSelect
  dsimp only
  rw [if_neg (by decide), if_neg (by decide), if_pos rfl, len_getShortcuts]
  rfl

theorem updateDestSelect_enter (env : Env) (m : model) :
    updateDestSelect env m "enter".toList =
      if m.cursor < 8 then
        ({ m with
            config := { m.config with DestDir := (shortcutAt (getShortcuts env) m.cursor).path }
            state := state.stateMenu
            cursor := 2 }, Cmd.nil)
      else if m.cursor = 8 then
        ({ m with
            state := state.stateBrowseDest
            cursor := 0
            directories := getDirectories env m.currentPath }, Cmd.nil)
      else ({ m with state := state.stateMenu, cursor := 1 }, Cmd.nil) := by
  unfold updateDestSelect
  dsimp only
  rw [if_neg (by decide), if_neg (by decide), if_pos rfl, len_getShortcuts]
  rfl

theorem reachable_runKeys (tbl : Char → Char) (env : Env) (keys : List GoString) (m : model)
    (h : Reachable tbl env m) : Reachable tbl env (runKeys tbl env m keys) := by
  induction keys generalizing m with
  | nil => exact h
  | cons key keys ih => exact ih _ (Reachable.key m key h)

theorem getDirectories_glyph (env : Env) (path : GoString) :
    ∀ d ∈ getDirectories env path, strings.HasPrefix d folderGlyph = true := by
  intro d hd
  unfold getDirectories at hd
  cases h : env.readDir path with
  | none => simp [h] at hd
  | some entries =>
    simp only [h] at hd
    have hp := (List.perm_insertionSort _ _).subset hd
    obtain ⟨e, _, he⟩ := List.mem_map.mp hp
    rw [← he]
    simp [strings.HasPrefix, folderGlyph]

theorem glyph_ne_upLabel (d : GoString) (h : strings.HasPrefix d folderGlyph = true) :
    d ≠ upLabel := by
  intro hd
  rw [hd] at h
  revert h
  decide

theorem trimPrefix_glyph (name : GoString) :
    strings.TrimPrefix (folderGlyph ++ name) folderGlyph = name := by
  simp [strings.TrimPrefix, strings.HasPrefix, folderGlyph]

/-- What `updateBrowse` does on the key `enter` when the cursor is on the row of the
directory at index `k` of the listing, `off` rows below the first row. -/
theorem updateBrowse_descend (env : Env) (m : model) (k off : Nat)
    (hk : k < m.directories.length) (hsize : m.directories.length + 2 < 2 ^ 63)
    (hoff : off = 1 ∨ off = 2)
    (hopt : browseOptions m =
      (if off = 2 then ["✅ Select this folder".toList, upLabel] else ["✅ Select this folder".toList]) ++
        m.directories ++ ["🔙 Back".toList])
    (hfirst : off = 1 → m.directories[0]? ≠ some upLabel)
    (hc : m.cursor = (k : Int) + (off : Int)) :
    updateBrowse env m "enter".toList =
      ({ m with
          currentPath :=
            filepath.Join [m.currentPath, strings.TrimPrefix (m.directories.get ⟨k, hk⟩) "📁 ".toList]
          directories := getDirectories env
            (filepath.Join [m.currentPath, strings.TrimPrefix (m.directories.get ⟨k, hk⟩) "📁 ".toList])
          cursor := 0 }, Cmd.nil) := by
  have hlen : len (browseOptions m) = (m.directories.length : Int) + (off : Int) + 1 := by
    rw [hopt]
    unfold len
    rcases hoff with h | h
    · subst h
      simp
    · subst h
      simp
      ring
  have h1 : (browseOptions m)[1]? = some upLabel ↔ off = 2 := by
    rw [hopt]
    rcases hoff with h | h
    · subst h
      constructor
      · intro hh
        exfalso
        apply hfirst rfl
        cases hd : m.directories with
        | nil => rw [hd] at hk; simp at hk
        | cons a l => rw [hd] at hh; simpa using hh
      · intro hh
        omega
    · subst h
      simp
  have hwrap : wrapInt64 (m.cursor - (off : Int)) = (k : Int) := by
    rw [hc, wrapInt64_of_small _ (by omega) (by
      have : ((m.directories.length + 2 : Nat) : Int) < 2 ^ 63 := by exact_mod_cast hsize
      push_cast at this
      omega)]
    ring
  have hget : m.directories.getD k [] = m.directories.get ⟨k, hk⟩ := by
    rw [List.getD_eq_getElem _ _ hk]
    rfl
  have kup : ¬ ("enter".toList = "up".toList ∨ "enter".toList = "k".toList) := by decide
  have kdown : ¬ ("enter".toList = "down".toList ∨ "enter".toList = "j".toList) := by decide
  have c0 : ¬ (m.cursor = 0) := by
    rcases hoff with h | h <;> subst h <;> omega
  have cUp : ¬ (len (browseOptions m) > 1 ∧ m.cursor = 1 ∧
      (browseOptions m)[1]? = some upLabel) := by
    intro hh
    have h2 := h1.mp hh.2.2
    subst h2
    have := hh.2.1
    omega
  have cBack : ¬ (m.cursor = len (browseOptions m) - 1) := by
    rw [hlen]
    omega
  have hidx : (if len (browseOptions m) > 1 ∧ (browseOptions m)[1]? = some upLabel then
      wrapInt64 (m.cursor - 2) else wrapInt64 (m.cursor - 1)) = (k : Int) := by
    rcases hoff with h | h
    · subst h
      rw [if_neg (fun hh => by have := h1.mp hh.2; omega)]
      simpa using hwrap
    · subst h
      rw [if_pos ⟨by rw [hlen]; omega, h1.mpr rfl⟩]
      simpa using hwrap
  have cRange : (k : Int) ≥ 0 ∧ (k : Int) < len m.directories := by
    unfold len
    omega
  unfold updateBrowse
  dsimp only
  rw [if_neg kup, if_neg kdown, if_pos rfl, if_neg c0, if_neg cUp, if_neg cBack, hidx,
    if_pos cRange]
  simp only [Int.toNat_ofNat, hget]

theorem fsWrite_of_new (fs : FileSystem) (p : GoString) (c : Bytes) (hp : p ∉ fsPaths fs) :
    fsWrite fs p c = (p, c) :: fs := by
  unfold fsWrite
  congr 1
  rw [List.filter_eq_self]
  intro e he
  have : e.1 ∈ fsPaths fs := List.mem_map.mpr ⟨e, he, rfl⟩
  simp only [ne_eq, decide_not, Bool.not_eq_true', decide_eq_false_iff_not]
  intro h
  exact hp (h ▸ this)

theorem fsRead_cons_self (fs : FileSystem) (p : GoString) (c : Bytes) :
    fsRead ((p, c) :: fs) p = some c := by
  simp [fsRead]

theorem fsRead_cons_other (fs : FileSystem) (p q : GoString) (c : Bytes) (h : p ≠ q) :
    fsRead ((p, c) :: fs) q = fsRead fs q := by
  simp [fsRead, List.find?_cons, h]

theorem osStat_free (sys : Platform) (fs : FileSystem) (p : GoString)
    (h : osStat sys fs p = false) : sys.canon p ∉ fsPaths fs := by
  intro hin
  have hany : (fsPaths fs).any (fun f =>
      decide (f = sys.canon p) || strings.HasPrefix (sys.canon p) (f ++ ['/']) ||
        strings.HasPrefix f (sys.canon p ++ ['/'])) = true :=
    List.any_eq_true.mpr ⟨sys.canon p, hin, by simp⟩
  unfold osStat at h
  rw [hany] at h
  exact absurd h (by simp)

/-- What a call of `copyFile` that returns does: nothing, or it writes the whole source or a
part of it under a name that did not exist. -/
theorem copyFile_shape (sys : Platform) (fuel : Nat) (m : model) (fs : FileSystem)
    (srcPath : GoString) (r : FileSystem × Bool)
    (h : copyFile sys fuel m fs srcPath = some r) :
    ∃ dest : GoString,
      resolveFileConflict (osStat sys fs) fuel
          (filepath.Join [m.config.DestDir, filepath.Base srcPath]) = some dest ∧
      osStat sys fs dest = false ∧ sys.canon dest ∉ fsPaths fs ∧
      (r = (fs, false) ∨
        ∃ content : Bytes, fsRead fs (sys.canon srcPath) = some content ∧
          ((∃ n : Nat, r = ((sys.canon dest, content.take n) :: fs, false)) ∨
            r = ((sys.canon dest, content) :: fs, true))) := by
  unfold copyFile at h
  cases hres : resolveFileConflict (osStat sys fs) fuel
      (filepath.Join [m.config.DestDir, filepath.Base srcPath]) with
  | none => simp [hres] at h
  | some dest =>
    have hfree : osStat sys fs dest = false :=
      resolveLoop_sound (osStat sys fs) _ fuel _ 1 dest hres
    have hnew := osStat_free sys fs dest hfree
    refine ⟨dest, rfl, hfree, hnew, ?_⟩
    simp only [hres] at h
    by_cases h1 : sys.mkdirErr fs m.config.DestDir = true
    · left
      rw [if_pos h1] at h
      exact (Option.some.inj h).symm
    · rw [if_neg h1] at h
      by_cases h2 : sys.openErr fs srcPath = true
      · left
        rw [if_pos h2] at h
        exact (Option.some.inj h).symm
      · rw [if_neg h2] at h
        cases hr : fsRead fs (sys.canon srcPath) with
        | none =>
          left
          rw [hr] at h
          exact (Option.some.inj h).symm
        | some content =>
          rw [hr] at h
          simp only at h
          by_cases h3 : sys.createErr fs dest = true
          · left
            rw [if_pos h3] at h
            exact (Option.some.inj h).symm
          · rw [if_neg h3] at h
            right
            refine ⟨content, rfl, ?_⟩
            cases hc : sys.copyErr fs srcPath dest with
            | none =>
              right
              rw [hc] at h
              simp only [fsWrite_of_new fs _ _ hnew] at h
              exact (Option.some.inj h).symm
            | some n =>
              left
              rw [hc] at h
              simp only [fsWrite_of_new fs _ _ hnew] at h
              exact ⟨n, (Option.some.inj h).symm⟩

theorem copyFile_success (sys : Platform) (fuel : Nat) (m : model) (fs fs2 : FileSystem)
    (srcPath : GoString) (h : copyFile sys fuel m fs srcPath = some (fs2, true)) :
    ∃ (dest : GoString) (content : Bytes),
      resolveFileConflict (osStat sys fs) fuel
          (filepath.Join [m.config.DestDir, filepath.Base srcPath]) = some dest ∧
      osStat sys fs dest = false ∧ sys.canon dest ∉ fsPaths fs ∧
      fsRead fs (sys.canon srcPath) = some content ∧
      fs2 = (sys.canon dest, content) :: fs := by
  obtain ⟨dest, hres, hfree, hnew, hcase⟩ := copyFile_shape sys fuel m fs srcPath _ h
  rcases hcase with hc | ⟨content, hread, ⟨n, hc⟩ | hc⟩
  · exact absurd (congrArg Prod.snd hc) (by simp)
  · exact absurd (congrArg Prod.snd hc) (by simp)
  · exact ⟨dest, content, hres, hfree, hnew, hread, congrArg Prod.fst hc⟩

theorem copyFile_keeps_files (sys : Platform) (fuel : Nat) (m : model) (fs : FileSystem)
    (srcPath : GoString) (r : FileSystem × Bool)
    (h : copyFile sys fuel m fs srcPath = some r) :
    ∀ p ∈ fsPaths fs, fsRead r.1 p = fsRead fs p := by
  intro p hp
  obtain ⟨dest, _, _, hnew, hcase⟩ := copyFile_shape sys fuel m fs srcPath r h
  have hne : sys.canon dest ≠ p := fun h => hnew (h ▸ hp)
  rcases hcase with hc | ⟨content, _, ⟨n, hc⟩ | hc⟩
  · rw [hc]
  · rw [hc]
    exact fsRead_cons_other fs _ p _ hne
  · rw [hc]
    exact fsRead_cons_other fs _ p _ hne

theorem copyFile_mono (sys : Platform) (fuel fuel2 : Nat) (m : model) (fs : FileSystem)
    (srcPath : GoString) (r : FileSystem × Bool)
    (h : copyFile sys fuel m fs srcPath = some r) (hle : fuel ≤ fuel2) :
    copyFile sys fuel2 m fs srcPath = some r := by
  obtain ⟨dest, hres, _⟩ := copyFile_shape sys fuel m fs srcPath r h
  have hres2 := resolveFileConflict_mono (osStat sys fs) _ dest fuel fuel2 hres hle
  unfold copyFile at h ⊢
  simp only [hres] at h
  simp only [hres2]
  exact h

theorem copyFile_of_resolved (sys : Platform) (fuel : Nat) (m : model) (fs : FileSystem)
    (srcPath dest : GoString)
    (hres : resolveFileConflict (osStat sys fs) fuel
      (filepath.Join [m.config.DestDir, filepath.Base srcPath]) = some dest) :
    ∃ r : FileSystem × Bool, copyFile sys fuel m fs srcPath = some r := by
  unfold copyFile
  simp only [hres]
  repeat' split
  all_goals exact ⟨_, rfl⟩

/-- Where only finitely many of the numbered names are taken, `copyFile` returns. -/
theorem copyFile_returns (sys : Platform) (m : model) (fs : FileSystem) (srcPath : GoString)
    (occupied : List GoString)
    (hfin : ∀ k : Nat, 1 ≤ k →
      osStat sys fs (conflictCandidate
        (filepath.Join [m.config.DestDir, filepath.Base srcPath]) (k : Int)) = true →
      conflictCandidate (filepath.Join [m.config.DestDir, filepath.Base srcPath]) (k : Int) ∈
        occupied)
    (hsize : occupied.length + 2 < 2 ^ 63) :
    ∃ r : FileSystem × Bool, ∀ fuel : Nat, occupied.length + 2 ≤ fuel →
      copyFile sys fuel m fs srcPath = some r := by
  obtain ⟨dest, h1, _⟩ := resolveFileConflict_main (osStat sys fs) occupied
    (filepath.Join [m.config.DestDir, filepath.Base srcPath]) hfin hsize
  obtain ⟨r, hr⟩ := copyFile_of_resolved sys _ m fs srcPath dest
    (h1 (occupied.length + 2) (le_refl _))
  exact ⟨r, fun fuel hf => copyFile_mono sys _ fuel m fs srcPath r hr hf⟩

theorem copyFileIn_success (sys : Platform) (fuel : Nat) (m : model) (fs : FileSystem)
    (srcPath : GoString) (h : (copyFileIn sys fuel m (some fs) srcPath).2 = true) :
    ∃ fs2 : FileSystem, copyFile sys fuel m fs srcPath = some (fs2, true) ∧
      copyFileIn sys fuel m (some fs) srcPath = (some fs2, true) := by
  cases hc : copyFile sys fuel m fs srcPath with
  | none =>
    simp only [copyFileIn, hc] at h
    exact absurd h Bool.false_ne_true
  | some r =>
    obtain ⟨fs2, ok⟩ := r
    simp only [copyFileIn, hc] at h ⊢
    subst h
    exact ⟨fs2, rfl, rfl⟩

/-- A run that is not a dry run and in which every copy succeeds puts one new entry per file
in front of the file system it started from. -/
theorem processLoop_real_run (sys : Platform) (fuel : Nat) (m : model) (total : Int)
    (files : List GoString) (i copied : Int) (fs : FileSystem)
    (hok : ∀ b ∈ copyOutcomes (copyFileIn sys fuel m) files (some fs), b = true) :
    ∃ added : FileSystem,
      (processLoop (copyFileIn sys fuel m) false total files i copied (some fs)).2 =
          some (added ++ fs) ∧
        added.length = files.length ∧ (fsPaths added).Nodup ∧
        (∀ p ∈ fsPaths added, p ∉ fsPaths fs) ∧
        ∀ p ∈ fsPaths fs, fsRead (added ++ fs) p = fsRead fs p := by
  induction files generalizing i copied fs with
  | nil =>
    exact ⟨[], rfl, rfl, List.nodup_nil, fun _ h => absurd h (List.not_mem_nil _),
      fun _ _ => rfl⟩
  | cons file rest ih =>
    have h1 : (copyFileIn sys fuel m (some fs) file).2 = true :=
      hok _ (by simp [copyOutcomes])
    obtain ⟨fs2, hcall, hin⟩ := copyFileIn_success sys fuel m fs file h1
    have h2 : ∀ b ∈ copyOutcomes (copyFileIn sys fuel m) rest (some fs2), b = true := by
      intro b hb
      apply hok b
      simp only [copyOutcomes, hin, List.mem_cons]
      exact Or.inr hb
    obtain ⟨dest, content, _, _, hnew, _, hfs⟩ := copyFile_success sys fuel m fs fs2 file hcall
    subst hfs
    have hstep : (processLoop (copyFileIn sys fuel m) false total (file :: rest) i copied
        (some fs)).2 =
        (processLoop (copyFileIn sys fuel m) false total rest (i + 1) (copied + 1)
          (some ((sys.canon dest, content) :: fs))).2 := by
      simp only [processLoop, Bool.not_false, if_true, hin]
    rw [hstep]
    obtain ⟨added, ha, hlen, hnd, hdisj, hkeep⟩ := ih (i + 1) (copied + 1) _ h2
    have hpaths : fsPaths ((sys.canon dest, content) :: fs) = sys.canon dest :: fsPaths fs := rfl
    have happ : fsPaths (added ++ [(sys.canon dest, content)]) =
        fsPaths added ++ [sys.canon dest] := by
      simp [fsPaths]
    have hlist : added ++ (sys.canon dest, content) :: fs =
        (added ++ [(sys.canon dest, content)]) ++ fs := by simp
    refine ⟨added ++ [(sys.canon dest, content)], ?_, ?_, ?_, ?_, ?_⟩
    · rw [ha, hlist]
    · simp [hlen]
    · rw [happ]
      apply List.Nodup.append hnd (List.nodup_singleton _)
      intro p hp hq
      rw [List.mem_singleton] at hq
      subst hq
      exact hdisj _ hp (by rw [hpaths]; exact List.mem_cons_self _ _)
    · intro p hp
      rw [happ, List.mem_append, List.mem_singleton] at hp
      rcases hp with hp | hp
      · intro hin2
        exact hdisj p hp (by rw [hpaths]; exact List.mem_cons_of_mem _ hin2)
      · rw [hp]
        exact hnew
    · intro p hp
      have hne : sys.canon dest ≠ p := fun h => hnew (h ▸ hp)
      rw [← hlist, hkeep p (by rw [hpaths]; exact List.mem_cons_of_mem _ hp)]
      exact fsRead_cons_other fs _ p content hne

/-- More rounds for the loop of `resolveFileConflict` change nothing in a run in which
every copy succeeds. -/
theorem processLoop_real_run_mono (sys : Platform) (fuel fuel2 : Nat) (hle : fuel ≤ fuel2)
    (m : model) (total : Int) (files : List GoString) (i copied : Int) (fs : FileSystem)
    (hok : ∀ b ∈ copyOutcomes (copyFileIn sys fuel m) files (some fs), b = true) :
    processLoop (copyFileIn sys fuel2 m) false total files i copied (some fs) =
        processLoop (copyFileIn sys fuel m) false total files i copied (some fs) ∧
      copyOutcomes (copyFileIn sys fuel2 m) files (some fs) =
        copyOutcomes (copyFileIn sys fuel m) files (some fs) := by
  induction files generalizing i copied fs with
  | nil => exact ⟨rfl, rfl⟩
  | cons file rest ih =>
    have h1 : (copyFileIn sys fuel m (some fs) file).2 = true :=
      hok _ (by simp [copyOutcomes])
    obtain ⟨fs2, hcall, hin⟩ := copyFileIn_success sys fuel m fs file h1
    have hcall2 := copyFile_mono sys fuel fuel2 m fs file _ hcall hle
    have hin2 : copyFileIn sys fuel2 m (some fs) file = (some fs2, true) := by
      simp only [copyFileIn, hcall2]
    have h2 : ∀ b ∈ copyOutcomes (copyFileIn sys fuel m) rest (some fs2), b = true := by
      intro b hb
      apply hok b
      simp only [copyOutcomes, hin, List.mem_cons]
      exact Or.inr hb
    obtain ⟨ih1, ih2⟩ := ih (i + 1) (copied + 1) fs2 h2
    constructor
    · simp only [processLoop, Bool.not_false, if_true, hin, hin2, ih1]
    · simp only [copyOutcomes, hin, hin2, ih2]

/-! ## Lemmas on the invariants of a session -/

theorem ite_pair_ind {c : Prop} [Decidable c] (P : model × Cmd → Prop) (a b : model × Cmd)
    (ha : c → P a) (hb : ¬c → P b) : P (if c then a else b) := by
  split
  · exact ha ‹_›
  · exact hb ‹_›

theorem ite_model_ind {c : Prop} [Decidable c] (P : model → Prop) (a b : model)
    (ha : c → P a) (hb : ¬c → P b) : P (if c then a else b) := by
  split
  · exact ha ‹_›
  · exact hb ‹_›

theorem updateMenu_range (m : model) (key : GoString) (hs : m.state = state.stateMenu)
    (h : cursorInRange m) : cursorInRange (updateMenu m key).1 := by
  unfold cursorInRange at h
  rw [hs] at h
  obtain ⟨h0, h1⟩ := h
  simp only at h1
  unfold updateMenu
  repeat' first
    | refine ite_pair_ind (fun r => cursorInRange r.1) _ _ (fun hc => ?_) (fun hc => ?_)
    | refine ite_model_ind cursorInRange _ _ (fun hc => ?_) (fun hc => ?_)
  all_goals
    unfold cursorInRange
    simp only [hs]
    omega

theorem len_browseOptions (m : model) : 2 ≤ len (browseOptions m) := by
  unfold browseOptions len
  split <;> simp <;> omega

theorem updateSourceSelect_range (env : Env) (m : model) (key : GoString)
    (hs : m.state = state.stateSourceSelect) (h : cursorInRange m) :
    cursorInRange (updateSourceSelect env m key).1 := by
  unfold cursorInRange at h
  rw [hs] at h
  obtain ⟨h0, h1⟩ := h
  simp only at h1
  unfold updateSourceSelect
  simp only [len_getShortcuts]
  repeat' first
    | refine ite_pair_ind (fun r => cursorInRange r.1) _ _ (fun hc => ?_) (fun hc => ?_)
    | refine ite_model_ind cursorInRange _ _ (fun hc => ?_) (fun hc => ?_)
  all_goals
    unfold cursorInRange
    simp only [hs]
    first
      | omega
      | exact ⟨le_refl 0, by have := len_browseOptions { m with
          state := state.stateBrowseSource
          cursor := 0
          directories := getDirectories env m.currentPath }; omega⟩

theorem updateDestSelect_range (env : Env) (m : model) (key : GoString)
    (hs : m.state = state.stateDestSelect) (h : cursorInRange m) :
    cursorInRange (updateDestSelect env m key).1 := by
  unfold cursorInRange at h
  rw [hs] at h
  obtain ⟨h0, h1⟩ := h
  simp only at h1
  unfold updateDestSelect
  simp only [len_getShortcuts]
  repeat' first
    | refine ite_pair_ind (fun r => cursorInRange r.1) _ _ (fun hc => ?_) (fun hc => ?_)
    | refine ite_model_ind cursorInRange _ _ (fun hc => ?_) (fun hc => ?_)
  all_goals
    unfold cursorInRange
    simp only [hs]
    first
      | omega
      | exact ⟨le_refl 0, by have := len_browseOptions { m with
          state := state.stateBrowseDest
          cursor := 0
          directories := getDirectories env m.currentPath }; omega⟩

theorem updateExtensions_range (m : model) (key : GoString)
    (hs : m.state = state.stateExtensions) (h : cursorInRange m) :
    cursorInRange (updateExtensions m key).1 := by
  unfold cursorInRange at h
  rw [hs] at h
  obtain ⟨h0, h1⟩ := h
  simp only at h1
  have hp : len presets = 5 := rfl
  unfold updateExtensions
  simp only [hp]
  repeat' first
    | refine ite_pair_ind (fun r => cursorInRange r.1) _ _ (fun hc => ?_) (fun hc => ?_)
    | refine ite_model_ind cursorInRange _ _ (fun hc => ?_) (fun hc => ?_)
  all_goals
    unfold cursorInRange
    simp only [hs]
    first | omega | exact ⟨by omega, trivial⟩

theorem updateCustomExtensions_range (tbl : Char → Char) (m : model) (key : GoString)
    (hs : m.state = state.stateCustomExtensions) (h : cursorInRange m) :
    cursorInRange (updateCustomExtensions tbl m key).1 := by
  unfold cursorInRange at h
  obtain ⟨h0, _⟩ := h
  have hp : len presets = 5 := rfl
  unfold updateCustomExtensions
  simp only [hp]
  repeat' first
    | refine ite_pair_ind (fun r => cursorInRange r.1) _ _ (fun hc => ?_) (fun hc => ?_)
    | refine ite_model_ind cursorInRange _ _ (fun hc => ?_) (fun hc => ?_)
  all_goals
    unfold cursorInRange
    simp only [hs]
    first | omega | exact ⟨by omega, trivial⟩

theorem updateOptions_range (m : model) (key : GoString)
    (hs : m.state = state.stateOptions) (h : cursorInRange m) :
    cursorInRange (updateOptions m key).1 := by
  unfold cursorInRange at h
  rw [hs] at h
  obtain ⟨h0, h1⟩ := h
  simp only at h1
  unfold updateOptions
  repeat' first
    | refine ite_pair_ind (fun r => cursorInRange r.1) _ _ (fun hc => ?_) (fun hc => ?_)
    | refine ite_model_ind cursorInRange _ _ (fun hc => ?_) (fun hc => ?_)
  all_goals
    unfold cursorInRange
    simp only [hs]
    omega

theorem updateConfirm_range (m : model) (key : GoString)
    (hs : m.state = state.stateConfirm) (h : cursorInRange m) :
    cursorInRange (updateConfirm m key).1 := by
  unfold cursorInRange at h
  rw [hs] at h
  obtain ⟨h0, h1⟩ := h
  simp only at h1
  unfold updateConfirm
  repeat' first
    | refine ite_pair_ind (fun r => cursorInRange r.1) _ _ (fun hc => ?_) (fun hc => ?_)
    | refine ite_model_ind cursorInRange _ _ (fun hc => ?_) (fun hc => ?_)
  all_goals
    unfold cursorInRange
    simp only [hs]
    first | omega | exact ⟨by omega, trivial⟩

theorem browseOptions_cursor (m : model) (c : Int) :
    browseOptions { m with cursor := c } = browseOptions m := rfl

theorem browse_first_row (m : model) : 0 ≤ len (browseOptions m) - 1 := by
  have := len_browseOptions m
  omega

theorem updateBrowse_range (env : Env) (m : model) (key : GoString)
    (hs : m.state = state.stateBrowseSource ∨ m.state = state.stateBrowseDest)
    (h : cursorInRange m) : cursorInRange (updateBrowse env m key).1 := by
  unfold cursorInRange at h
  obtain ⟨h0, h1⟩ := h
  have h2 : m.cursor ≤ len (browseOptions m) - 1 := by
    rcases hs with hs | hs <;> rw [hs] at h1 <;> exact h1
  clear h1
  unfold updateBrowse
  repeat' first
    | refine ite_pair_ind (fun r => cursorInRange r.1) _ _ (fun hc => ?_) (fun hc => ?_)
    | refine ite_model_ind cursorInRange _ _ (fun hc => ?_) (fun hc => ?_)
  all_goals
    unfold cursorInRange
    try simp only [browseOptions_cursor]
    rcases hs with hs | hs
    all_goals
      try simp only [hs]
      first
        | omega
        | exact ⟨le_refl 0, browse_first_row _⟩

/-- A property holds of what `Update` returns on a key event as soon as it holds of the two
ways to quit and of what the handler of the active screen returns. -/
theorem update_key_ind (P : model × Cmd → Prop) (tbl : Char → Char) (env : Env) (m : model)
    (key : GoString) (hquit : P ({ m with quitting := true }, Cmd.Quit))
    (hmenu : m.state = state.stateMenu → P (updateMenu m key))
    (hsource : m.state = state.stateSourceSelect → P (updateSourceSelect env m key))
    (hdest : m.state = state.stateDestSelect → P (updateDestSelect env m key))
    (hbrowse : m.state = state.stateBrowseSource ∨ m.state = state.stateBrowseDest →
      P (updateBrowse env m key))
    (hext : m.state = state.stateExtensions → P (updateExtensions m key))
    (hcustom : m.state = state.stateCustomExtensions → P (updateCustomExtensions tbl m key))
    (hopt : m.state = state.stateOptions → P (updateOptions m key))
    (hconfirm : m.state = state.stateConfirm → P (updateConfirm m key))
    (hclosed : m.state = state.stateCopying ∨ m.state = state.stateComplete → P (m, Cmd.nil)) :
    P (Update tbl env m (Msg.KeyMsg key)) := by
  unfold Update
  refine ite_pair_ind P _ _ (fun _ => hquit) (fun _ => ?_)
  refine ite_pair_ind P _ _ (fun _ => hquit) (fun _ => ?_)
  generalize hst : m.state = st at *
  cases st
  · exact hmenu rfl
  · exact hsource rfl
  · exact hdest rfl
  · exact hbrowse (Or.inl rfl)
  · exact hbrowse (Or.inr rfl)
  · exact hext rfl
  · exact hcustom rfl
  · exact hopt rfl
  · exact hconfirm rfl
  · exact hclosed (Or.inl rfl)
  · exact hclosed (Or.inr rfl)

theorem update_range (tbl : Char → Char) (env : Env) (m : model) (key : GoString)
    (h : cursorInRange m) : cursorInRange (Update tbl env m (Msg.KeyMsg key)).1 :=
  update_key_ind (fun r => cursorInRange r.1) tbl env m key h
    (fun hs => updateMenu_range m key hs h)
    (fun hs => updateSourceSelect_range env m key hs h)
    (fun hs => updateDestSelect_range env m key hs h)
    (fun hs => updateBrowse_range env m key hs h)
    (fun hs => updateExtensions_range m key hs h)
    (fun hs => updateCustomExtensions_range tbl m key hs h)
    (fun hs => updateOptions_range m key hs h)
    (fun hs => updateConfirm_range m key hs h)
    (fun _ => h)

theorem reachable_range (tbl : Char → Char) (env : Env) (m : model)
    (h : Reachable tbl env m) : cursorInRange m := by
  induction h with
  | init => exact ⟨le_refl 0, show (0 : Int) ≤ 5 by decide⟩
  | key m key _ ih => exact update_range tbl env m key ih

theorem updateMenu_listed (env : Env) (m : model) (key : GoString)
    (h : directoriesListed env m) : directoriesListed env (updateMenu m key).1 := by
  unfold updateMenu
  repeat' first
    | refine ite_pair_ind (fun r => directoriesListed env r.1) _ _ (fun hc => ?_) (fun hc => ?_)
    | refine ite_model_ind (directoriesListed env) _ _ (fun hc => ?_) (fun hc => ?_)
  all_goals
    intro hb
    first
      | exact h hb
      | rfl
      | (rcases hb with hb | hb <;> cases hb)

theorem updateSourceSelect_listed (env : Env) (m : model) (key : GoString)
    (h : directoriesListed env m) : directoriesListed env (updateSourceSelect env m key).1 := by
  unfold updateSourceSelect
  repeat' first
    | refine ite_pair_ind (fun r => directoriesListed env r.1) _ _ (fun hc => ?_) (fun hc => ?_)
    | refine ite_model_ind (directoriesListed env) _ _ (fun hc => ?_) (fun hc => ?_)
  all_goals
    intro hb
    first
      | exact h hb
      | rfl
      | (rcases hb with hb | hb <;> cases hb)

theorem updateDestSelect_listed (env : Env) (m : model) (key : GoString)
    (h : directoriesListed env m) : directoriesListed env (updateDestSelect env m key).1 := by
  unfold updateDestSelect
  repeat' first
    | refine ite_pair_ind (fun r => directoriesListed env r.1) _ _ (fun hc => ?_) (fun hc => ?_)
    | refine ite_model_ind (directoriesListed env) _ _ (fun hc => ?_) (fun hc => ?_)
  all_goals
    intro hb
    first
      | exact h hb
      | rfl
      | (rcases hb with hb | hb <;> cases hb)

theorem updateBrowse_listed (env : Env) (m : model) (key : GoString)
    (h : directoriesListed env m) : directoriesListed env (updateBrowse env m key).1 := by
  unfold updateBrowse
  repeat' first
    | refine ite_pair_ind (fun r => directoriesListed env r.1) _ _ (fun hc => ?_) (fun hc => ?_)
    | refine ite_model_ind (directoriesListed env) _ _ (fun hc => ?_) (fun hc => ?_)
  all_goals
    intro hb
    first
      | exact h hb
      | rfl
      | (rcases hb with hb | hb <;> cases hb)

theorem updateExtensions_listed (env : Env) (m : model) (key : GoString)
    (h : directoriesListed env m) : directoriesListed env (updateExtensions m key).1 := by
  unfold updateExtensions
  repeat' first
    | refine ite_pair_ind (fun r => directoriesListed env r.1) _ _ (fun hc => ?_) (fun hc => ?_)
    | refine ite_model_ind (directoriesListed env) _ _ (fun hc => ?_) (fun hc => ?_)
  all_goals
    intro hb
    first
      | exact h hb
      | rfl
      | (rcases hb with hb | hb <;> cases hb)

theorem updateCustomExtensions_listed (env : Env) (tbl : Char → Char) (m : model) (key : GoString)
    (h : directoriesListed env m) : directoriesListed env (updateCustomExtensions tbl m key).1 := by
  unfold updateCustomExtensions
  repeat' first
    | refine ite_pair_ind (fun r => directoriesListed env r.1) _ _ (fun hc => ?_) (fun hc => ?_)
    | refine ite_model_ind (directoriesListed env) _ _ (fun hc => ?_) (fun hc => ?_)
  all_goals
    intro hb
    first
      | exact h hb
      | rfl
      | (rcases hb with hb | hb <;> cases hb)

theorem updateOptions_listed (env : Env) (m : model) (key : GoString)
    (h : directoriesListed env m) : directoriesListed env (updateOptions m key).1 := by
  unfold updateOptions
  repeat' first
    | refine ite_pair_ind (fun r => directoriesListed env r.1) _ _ (fun hc => ?_) (fun hc => ?_)
    | refine ite_model_ind (directoriesListed env) _ _ (fun hc => ?_) (fun hc => ?_)
  all_goals
    intro hb
    first
      | exact h hb
      | rfl
      | (rcases hb with hb | hb <;> cases hb)

theorem updateConfirm_listed (env : Env) (m : model) (key : GoString)
    (h : directoriesListed env m) : directoriesListed env (updateConfirm m key).1 := by
  unfold updateConfirm
  repeat' first
    | refine ite_pair_ind (fun r => directoriesListed env r.1) _ _ (fun hc => ?_) (fun hc => ?_)
    | refine ite_model_ind (directoriesListed env) _ _ (fun hc => ?_) (fun hc => ?_)
  all_goals
    intro hb
    first
      | exact h hb
      | rfl
      | (rcases hb with hb | hb <;> cases hb)

theorem update_listed (tbl : Char → Char) (env : Env) (m : model) (key : GoString)
    (h : directoriesListed env m) :
    directoriesListed env (Update tbl env m (Msg.KeyMsg key)).1 :=
  update_key_ind (fun r => directoriesListed env r.1) tbl env m key h
    (fun _ => updateMenu_listed env m key h)
    (fun _ => updateSourceSelect_listed env m key h)
    (fun _ => updateDestSelect_listed env m key h)
    (fun _ => updateBrowse_listed env m key h)
    (fun _ => updateExtensions_listed env m key h)
    (fun _ => updateCustomExtensions_listed env tbl m key h)
    (fun _ => updateOptions_listed env m key h)
    (fun _ => updateConfirm_listed env m key h)
    (fun _ => h)

theorem reachable_listed (tbl : Char → Char) (env : Env) (m : model)
    (h : Reachable tbl env m) : directoriesListed env m := by
  induction h with
  | init =>
    intro hb
    rcases hb with hb | hb <;> cases hb
  | key m key _ ih => exact update_listed tbl env m key ih

theorem state_clash {x a b : state} {p : Prop} (h1 : x = a) (h2 : x = b) (hne : a ≠ b) : p :=
  absurd (h1.symm.trans h2) hne

theorem updateMenu_folders (m : model) (key : GoString)
    (hs : m.state = state.stateMenu) :
    foldersKept (updateMenu m key) := by
  unfold updateMenu
  repeat' first
    | refine ite_pair_ind foldersKept _ _ (fun hc => ?_) (fun hc => ?_)
    | (refine ⟨?_, fun m1 hcmd => by cases hcmd⟩
       refine ite_model_ind foldersChosen _ _ (fun hc => ?_) (fun hc => ?_))
  all_goals
    first
      | (refine ⟨fun hb => ?_, fun m1 hcmd => by cases hcmd⟩
         first
          | exact hc
          | (rcases hb with hb | hb <;> cases hb)
          | (rcases hb with hb | hb <;> exact state_clash hs hb (by decide)))
      | (intro hb
         rcases hb with hb | hb <;> exact state_clash hs hb (by decide))

theorem updateSourceSelect_folders (env : Env) (m : model) (key : GoString)
    (hs : m.state = state.stateSourceSelect) :
    foldersKept (updateSourceSelect env m key) := by
  unfold updateSourceSelect
  repeat' first
    | refine ite_pair_ind foldersKept _ _ (fun hc => ?_) (fun hc => ?_)
    | (refine ⟨?_, fun m1 hcmd => by cases hcmd⟩
       refine ite_model_ind foldersChosen _ _ (fun hc => ?_) (fun hc => ?_))
  all_goals
    first
      | (refine ⟨fun hb => ?_, fun m1 hcmd => by cases hcmd⟩
         first
          | exact hc
          | (rcases hb with hb | hb <;> cases hb)
          | (rcases hb with hb | hb <;> exact state_clash hs hb (by decide)))
      | (intro hb
         rcases hb with hb | hb <;> exact state_clash hs hb (by decide))

theorem updateDestSelect_folders (env : Env) (m : model) (key : GoString)
    (hs : m.state = state.stateDestSelect) :
    foldersKept (updateDestSelect env m key) := by
  unfold updateDestSelect
  repeat' first
    | refine ite_pair_ind foldersKept _ _ (fun hc => ?_) (fun hc => ?_)
    | (refine ⟨?_, fun m1 hcmd => by cases hcmd⟩
       refine ite_model_ind foldersChosen _ _ (fun hc => ?_) (fun hc => ?_))
  all_goals
    first
      | (refine ⟨fun hb => ?_, fun m1 hcmd => by cases hcmd⟩
         first
          | exact hc
          | (rcases hb with hb | hb <;> cases hb)
          | (rcases hb with hb | hb <;> exact state_clash hs hb (by decide)))
      | (intro hb
         rcases hb with hb | hb <;> exact state_clash hs hb (by decide))

theorem updateBrowse_folders (env : Env) (m : model) (key : GoString)
    (hs : m.state = state.stateBrowseSource ∨ m.state = state.stateBrowseDest) :
    foldersKept (updateBrowse env m key) := by
  unfold updateBrowse
  rcases hs with hs | hs
  all_goals
    repeat' first
      | refine ite_pair_ind foldersKept _ _ (fun hc => ?_) (fun hc => ?_)
      | (refine ⟨?_, fun m1 hcmd => by cases hcmd⟩
         refine ite_model_ind foldersChosen _ _ (fun hc => ?_) (fun hc => ?_))
    all_goals
      first
        | (refine ⟨fun hb => ?_, fun m1 hcmd => by cases hcmd⟩
           first
            | exact hc
            | (rcases hb with hb | hb <;> cases hb)
            | (rcases hb with hb | hb <;> exact state_clash hs hb (by decide)))
        | (intro hb
           rcases hb with hb | hb <;> exact state_clash hs hb (by decide))

theorem updateExtensions_folders (m : model) (key : GoString)
    (hs : m.state = state.stateExtensions) :
    foldersKept (updateExtensions m key) := by
  unfold updateExtensions
  repeat' first
    | refine ite_pair_ind foldersKept _ _ (fun hc => ?_) (fun hc => ?_)
    | (refine ⟨?_, fun m1 hcmd => by cases hcmd⟩
       refine ite_model_ind foldersChosen _ _ (fun hc => ?_) (fun hc => ?_))
  all_goals
    first
      | (refine ⟨fun hb => ?_, fun m1 hcmd => by cases hcmd⟩
         first
          | exact hc
          | (rcases hb with hb | hb <;> cases hb)
          | (rcases hb with hb | hb <;> exact state_clash hs hb (by decide)))
      | (intro hb
         rcases hb with hb | hb <;> exact state_clash hs hb (by decide))

theorem updateCustomExtensions_folders (tbl : Char → Char) (m : model) (key : GoString)
    (hs : m.state = state.stateCustomExtensions) :
    foldersKept (updateCustomExtensions tbl m key) := by
  unfold updateCustomExtensions
  repeat' first
    | refine ite_pair_ind foldersKept _ _ (fun hc => ?_) (fun hc => ?_)
    | (refine ⟨?_, fun m1 hcmd => by cases hcmd⟩
       refine ite_model_ind foldersChosen _ _ (fun hc => ?_) (fun hc => ?_))
  all_goals
    first
      | (refine ⟨fun hb => ?_, fun m1 hcmd => by cases hcmd⟩
         first
          | exact hc
          | (rcases hb with hb | hb <;> cases hb)
          | (rcases hb with hb | hb <;> exact state_clash hs hb (by decide)))
      | (intro hb
         rcases hb with hb | hb <;> exact state_clash hs hb (by decide))

theorem updateOptions_folders (m : model) (key : GoString)
    (hs : m.state = state.stateOptions) :
    foldersKept (updateOptions m key) := by
  unfold updateOptions
  repeat' first
    | refine ite_pair_ind foldersKept _ _ (fun hc => ?_) (fun hc => ?_)
    | (refine ⟨?_, fun m1 hcmd => by cases hcmd⟩
       refine ite_model_ind foldersChosen _ _ (fun hc => ?_) (fun hc => ?_))
  all_goals
    first
      | (refine ⟨fun hb => ?_, fun m1 hcmd => by cases hcmd⟩
         first
          | exact hc
          | (rcases hb with hb | hb <;> cases hb)
          | (rcases hb with hb | hb <;> exact state_clash hs hb (by decide)))
      | (intro hb
         rcases hb with hb | hb <;> exact state_clash hs hb (by decide))

theorem updateConfirm_folders (m : model) (key : GoString)
    (hs : m.state = state.stateConfirm) (h : foldersChosen m) :
    foldersKept (updateConfirm m key) := by
  unfold updateConfirm
  repeat' refine ite_pair_ind foldersKept _ _ (fun hc => ?_) (fun hc => ?_)
  all_goals
    refine ⟨fun hb => ?_, fun m1 hcmd => ?_⟩
    · exact h (Or.inl hs)
    · cases hcmd <;> exact h (Or.inl hs)

theorem update_folders (tbl : Char → Char) (env : Env) (m : model) (key : GoString)
    (h : foldersChosen m) : foldersKept (Update tbl env m (Msg.KeyMsg key)) :=
  update_key_ind foldersKept tbl env m key ⟨h, fun m1 hcmd => by cases hcmd⟩
    (fun hs => updateMenu_folders m key hs)
    (fun hs => updateSourceSelect_folders env m key hs)
    (fun hs => updateDestSelect_folders env m key hs)
    (fun hs => updateBrowse_folders env m key hs)
    (fun hs => updateExtensions_folders m key hs)
    (fun hs => updateCustomExtensions_folders tbl m key hs)
    (fun hs => updateOptions_folders m key hs)
    (fun hs => updateConfirm_folders m key hs h)
    (fun _ => ⟨h, fun m1 hcmd => by cases hcmd⟩)

theorem reachable_folders (tbl : Char → Char) (env : Env) (m : model)
    (h : Reachable tbl env m) : foldersChosen m := by
  induction h with
  | init =>
    intro hb
    rcases hb with hb | hb <;> cases hb
  | key m key _ ih => exact (update_folders tbl env m key ih).1

theorem updateMenu_command (m : model) (key : GoString) :
    (updateMenu m key).2 = Cmd.nil ∨ (updateMenu m key).2 = Cmd.Quit := by
  unfold updateMenu
  repeat' first
    | exact Or.inl rfl
    | exact Or.inr rfl
    | refine ite_pair_ind (fun r => r.2 = Cmd.nil ∨ r.2 = Cmd.Quit) _ _ (fun _ => ?_)
        (fun _ => ?_)

theorem updateSourceSelect_command (env : Env) (m : model) (key : GoString) :
    (updateSourceSelect env m key).2 = Cmd.nil ∨ (updateSourceSelect env m key).2 = Cmd.Quit := by
  unfold updateSourceSelect
  repeat' first
    | exact Or.inl rfl
    | exact Or.inr rfl
    | refine ite_pair_ind (fun r => r.2 = Cmd.nil ∨ r.2 = Cmd.Quit) _ _ (fun _ => ?_)
        (fun _ => ?_)

theorem updateDestSelect_command (env : Env) (m : model) (key : GoString) :
    (updateDestSelect env m key).2 = Cmd.nil ∨ (updateDestSelect env m key).2 = Cmd.Quit := by
  unfold updateDestSelect
  repeat' first
    | exact Or.inl rfl
    | exact Or.inr rfl
    | refine ite_pair_ind (fun r => r.2 = Cmd.nil ∨ r.2 = Cmd.Quit) _ _ (fun _ => ?_)
        (fun _ => ?_)

theorem updateBrowse_command (env : Env) (m : model) (key : GoString) :
    (updateBrowse env m key).2 = Cmd.nil ∨ (updateBrowse env m key).2 = Cmd.Quit := by
  unfold updateBrowse
  repeat' first
    | exact Or.inl rfl
    | exact Or.inr rfl
    | refine ite_pair_ind (fun r => r.2 = Cmd.nil ∨ r.2 = Cmd.Quit) _ _ (fun _ => ?_)
        (fun _ => ?_)

theorem updateExtensions_command (m : model) (key : GoString) :
    (updateExtensions m key).2 = Cmd.nil ∨ (updateExtensions m key).2 = Cmd.Quit := by
  unfold updateExtensions
  repeat' first
    | exact Or.inl rfl
    | exact Or.inr rfl
    | refine ite_pair_ind (fun r => r.2 = Cmd.nil ∨ r.2 = Cmd.Quit) _ _ (fun _ => ?_)
        (fun _ => ?_)

theorem updateCustomExtensions_command (tbl : Char → Char) (m : model) (key : GoString) :
    (updateCustomExtensions tbl m key).2 = Cmd.nil ∨ (updateCustomExtensions tbl m key).2 = Cmd.Quit := by
  unfold updateCustomExtensions
  repeat' first
    | exact Or.inl rfl
    | exact Or.inr rfl
    | refine ite_pair_ind (fun r => r.2 = Cmd.nil ∨ r.2 = Cmd.Quit) _ _ (fun _ => ?_)
        (fun _ => ?_)

theorem updateOptions_command (m : model) (key : GoString) :
    (updateOptions m key).2 = Cmd.nil ∨ (updateOptions m key).2 = Cmd.Quit := by
  unfold updateOptions
  repeat' first
    | exact Or.inl rfl
    | exact Or.inr rfl
    | refine ite_pair_ind (fun r => r.2 = Cmd.nil ∨ r.2 = Cmd.Quit) _ _ (fun _ => ?_)
        (fun _ => ?_)

/-- Only the handler of the confirmation returns a command other than nil and quit. -/
theorem update_command (tbl : Char → Char) (env : Env) (m : model) (key : GoString) :
    (Update tbl env m (Msg.KeyMsg key)).2 = Cmd.nil ∨
      (Update tbl env m (Msg.KeyMsg key)).2 = Cmd.Quit ∨
      (m.state = state.stateConfirm ∧ Update tbl env m (Msg.KeyMsg key) = updateConfirm m key) :=
  update_key_ind (fun r => r.2 = Cmd.nil ∨ r.2 = Cmd.Quit ∨
      (m.state = state.stateConfirm ∧ r = updateConfirm m key)) tbl env m key
    (Or.inr (Or.inl rfl))
    (fun _ => (updateMenu_command m key).elim Or.inl (fun h => Or.inr (Or.inl h)))
    (fun _ => (updateSourceSelect_command env m key).elim Or.inl (fun h => Or.inr (Or.inl h)))
    (fun _ => (updateDestSelect_command env m key).elim Or.inl (fun h => Or.inr (Or.inl h)))
    (fun _ => (updateBrowse_command env m key).elim Or.inl (fun h => Or.inr (Or.inl h)))
    (fun _ => (updateExtensions_command m key).elim Or.inl (fun h => Or.inr (Or.inl h)))
    (fun _ => (updateCustomExtensions_command tbl m key).elim Or.inl
      (fun h => Or.inr (Or.inl h)))
    (fun _ => (updateOptions_command m key).elim Or.inl (fun h => Or.inr (Or.inl h)))
    (fun hs => Or.inr (Or.inr ⟨hs, rfl⟩))
    (fun _ => Or.inl rfl)

theorem toLower_ascii_table (tbl : Char → Char) (r : Char) (h : r.toNat ≤ 127) :
    unicode.ToLower tbl r = unicode.ToLower (fun r => r) r := by
  unfold unicode.ToLower
  rw [if_pos h, if_pos h]

theorem toLower_ascii_le (tbl : Char → Char) (r : Char) (h : r.toNat ≤ 127) :
    (unicode.ToLower tbl r).toNat ≤ 127 := by
  rw [toLower_toNat_ascii tbl r h]
  split_ifs with h2
  · omega
  · exact h

theorem strings_toLower_ascii (tbl : Char → Char) (s : GoString) (hs : asciiOnly s) :
    strings.ToLower tbl s = strings.ToLower (fun r => r) s := by
  unfold strings.ToLower
  exact List.map_congr_left (fun c hc => toLower_ascii_table tbl c (hs c hc))

theorem parseExtensionsStep_ascii (tbl : Char → Char) (p : GoString) (hp : asciiOnly p) :
    parseExtensionsStep tbl [] p = parseExtensionsStep (fun r => r) [] p := by
  unfold parseExtensionsStep
  by_cases h : strings.TrimSpace p = []
  · simp [h]
  · have hsub := (trimSpace_shape p h).2
    have ht : asciiOnly (strings.TrimSpace p) := fun c hc => hp c (hsub c hc)
    have hd : asciiOnly ('.' :: strings.TrimSpace p) := by
      intro c hc
      rcases List.mem_cons.mp hc with hc | hc
      · rw [hc]; decide
      · exact ht c hc
    simp only [ne_eq, h, not_false_eq_true, if_true, List.nil_append]
    split
    · rw [strings_toLower_ascii tbl _ hd]
    · rw [strings_toLower_ascii tbl _ ht]

theorem parseExtensions_ascii (tbl : Char → Char) (s : GoString) (hs : asciiOnly s) :
    parseExtensions tbl s = parseExtensions (fun r => r) s := by
  rw [parseExtensions_eq_flatMap, parseExtensions_eq_flatMap]
  have hcongr : ∀ (l : List GoString), (∀ p ∈ l, asciiOnly p) →
      l.flatMap (parseExtensionsStep tbl []) =
        l.flatMap (parseExtensionsStep (fun r => r) []) := by
    intro l
    induction l with
    | nil => intro _; rfl
    | cons p l ih =>
      intro hl
      rw [List.flatMap_cons, List.flatMap_cons,
        parseExtensionsStep_ascii tbl p (hl p (List.mem_cons_self p l)),
        ih (fun q hq => hl q (List.mem_cons_of_mem p hq))]
  apply hcongr
  intro p hp c hc
  obtain ⟨_, _, hsrc⟩ := fieldsLoop_mem isExtSeparator s none (by simp) p hp
  rcases hsrc c hc with h | h
  · exact hs c h
  · simp at h

theorem parse_settled_ascii (tbl : Char → Char) (s : GoString) (hs : asciiOnly s) :
    ∀ e ∈ parseExtensions tbl s, normalExtension (fun r => r) e ∧ asciiOnly e := by
  intro e he
  rw [parseExtensions_ascii tbl s hs] at he
  obtain ⟨h1, h2, h3, h4, h5⟩ := parse_settled (fun r => r) caseTableOk_id s e he
  refine ⟨⟨h1, h2, h3, h4⟩, fun c hc => ?_⟩
  rcases h5 c hc with h | ⟨d, hd, _, hcd⟩
  · rw [h]; decide
  · rw [hcd]
    exact toLower_ascii_le _ d (hs d hd)

theorem normal_any_table (tbl : Char → Char) (e : GoString)
    (h : normalExtension (fun r => r) e) (ha : asciiOnly e) : normalExtension tbl e := by
  obtain ⟨h1, h2, h3, h4⟩ := h
  exact ⟨h1, h2, by rw [strings_toLower_ascii tbl e ha]; exact h3, h4⟩

theorem join_ascii (R : List GoString) (sep : GoString) (hR : ∀ e ∈ R, asciiOnly e)
    (hsep : asciiOnly sep) : asciiOnly (strings.Join R sep) := by
  induction R with
  | nil => intro c hc; cases hc
  | cons a R ih =>
    cases R with
    | nil => exact hR a (List.mem_cons_self a [])
    | cons b R =>
      intro c hc
      simp only [strings.Join, List.mem_append] at hc
      rcases hc with (hc | hc) | hc
      · exact hR a (List.mem_cons_self _ _) c hc
      · exact hsep c hc
      · exact ih (fun e he => hR e (List.mem_cons_of_mem a he)) c hc

theorem utf8Size_pos (c : Char) : 1 ≤ c.utf8Size := by
  unfold Char.utf8Size
  dsimp only
  split_ifs <;> omega

theorem utf8Size_one (c : Char) (h : c.utf8Size = 1) : c.toNat ≤ 127 := by
  unfold Char.utf8Size at h
  dsimp only at h
  split_ifs at h with h1
  · rw [UInt32.le_def] at h1
    exact h1
  all_goals omega

theorem byteLen_one_ascii (key : GoString) (h : byteLen key = 1) : asciiOnly key := by
  unfold byteLen at h
  have h1 : (key.map Char.utf8Size).sum = 1 := by exact_mod_cast h
  cases key with
  | nil => intro c hc; cases hc
  | cons a rest =>
    cases rest with
    | nil =>
      intro c hc
      rw [List.mem_singleton] at hc
      rw [hc]
      simp at h1
      exact utf8Size_one a h1
    | cons b rest =>
      simp only [List.map_cons, List.sum_cons] at h1
      have := utf8Size_pos a
      have := utf8Size_pos b
      omega

theorem separator_ascii : asciiOnly ", ".toList := by
  unfold asciiOnly
  decide

theorem presets_parsed :
    presets =
      [ parseExtensions (fun r => r) "jpg,png,gif,bmp".toList,
        parseExtensions (fun r => r) "pdf,doc,docx,txt".toList,
        parseExtensions (fun r => r) "mp4,avi,mkv,mov".toList,
        parseExtensions (fun r => r) "mp3,wav,flac,m4a".toList,
        parseExtensions (fun r => r) "zip,rar,7z,tar".toList ] := by
  decide!

theorem presets_settled (n : Nat) :
    ∀ e ∈ presets.getD n [], normalExtension (fun r => r) e ∧ asciiOnly e := by
  rw [presets_parsed]
  match n with
  | 0 =>
    exact parse_settled_ascii (fun r => r) "jpg,png,gif,bmp".toList
      (by unfold asciiOnly; decide)
  | 1 =>
    exact parse_settled_ascii (fun r => r) "pdf,doc,docx,txt".toList
      (by unfold asciiOnly; decide)
  | 2 =>
    exact parse_settled_ascii (fun r => r) "mp4,avi,mkv,mov".toList
      (by unfold asciiOnly; decide)
  | 3 =>
    exact parse_settled_ascii (fun r => r) "mp3,wav,flac,m4a".toList
      (by unfold asciiOnly; decide)
  | 4 =>
    exact parse_settled_ascii (fun r => r) "zip,rar,7z,tar".toList
      (by unfold asciiOnly; decide)
  | k + 5 =>
    intro e he
    simp at he

theorem initial_settled (env : Env) : extensionsSettled (initialModel env) := by
  have h : (initialModel env).config.Extensions =
      parseExtensions (fun r => r) "jpg,png,pdf".toList := rfl
  constructor
  · intro c hc
    cases hc
  · rw [h]
    exact parse_settled_ascii (fun r => r) "jpg,png,pdf".toList (by unfold asciiOnly; decide)

theorem updateMenu_settled (m : model) (key : GoString)
    (h : extensionsSettled m) : extensionsSettled (updateMenu m key).1 := by
  unfold updateMenu
  repeat' first
    | refine ite_pair_ind (fun r => extensionsSettled r.1) _ _ (fun hc => ?_) (fun hc => ?_)
    | refine ite_model_ind extensionsSettled _ _ (fun hc => ?_) (fun hc => ?_)
  all_goals exact h

theorem updateSourceSelect_settled (env : Env) (m : model) (key : GoString)
    (h : extensionsSettled m) : extensionsSettled (updateSourceSelect env m key).1 := by
  unfold updateSourceSelect
  repeat' first
    | refine ite_pair_ind (fun r => extensionsSettled r.1) _ _ (fun hc => ?_) (fun hc => ?_)
    | refine ite_model_ind extensionsSettled _ _ (fun hc => ?_) (fun hc => ?_)
  all_goals exact h

theorem updateDestSelect_settled (env : Env) (m : model) (key : GoString)
    (h : extensionsSettled m) : extensionsSettled (updateDestSelect env m key).1 := by
  unfold updateDestSelect
  repeat' first
    | refine ite_pair_ind (fun r => extensionsSettled r.1) _ _ (fun hc => ?_) (fun hc => ?_)
    | refine ite_model_ind extensionsSettled _ _ (fun hc => ?_) (fun hc => ?_)
  all_goals exact h

theorem updateBrowse_settled (env : Env) (m : model) (key : GoString)
    (h : extensionsSettled m) : extensionsSettled (updateBrowse env m key).1 := by
  unfold updateBrowse
  repeat' first
    | refine ite_pair_ind (fun r => extensionsSettled r.1) _ _ (fun hc => ?_) (fun hc => ?_)
    | refine ite_model_ind extensionsSettled _ _ (fun hc => ?_) (fun hc => ?_)
  all_goals exact h

theorem updateExtensions_settled (m : model) (key : GoString)
    (h : extensionsSettled m) : extensionsSettled (updateExtensions m key).1 := by
  unfold updateExtensions
  repeat' first
    | refine ite_pair_ind (fun r => extensionsSettled r.1) _ _ (fun hc => ?_) (fun hc => ?_)
    | refine ite_model_ind extensionsSettled _ _ (fun hc => ?_) (fun hc => ?_)
  all_goals
    first
      | exact h
      | exact ⟨h.1, presets_settled _⟩
      | exact ⟨join_ascii _ _ (fun e he => (h.2 e he).2) separator_ascii, h.2⟩

theorem updateCustomExtensions_settled (tbl : Char → Char) (m : model) (key : GoString)
    (h : extensionsSettled m) : extensionsSettled (updateCustomExtensions tbl m key).1 := by
  unfold updateCustomExtensions
  repeat' first
    | refine ite_pair_ind (fun r => extensionsSettled r.1) _ _ (fun hc => ?_) (fun hc => ?_)
    | refine ite_model_ind extensionsSettled _ _ (fun hc => ?_) (fun hc => ?_)
  all_goals
    first
      | exact h
      | exact ⟨h.1, parse_settled_ascii tbl _ h.1⟩
      | exact ⟨fun c hc => h.1 c (List.mem_of_mem_dropLast hc), h.2⟩
      | exact ⟨fun c hc => (List.mem_append.mp hc).elim (h.1 c)
          (byteLen_one_ascii key (by assumption) c), h.2⟩

theorem updateOptions_settled (m : model) (key : GoString)
    (h : extensionsSettled m) : extensionsSettled (updateOptions m key).1 := by
  unfold updateOptions
  repeat' first
    | refine ite_pair_ind (fun r => extensionsSettled r.1) _ _ (fun hc => ?_) (fun hc => ?_)
    | refine ite_model_ind extensionsSettled _ _ (fun hc => ?_) (fun hc => ?_)
  all_goals exact h

theorem updateConfirm_settled (m : model) (key : GoString)
    (h : extensionsSettled m) : extensionsSettled (updateConfirm m key).1 := by
  unfold updateConfirm
  repeat' first
    | refine ite_pair_ind (fun r => extensionsSettled r.1) _ _ (fun hc => ?_) (fun hc => ?_)
    | refine ite_model_ind extensionsSettled _ _ (fun hc => ?_) (fun hc => ?_)
  all_goals exact h

theorem update_settled (tbl : Char → Char) (env : Env) (m : model) (key : GoString)
    (h : extensionsSettled m) : extensionsSettled (Update tbl env m (Msg.KeyMsg key)).1 :=
  update_key_ind (fun r => extensionsSettled r.1) tbl env m key h
    (fun _ => updateMenu_settled m key h)
    (fun _ => updateSourceSelect_settled env m key h)
    (fun _ => updateDestSelect_settled env m key h)
    (fun _ => updateBrowse_settled env m key h)
    (fun _ => updateExtensions_settled m key h)
    (fun _ => updateCustomExtensions_settled tbl m key h)
    (fun _ => updateOptions_settled m key h)
    (fun _ => updateConfirm_settled m key h)
    (fun _ => h)

theorem reachable_settled (tbl : Char → Char) (env : Env) (m : model)
    (h : Reachable tbl env m) : extensionsSettled m := by
  induction h with
  | init => exact initial_settled env
  | key m key _ ih => exact update_settled tbl env m key ih

theorem settled_round_trip (tbl : Char → Char) (m : model) (h : extensionsSettled m) :
    parseExtensions tbl (strings.Join m.config.Extensions ", ".toList) = m.config.Extensions :=
  parse_join_fixed tbl m.config.Extensions
    (fun e he => normal_any_table tbl e (h.2 e he).1 (h.2 e he).2)

theorem update_open_editor (tbl : Char → Char) (env : Env) (m : model)
    (hs : m.state = state.stateExtensions) (hc : m.cursor = 5) :
    Update tbl env m (Msg.KeyMsg "enter".toList) =
      ({ m with
          state := state.stateCustomExtensions
          customInput := strings.Join m.config.Extensions ", ".toList
          cursor := 0 }, Cmd.nil) := by
  rw [update_enter_dispatch, hs]
  have hp : len presets = 5 := rfl
  have h1 : ¬ ("enter".toList = "up".toList ∨ "enter".toList = "k".toList) := by decide
  have h2 : ¬ ("enter".toList = "down".toList ∨ "enter".toList = "j".toList) := by decide
  have h3 : ¬ m.cursor < 5 := by omega
  simp only [updateExtensions, hp, if_neg h1, if_neg h2, if_true, if_neg h3, if_pos hc]

theorem update_editor_enter (tbl : Char → Char) (env : Env) (m : model)
    (hs : m.state = state.stateCustomExtensions) :
    Update tbl env m (Msg.KeyMsg "enter".toList) =
      ({ m with
          config := { m.config with Extensions := parseExtensions tbl m.customInput }
          state := state.stateMenu
          cursor := 3 }, Cmd.nil) := by
  rw [update_enter_dispatch, hs]
  simp only [updateCustomExtensions, if_true]

/-! ## Lemmas on the directory listing -/

theorem stringLess_total (a b : GoString) :
    stringLess b a = false ∨ stringLess a b = false := by
  induction a generalizing b with
  | nil => cases b <;> simp [stringLess]
  | cons x s ih =>
    cases b with
    | nil => simp [stringLess]
    | cons y t =>
      unfold stringLess
      by_cases h1 : x.toNat < y.toNat
      · left
        rw [if_neg (by omega), if_pos h1]
      · by_cases h2 : y.toNat < x.toNat
        · right
          rw [if_neg h1, if_pos h2]
        · rw [if_neg h2, if_neg h1, if_neg h1, if_neg h2]
          exact ih t

theorem stringLess_trans (a b c : GoString) (h1 : stringLess b a = false)
    (h2 : stringLess c b = false) : stringLess c a = false := by
  induction a generalizing b c with
  | nil => cases c <;> simp [stringLess]
  | cons x s ih =>
    cases b with
    | nil => simp [stringLess] at h1
    | cons y t =>
      cases c with
      | nil => simp [stringLess] at h2
      | cons z u =>
        unfold stringLess at h1 h2 ⊢
        by_cases hzx : z.toNat < x.toNat
        · exfalso
          by_cases hyx : y.toNat < x.toNat
          · rw [if_pos hyx] at h1
            exact Bool.noConfusion h1
          · rw [if_neg hyx] at h1
            by_cases hzy : z.toNat < y.toNat
            · rw [if_pos hzy] at h2
              exact Bool.noConfusion h2
            · omega
        · rw [if_neg hzx]
          by_cases hxz : x.toNat < z.toNat
          · rw [if_pos hxz]
          · rw [if_neg hxz]
            have hxz2 : x.toNat = z.toNat := by omega
            by_cases hyx : y.toNat < x.toNat
            · rw [if_pos hyx] at h1
              exact Bool.noConfusion h1
            · rw [if_neg hyx] at h1
              by_cases hzy : z.toNat < y.toNat
              · rw [if_pos hzy] at h2
                exact Bool.noConfusion h2
              · rw [if_neg hzy] at h2
                have hxy : x.toNat = y.toNat := by omega
                rw [if_neg (by omega)] at h1 h2
                exact ih t u h1 h2

theorem sortStrings_sorted (l : List GoString) :
    List.Sorted (fun a b => stringLess b a = false) (sortStrings l) := by
  haveI : IsTotal GoString (fun a b => stringLess b a = false) := ⟨stringLess_total⟩
  haveI : IsTrans GoString (fun a b => stringLess b a = false) :=
    ⟨fun a b c h1 h2 => stringLess_trans a b c h1 h2⟩
  exact List.sorted_insertionSort _ l

theorem sortStrings_perm (l : List GoString) : List.Perm (sortStrings l) l :=
  List.perm_insertionSort _ l

/-- What `getDirectories` returns: nothing when the directory cannot be read, otherwise the
names of the entries that are directories and not hidden, each behind the folder glyph, in
the order of `sort.Strings`. -/
theorem getDirectories_listing (env : Env) (path : GoString) :
    (env.readDir path = none → getDirectories env path = []) ∧
      ∀ entries : List (GoString × Bool), env.readDir path = some entries →
        List.Perm (getDirectories env path)
            ((entries.filter (fun e => e.2 && !strings.HasPrefix e.1 ['.'])).map
              (fun e => "📁 ".toList ++ e.1)) ∧
          List.Sorted (fun a b => stringLess b a = false) (getDirectories env path) := by
  constructor
  · intro h
    simp [getDirectories, h]
  · intro entries h
    simp only [getDirectories, h]
    exact ⟨sortStrings_perm _, sortStrings_sorted _⟩

/-! ## Claims on `parseExtensions` -/

/-- C1: for every input string `s` (and every case table with the properties of the Unicode
one), `parseExtensions` is idempotent on its own joined output: parsing
`strings.Join(parseExtensions(s), ", ")` gives `parseExtensions(s)` again, as a sequence. -/
theorem parseExtensions_idempotent (tbl : Char → Char) (ht : CaseTableOk tbl) (s : GoString) :
    parseExtensions tbl (strings.Join (parseExtensions tbl s) ", ".toList) =
      parseExtensions tbl s :=
  parse_join_fixed tbl _ (fun e he => by
    obtain ⟨h1, h2, h3, h4, _⟩ := parse_settled tbl ht s e he
    exact ⟨h1, h2, h3, h4⟩)

/-- The idempotence of C1 at the input `" JPG,png  .Gif,"`, with the identity as the case
table beyond ASCII. -/
theorem parseExtensions_idempotent_witness :
    CaseTableOk (fun r => r) ∧
      parseExtensions (fun r => r)
          (strings.Join (parseExtensions (fun r => r) " JPG,png  .Gif,".toList) ", ".toList) =
        parseExtensions (fun r => r) " JPG,png  .Gif,".toList :=
  ⟨caseTableOk_id, parseExtensions_idempotent (fun r => r) caseTableOk_id " JPG,png  .Gif,".toList⟩

/-- C2: `parseExtensions` on the documented inputs: `".txt, .log, pdf"` gives
`[".txt", ".log", ".pdf"]`, `"jpg, png, .gif"` gives `[".jpg", ".png", ".gif"]`,
`"  .doc,   .docx  , txt  "` gives `[".doc", ".docx", ".txt"]`, and the empty string gives the
empty sequence. -/
theorem parseExtensions_documented (tbl : Char → Char) :
    parseExtensions tbl ".txt, .log, pdf".toList = [".txt".toList, ".log".toList, ".pdf".toList] ∧
      parseExtensions tbl "jpg, png, .gif".toList =
        [".jpg".toList, ".png".toList, ".gif".toList] ∧
      parseExtensions tbl "  .doc,   .docx  , txt  ".toList =
        [".doc".toList, ".docx".toList, ".txt".toList] ∧
      parseExtensions tbl "".toList = [] :=
  ⟨rfl, rfl, rfl, rfl⟩

/-- C3: for every input string, every element that `parseExtensions` returns is normalized:
it begins with `"."`, it is equal to its own lower-casing, and it contains neither a comma
nor a space character. -/
theorem parseExtensions_normalized (tbl : Char → Char) (ht : CaseTableOk tbl) (s : GoString)
    (e : GoString) (he : e ∈ parseExtensions tbl s) :
    strings.HasPrefix e ".".toList = true ∧ strings.ToLower tbl e = e ∧ ',' ∉ e ∧ ' ' ∉ e := by
  obtain ⟨⟨u, hu⟩, _, h3, h4, _⟩ := parse_settled tbl ht s e he
  refine ⟨?_, h3, ?_, ?_⟩
  · rw [hu]
    show strings.HasPrefix ('.' :: u) ['.'] = true
    simp [strings.HasPrefix, List.isPrefixOf]
  · intro hc
    exact absurd (h4 ',' hc) (by decide)
  · intro hc
    exact absurd (h4 ' ' hc) (by decide)

/-- The normal form of C3 at the element `".png"` of the parse of `"JPG, PNG"`. -/
theorem parseExtensions_normalized_witness :
    CaseTableOk (fun r => r) ∧ ".png".toList ∈ parseExtensions (fun r => r) "JPG, PNG".toList ∧
      (strings.HasPrefix ".png".toList ".".toList = true ∧
        strings.ToLower (fun r => r) ".png".toList = ".png".toList ∧
        ',' ∉ ".png".toList ∧ ' ' ∉ ".png".toList) :=
  ⟨caseTableOk_id, by decide,
    parseExtensions_normalized (fun r => r) caseTableOk_id "JPG, PNG".toList ".png".toList
      (by decide)⟩

/-- C5, at the failing input: for a list of one file, whatever `copyFile` does (so also when
no copy fails, and in a dry run), `processFiles` emits one progress event and then a
completion message whose copied count is 0, not 1, with total 1: the count is read from the
last progress event, which was sent before the file was copied. The same holds for every
non-empty list of `N` files in a dry run or when no copy fails: there are `N` progress
events, and the completion message carries the copied count `N - 1` and the total `N`. -/
theorem processFiles_single_file_reports_zero {σ : Type} (copyFile : σ → GoString → σ × Bool)
    (m : model) (file : GoString) (s : σ) :
    (processFiles copyFile m [file] s).1 =
        [{ file := filepath.Base file, progress := 100, total := 1, copied := 0 }] ∧
      (processFiles copyFile m [file] s).2.1 = { success := true, copied := 0, total := 1 } ∧
      ∀ files : List GoString, files ≠ [] →
        (m.config.DryRun = true ∨ ∀ b ∈ copyOutcomes copyFile files s, b = true) →
          (processFiles copyFile m files s).1.length = files.length ∧
            (processFiles copyFile m files s).2.1 =
              { success := true, copied := len files - 1, total := len files } := by
  have hp : Int.tdiv (wrapInt64 ((0 + 1) * 100)) (len [file]) = 100 := by
    unfold wrapInt64 len
    norm_num
  refine ⟨?_, rfl, ?_⟩
  · simp only [processFiles, processLoop, hp]
    rfl
  · intro files hne hrun
    refine ⟨processLoop_length copyFile _ _ files 0 0 s, ?_⟩
    have hdry : (processLoop copyFile m.config.DryRun (len files) files 0 0 s).1 =
        (processLoop copyFile true (len files) files 0 0 s).1 := by
      rcases hrun with h | h
      · rw [h]
      · cases hd : m.config.DryRun with
        | true => rfl
        | false => exact (processLoop_dry_eq_real copyFile (len files) files 0 0 s s h).symm
    have hlast := processLoop_last_copied_dry copyFile (len files) files 0 0 s
      copyProgressMsg.zero hne
    simp only [processFiles, hdry, hlast]
    simp

/-- C9: for every list of candidate files, a dry run emits the same sequence of progress
events and the same completion message as a run that is not a dry run and in which every
copy succeeds; the dry run leaves the state of the world as it was, and a log of the
`copyFile` calls stays empty. -/
theorem processFiles_dry_run_matches_real_run {σ : Type} (copyFile : σ → GoString → σ × Bool)
    (m : model) (files : List GoString) (s : σ)
    (hok : ∀ b ∈ copyOutcomes copyFile files s, b = true) :
    (processFiles copyFile { m with config := { m.config with DryRun := true } } files s).1 =
        (processFiles copyFile { m with config := { m.config with DryRun := false } } files s).1 ∧
      (processFiles copyFile { m with config := { m.config with DryRun := true } } files s).2.1 =
        (processFiles copyFile { m with config := { m.config with DryRun := false } } files s).2.1 ∧
      (processFiles copyFile { m with config := { m.config with DryRun := true } } files s).2.2 = s ∧
      (processFiles (fun (log : List GoString) (f : GoString) => (log ++ [f], true))
        { m with config := { m.config with DryRun := true } } files []).2.2 = [] := by
  have h := processLoop_dry_eq_real copyFile (len files) files 0 0 s s hok
  refine ⟨?_, ?_, ?_, ?_⟩
  · exact h
  · simp only [processFiles]
    rw [h]
  · exact processLoop_dry_state copyFile (len files) files 0 0 s
  · exact processLoop_dry_state _ (len files) files 0 0 []

/-- The agreement of C9 on two files, with a `copyFile` that always succeeds and counts its
calls. -/
theorem processFiles_dry_run_matches_real_run_witness :
    (∀ b ∈ copyOutcomes (fun (n : Nat) (_ : GoString) => (n + 1, true))
        ["/src/a.txt".toList, "/src/sub/b.txt".toList] 0, b = true) ∧
      (processFiles (fun (n : Nat) (_ : GoString) => (n + 1, true))
          { initialModel ⟨[], [], fun _ => none⟩ with
            config := { (initialModel ⟨[], [], fun _ => none⟩).config with DryRun := true } }
          ["/src/a.txt".toList, "/src/sub/b.txt".toList] 0).2.2 = 0 :=
  ⟨by decide,
    (processFiles_dry_run_matches_real_run (fun (n : Nat) (_ : GoString) => (n + 1, true))
      (initialModel ⟨[], [], fun _ => none⟩) ["/src/a.txt".toList, "/src/sub/b.txt".toList] 0
      (by decide)).2.2.1⟩

/-! ## Claims on the progress events -/

/-- C18: for every non-empty list of `N` files (with `N * 100` below `2^63`, as it is for
every list a 64-bit machine can hold), in a dry run or not and whatever `copyFile` does, the
progress event at 0-based index `i` carries the percent `floor(((i+1)*100)/N)`; the percents
never exceed 100, they are non-decreasing along the event sequence, and the last event
carries exactly 100. -/
theorem processFiles_percent {σ : Type} (copyFile : σ → GoString → σ × Bool) (m : model)
    (files : List GoString) (s : σ) (hne : files ≠ []) (hsize : files.length * 100 < 2 ^ 63) :
    (∀ i : Nat, i < files.length →
        ∃ ev : copyProgressMsg, (processFiles copyFile m files s).1[i]? = some ev ∧
          ev.progress = (((i + 1) * 100 / files.length : Nat) : Int) ∧ ev.progress ≤ 100) ∧
      (∀ (i j : Nat) (ev1 ev2 : copyProgressMsg), i ≤ j →
        (processFiles copyFile m files s).1[i]? = some ev1 →
          (processFiles copyFile m files s).1[j]? = some ev2 → ev1.progress ≤ ev2.progress) ∧
      ∃ ev : copyProgressMsg,
        (processFiles copyFile m files s).1[files.length - 1]? = some ev ∧ ev.progress = 100 := by
  have hpos : 0 < files.length := List.length_pos.mpr hne
  have hlen : (processFiles copyFile m files s).1.length = files.length :=
    processLoop_length copyFile _ _ files 0 0 s
  have hev : ∀ i : Nat, i < files.length →
      ∃ ev : copyProgressMsg, (processFiles copyFile m files s).1[i]? = some ev ∧
        ev.progress = (((i + 1) * 100 / files.length : Nat) : Int) := by
    intro i hi
    have hp := progress_value i files.length hi hsize
    refine ⟨_, processFiles_getElem copyFile m files s i hi, ?_⟩
    dsimp only [len]
    exact hp
  refine ⟨?_, ?_, ?_⟩
  · intro i hi
    obtain ⟨ev, h1, h2⟩ := hev i hi
    refine ⟨ev, h1, h2, ?_⟩
    rw [h2]
    have : (i + 1) * 100 / files.length ≤ 100 := by
      apply Nat.div_le_of_le_mul
      nlinarith
    exact_mod_cast this
  · intro i j ev1 ev2 hij h1 h2
    have hj : j < files.length := by
      have := (List.getElem?_eq_some_iff.mp h2).1
      omega
    obtain ⟨e1, g1, p1⟩ := hev i (by omega)
    obtain ⟨e2, g2, p2⟩ := hev j hj
    rw [h1] at g1
    rw [h2] at g2
    cases g1
    cases g2
    rw [p1, p2]
    have : (i + 1) * 100 / files.length ≤ (j + 1) * 100 / files.length :=
      Nat.div_le_div_right (by nlinarith)
    exact_mod_cast this
  · obtain ⟨ev, h1, h2⟩ := hev (files.length - 1) (by omega)
    refine ⟨ev, h1, ?_⟩
    rw [h2, Nat.sub_add_cancel hpos, Nat.mul_comm, Nat.mul_div_cancel _ hpos]
    rfl

/-- The percents of C18 on three files: 33, 66 and 100. -/
theorem processFiles_percent_witness :
    ["/s/a.txt".toList, "/s/b.txt".toList, "/s/c.txt".toList] ≠ [] ∧
      ["/s/a.txt".toList, "/s/b.txt".toList, "/s/c.txt".toList].length * 100 < 2 ^ 63 ∧
      ∃ ev : copyProgressMsg,
        (processFiles (fun (n : Nat) (_ : GoString) => (n + 1, true)) startRowModel
            ["/s/a.txt".toList, "/s/b.txt".toList, "/s/c.txt".toList] 0).1[1]? = some ev ∧
          ev.progress = 66 := by
  have hne : ["/s/a.txt".toList, "/s/b.txt".toList, "/s/c.txt".toList] ≠ [] := by decide
  have hsize : ["/s/a.txt".toList, "/s/b.txt".toList, "/s/c.txt".toList].length * 100 < 2 ^ 63 := by
    norm_num
  obtain ⟨ev, h1, h2, _⟩ := (processFiles_percent (fun (n : Nat) (_ : GoString) => (n + 1, true))
    startRowModel ["/s/a.txt".toList, "/s/b.txt".toList, "/s/c.txt".toList] 0 hne hsize).1 1
    (by decide)
  exact ⟨hne, hsize, ev, h1, by rw [h2]; rfl⟩

/-! ## Claims on the file discovery -/

/-- C6, at the failing input: `scanFiles` never reads `config.Recursive`. Its result is the
same whatever the flag, and with the flag false on the tree `src/sub/a.txt` it returns the
file of the nested subdirectory `src/sub`. -/
theorem scanFiles_ignores_recursive (tbl : Char → Char) :
    (∀ (m : model) (root : Option DirEntry) (b : Bool),
        scanFiles tbl { m with config := { m.config with Recursive := b } } root =
          scanFiles tbl m root) ∧
      flatScanModel.config.Recursive = false ∧
      scanFiles tbl flatScanModel (some nestedTree) = (["src/sub/a.txt".toList], none) ∧
      filepath.Dir "src/sub/a.txt".toList = "src/sub".toList ∧
      filepath.Dir "src/sub/a.txt".toList ≠ flatScanModel.config.SourceDir :=
  ⟨fun _ _ _ => rfl, rfl, rfl, by decide, by decide⟩

/-- C7: for every source tree and every extension list, `scanFiles` returns exactly the paths
of the visited entries that are not directories and whose lower-cased extension is in
`config.Extensions`, one for each such entry and in the order of the walk (duplicates in the
extension list change nothing); it never fails. So every path returned belongs to a visited
non-directory with a listed extension, every such entry has its path returned, and when the
visited paths are distinct no path is returned twice. -/
theorem scanFiles_returns_wanted_entries (tbl : Char → Char) (m : model)
    (root : Option DirEntry) :
    (scanFiles tbl m root).1 =
        ((visited m.config.SourceDir root).filter (fun pd => wanted tbl m pd.2)).map Prod.fst ∧
      (scanFiles tbl m root).2 = none ∧
      (∀ p ∈ (scanFiles tbl m root).1, ∃ d : DirEntry,
        (p, d) ∈ visited m.config.SourceDir root ∧ d.IsDir = false ∧
          strings.ToLower tbl (filepath.Ext d.Name) ∈ m.config.Extensions) ∧
      (∀ (p : GoString) (d : DirEntry), (p, d) ∈ visited m.config.SourceDir root →
        d.IsDir = false → strings.ToLower tbl (filepath.Ext d.Name) ∈ m.config.Extensions →
          p ∈ (scanFiles tbl m root).1) ∧
      (((visited m.config.SourceDir root).map Prod.fst).Nodup → (scanFiles tbl m root).1.Nodup) := by
  rw [scanFiles_eq]
  refine ⟨rfl, rfl, ?_, ?_, ?_⟩
  · intro p hp
    obtain ⟨pd, hpd, hfst⟩ := List.mem_map.mp hp
    obtain ⟨hv, hw⟩ := List.mem_filter.mp hpd
    refine ⟨pd.2, ?_, ?_, ?_⟩
    · rw [← hfst]
      exact hv
    · simp only [wanted, Bool.and_eq_true, Bool.not_eq_true', decide_eq_true_eq] at hw
      exact hw.1
    · simp only [wanted, Bool.and_eq_true, Bool.not_eq_true', decide_eq_true_eq] at hw
      exact hw.2
  · intro p d hv hdir hext
    exact List.mem_map.mpr ⟨(p, d), List.mem_filter.mpr ⟨hv, by simp [wanted, hdir, hext]⟩, rfl⟩
  · intro hnd
    exact List.Nodup.sublist (List.Sublist.map Prod.fst (List.filter_sublist _)) hnd

/-! ## Claims on the collision resolution -/

/-- C8: on a system whose files are the regular file `dst` and `s/a.txt`, no file exists at
`dst/a.txt`, yet `resolveFileConflict` does not return for `dst/a.txt`, whatever the number
of rounds allowed: `os.Stat` fails with ENOTDIR on `dst/a.txt` and on every numbered name
`dst/a_k.txt`, which is not a not-exist error, and the loop ends on a not-exist error only.
The same holds of every path and every system on which `os.Stat` reports a not-exist error
for none of the names tried. Where only finitely many of the numbered names are taken (fewer
than `2^63 - 2`), the call does return, with the first name that `os.Stat` reports as not
existing: the desired path itself or `filepath.Join(dir, name_k ext)` for the smallest such
positive `k`; with `a.txt` and `a_1.txt` present and nothing else, resolving `a.txt` gives
`a_2.txt`, and with `d/a.txt` present, resolving its other spelling `d/./a.txt` gives
`d/a_1.txt`. -/
theorem resolveFileConflict_hangs_below_file :
    "dst/a.txt".toList ∉ fsPaths dstIsFile ∧
      (∀ fuel : Nat,
        resolveFileConflict (osStat noFaults dstIsFile) fuel "dst/a.txt".toList = none) ∧
      (∀ (statOk : GoString → Bool) (destPath : GoString), statOk destPath = true →
        (∀ c : Int, statOk (conflictCandidate destPath c) = true) →
          ∀ fuel : Nat, resolveFileConflict statOk fuel destPath = none) ∧
      (∀ (statOk : GoString → Bool) (occupied : List GoString) (destPath : GoString),
        (∀ k : Nat, 1 ≤ k → statOk (conflictCandidate destPath (k : Int)) = true →
          conflictCandidate destPath (k : Int) ∈ occupied) →
        occupied.length + 2 < 2 ^ 63 →
          ∃ r : GoString,
            (∀ fuel : Nat, occupied.length + 2 ≤ fuel →
              resolveFileConflict statOk fuel destPath = some r) ∧
            statOk r = false ∧ (statOk destPath = false → r = destPath) ∧
            (statOk destPath = true → ∃ k : Nat, 1 ≤ k ∧
              r = filepath.Join [filepath.Dir destPath,
                strings.TrimSuffix (filepath.Base destPath)
                    (filepath.Ext (filepath.Base destPath)) ++
                  ['_'] ++ formatInt (k : Int) ++ filepath.Ext (filepath.Base destPath)] ∧
              ∀ j : Nat, 1 ≤ j → j < k →
                statOk (conflictCandidate destPath (j : Int)) = true)) ∧
      (∀ fuel : Nat, 3 ≤ fuel →
        resolveFileConflict
            (osStat noFaults [("a.txt".toList, []), ("a_1.txt".toList, [])]) fuel
            "a.txt".toList = some "a_2.txt".toList) ∧
      resolveFileConflict (osStat noFaults [("d/a.txt".toList, [])]) 3 "d/./a.txt".toList =
        some "d/a_1.txt".toList := by
  refine ⟨by decide, fun fuel => ?_, fun statOk destPath h0 h fuel =>
    resolveFileConflict_none statOk destPath h0 h fuel, ?_, ?_, by decide!⟩
  · apply resolveFileConflict_none
    · decide
    · intro c
      have h := candidate_below_dst c
      have hany : (fsPaths dstIsFile).any (fun f =>
          decide (f = noFaults.canon (conflictCandidate "dst/a.txt".toList c)) ||
            strings.HasPrefix (noFaults.canon (conflictCandidate "dst/a.txt".toList c))
              (f ++ ['/']) ||
            strings.HasPrefix f
              (noFaults.canon (conflictCandidate "dst/a.txt".toList c) ++ ['/'])) = true := by
        apply List.any_eq_true.mpr
        refine ⟨"dst".toList, by decide, ?_⟩
        have h2 : strings.HasPrefix
            (noFaults.canon (conflictCandidate "dst/a.txt".toList c))
            ("dst".toList ++ ['/']) = true := h
        rw [h2]
        simp
      unfold osStat
      rw [hany]
      rfl
  · intro statOk occupied destPath hfin hsize
    obtain ⟨r, h1, h2, h3, h4⟩ := resolveFileConflict_main statOk occupied destPath hfin hsize
    refine ⟨r, h1, h2, h3, fun hd => ?_⟩
    obtain ⟨k, hk, hr, hmin⟩ := h4 hd
    exact ⟨k, hk, hr, hmin⟩
  · intro fuel h
    exact resolveFileConflict_mono _ _ _ 3 fuel (by decide!) h

/-! ## Claims on the wizard -/

/-- C10: in the Menu state with the cursor on the start row (4), `Update` on the key
`enter` does what `updateMenu` does. If `config.SourceDir` or `config.DestDir` is empty, the
screen stays Menu, the cursor and the whole configuration are unchanged (only the message
changes), the message is a non-empty warning, and no command is returned, so no scan and no
copy is started. If both are non-empty, the screen becomes Confirm with cursor 0. -/
theorem updateMenu_start_row (tbl : Char → Char) (env : Env) (m : model)
    (hs : m.state = state.stateMenu) (hc : m.cursor = 4) :
    Update tbl env m (Msg.KeyMsg "enter".toList) = updateMenu m "enter".toList ∧
      ((m.config.SourceDir = [] ∨ m.config.DestDir = []) →
        (updateMenu m "enter".toList).1.state = state.stateMenu ∧
          (updateMenu m "enter".toList).1.cursor = m.cursor ∧
          (updateMenu m "enter".toList).1.config = m.config ∧
          (updateMenu m "enter".toList).1.message ≠ [] ∧
          (updateMenu m "enter".toList).2 = Cmd.nil ∧
          (updateMenu m "enter".toList).1 = { m with message := startWarning }) ∧
      ((m.config.SourceDir ≠ [] ∧ m.config.DestDir ≠ []) →
        updateMenu m "enter".toList =
          ({ m with state := state.stateConfirm, cursor := 0 }, Cmd.nil)) := by
  have hkey1 : ¬ ("enter".toList = "ctrl+c".toList ∨ "enter".toList = "esc".toList) := by decide
  have hkey2 : ¬ ("enter".toList = "q".toList ∧ state.stateMenu = state.stateComplete) := by
    decide
  have hkey3 : ¬ ("enter".toList = "up".toList ∨ "enter".toList = "k".toList) := by decide
  have hkey4 : ¬ ("enter".toList = "down".toList ∨ "enter".toList = "j".toList) := by decide
  have hupd : updateMenu m "enter".toList =
      if m.config.SourceDir ≠ [] ∧ m.config.DestDir ≠ [] then
        ({ m with state := state.stateConfirm, cursor := 0 }, Cmd.nil)
      else ({ m with message := startWarning }, Cmd.nil) := by
    unfold updateMenu
    rw [if_neg hkey3, if_neg hkey4, if_pos rfl, hc, if_neg (by decide), if_neg (by decide),
      if_neg (by decide), if_neg (by decide), if_pos rfl]
  refine ⟨?_, ?_, ?_⟩
  · unfold Update
    simp only [hs]
    rw [if_neg hkey1, if_neg hkey2]
  · intro hempty
    have hne : ¬ (m.config.SourceDir ≠ [] ∧ m.config.DestDir ≠ []) := by
      intro h
      rcases hempty with h1 | h1
      · exact h.1 h1
      · exact h.2 h1
    rw [hupd, if_neg hne]
    have hw : startWarning ≠ [] := by decide
    exact ⟨hs, rfl, rfl, hw, rfl, rfl⟩
  · intro hboth
    rw [hupd, if_pos hboth]

/-- The start row of C10 in a fresh session, where no folder is chosen yet. -/
theorem updateMenu_start_row_witness :
    startRowModel.state = state.stateMenu ∧ startRowModel.cursor = 4 ∧
      (startRowModel.config.SourceDir = [] ∨ startRowModel.config.DestDir = []) ∧
      (updateMenu startRowModel "enter".toList).1.state = state.stateMenu ∧
      (updateMenu startRowModel "enter".toList).2 = Cmd.nil :=
  ⟨rfl, rfl, Or.inl rfl,
    ((updateMenu_start_row (fun r => r) { homeDir := [], workDir := [], readDir := fun _ => none }
      startRowModel rfl rfl).2.1 (Or.inl rfl)).1,
    ((updateMenu_start_row (fun r => r) { homeDir := [], workDir := [], readDir := fun _ => none }
      startRowModel rfl rfl).2.1 (Or.inl rfl)).2.2.2.2.1⟩

/-! ## Claims on the presentation -/

/-- C11, as stated, fails on the empty path, whose length is at most 50: `getDisplayPath`
returns `"not selected"` for it, not the path. The length is the number of bytes: a path of
26 characters of two bytes each is cut although it has fewer than 50 characters. -/
theorem getDisplayPath_empty_path :
    len ([] : Bytes) ≤ 50 ∧ getDisplayPath [] = utf8 "not selected".toList ∧
      getDisplayPath [] ≠ [] ∧
      (List.replicate 26 'é').length ≤ 50 ∧
      getDisplayPath (utf8 (List.replicate 26 'é')) ≠ utf8 (List.replicate 26 'é') := by
  refine ⟨by decide, rfl, by decide, by decide, by decide⟩

/-- C11, amended: for the empty path `getDisplayPath` returns `"not selected"`; for every
non-empty path of at most 50 bytes it returns the path unchanged; for every longer path it
returns `"..."` followed by the last 47 bytes of the path, 50 bytes in all. For a path of
ASCII characters the bytes are the characters. -/
theorem getDisplayPath_cases (path : Bytes) :
    (path = [] → getDisplayPath path = utf8 "not selected".toList) ∧
      (path ≠ [] → path.length ≤ 50 → getDisplayPath path = path) ∧
      (50 < path.length →
        getDisplayPath path = utf8 "...".toList ++ path.drop (path.length - 47) ∧
          (path.drop (path.length - 47)).length = 47 ∧
          path.drop (path.length - 47) <:+ path ∧ (getDisplayPath path).length = 50) ∧
      ∀ s : GoString, (∀ c ∈ s, c.toNat ≤ 127) → (utf8 s).length = s.length := by
  refine ⟨?_, ?_, ?_, utf8_length_ascii⟩
  · intro h
    rw [h]
    rfl
  · intro hne hlen
    have h2 : ¬ (len path > 50) := by
      unfold len
      omega
    simp [getDisplayPath, hne, h2]
  · intro hlen
    have hne : path ≠ [] := by
      intro h
      rw [h] at hlen
      simp at hlen
    have h2 : len path > 50 := by
      unfold len
      omega
    have hd : (path.drop (path.length - 47)).length = 47 := by
      rw [List.length_drop]
      omega
    have hg : getDisplayPath path = utf8 "...".toList ++ path.drop (path.length - 47) := by
      simp [getDisplayPath, hne, h2]
    refine ⟨hg, hd, List.drop_suffix _ _, ?_⟩
    rw [hg, List.length_append, hd]
    rfl

/-! ## Claims on the keys of the wizard -/

/-- C12: for every model, whatever its screen, `Update` on the key `esc` or `ctrl+c` sets
`quitting` and returns the quit command, and changes nothing else (screen and configuration
included). The key `q` does the same when the screen is Complete; on every other screen it
returns no command and leaves the model as it is, except that the custom extensions editor
appends the letter to its buffer. -/
theorem Update_quit_keys (tbl : Char → Char) (env : Env) (m : model) :
    Update tbl env m (Msg.KeyMsg "esc".toList) = ({ m with quitting := true }, Cmd.Quit) ∧
      Update tbl env m (Msg.KeyMsg "ctrl+c".toList) = ({ m with quitting := true }, Cmd.Quit) ∧
      (m.state = state.stateComplete →
        Update tbl env m (Msg.KeyMsg "q".toList) = ({ m with quitting := true }, Cmd.Quit)) ∧
      (m.state ≠ state.stateComplete →
        Update tbl env m (Msg.KeyMsg "q".toList) =
          (if m.state = state.stateCustomExtensions then
              { m with customInput := m.customInput ++ "q".toList }
            else m, Cmd.nil)) := by
  refine ⟨rfl, rfl, ?_, update_q_not_complete tbl env m⟩
  intro hs
  unfold Update
  dsimp only
  rw [if_neg (by decide), if_pos ⟨rfl, hs⟩]

/-- C13, at the failing input: in the custom extensions editor the key `esc`, which the
help line of the screen documents as the cancel key, ends the session. `Update` handles
`esc` before it looks at the screen, so the case of `updateCustomExtensions` that would
return to the preset screen is never reached. -/
theorem Update_esc_in_custom_editor_quits (tbl : Char → Char) (env : Env) (m : model) :
    Update tbl env { m with state := state.stateCustomExtensions } (Msg.KeyMsg "esc".toList) =
        ({ m with state := state.stateCustomExtensions, quitting := true }, Cmd.Quit) ∧
      updateCustomExtensions tbl { m with state := state.stateCustomExtensions } "esc".toList =
        ({ m with state := state.stateExtensions, cursor := 5 }, Cmd.nil) ∧
      customExtensionsHelp = "Enter: save • Backspace: delete character • Esc: cancel".toList :=
  ⟨rfl, rfl, rfl⟩

/-- C14, as stated, fails: after a bookmark is chosen the cursor is not on the row just
edited but on the next one. From a fresh session, Enter on the source row and Enter on the
first bookmark leave the cursor on row 1, not 0; Enter on the destination row and Enter on
the first bookmark leave it on row 2, not 1. -/
theorem select_bookmark_cursor_moves_on :
    (runKeys (fun r => r) sampleEnv (initialModel sampleEnv) ["enter".toList]).state =
        state.stateSourceSelect ∧
      (runKeys (fun r => r) sampleEnv (initialModel sampleEnv)
        ["enter".toList, "enter".toList]).state = state.stateMenu ∧
      (runKeys (fun r => r) sampleEnv (initialModel sampleEnv)
        ["enter".toList, "enter".toList]).config.SourceDir = "/w".toList ∧
      (runKeys (fun r => r) sampleEnv (initialModel sampleEnv)
        ["enter".toList, "enter".toList]).cursor = 1 ∧
      (runKeys (fun r => r) sampleEnv (initialModel sampleEnv)
        ["down".toList, "enter".toList]).state = state.stateDestSelect ∧
      (runKeys (fun r => r) sampleEnv (initialModel sampleEnv)
        ["down".toList, "enter".toList, "enter".toList]).state = state.stateMenu ∧
      (runKeys (fun r => r) sampleEnv (initialModel sampleEnv)
        ["down".toList, "enter".toList, "enter".toList]).config.DestDir = "/w".toList ∧
      (runKeys (fun r => r) sampleEnv (initialModel sampleEnv)
        ["down".toList, "enter".toList, "enter".toList]).cursor = 2 := by
  refine ⟨rfl, rfl, rfl, rfl, rfl, rfl, rfl, rfl⟩

/-- C14, amended: in SourceSelect (resp. DestSelect), Enter on a bookmark row (rows 0 to 7)
commits the path of that bookmark to `config.SourceDir` (resp. `config.DestDir`), changes no
other field of the configuration, and returns to Menu with the cursor on the row after the
one just edited: row 1, the destination row, after a source selection, and row 2, the file
formats row, after a destination selection. -/
theorem select_bookmark_commits (tbl : Char → Char) (env : Env) (m : model) (i : Nat)
    (hi : i < 8) (hc : m.cursor = (i : Int)) :
    ∃ sc : shortcut, (getShortcuts env)[i]? = some sc ∧
      (m.state = state.stateSourceSelect →
        Update tbl env m (Msg.KeyMsg "enter".toList) =
          ({ m with
              config := { m.config with SourceDir := sc.path }
              state := state.stateMenu
              cursor := 1 }, Cmd.nil)) ∧
      (m.state = state.stateDestSelect →
        Update tbl env m (Msg.KeyMsg "enter".toList) =
          ({ m with
              config := { m.config with DestDir := sc.path }
              state := state.stateMenu
              cursor := 2 }, Cmd.nil)) ∧
      (menuItems m)[1]? =
        some (utf8 "📁 Destination folder: ".toList ++ getDisplayPath (utf8 m.config.DestDir)) ∧
      (menuItems m)[2]? =
        some (utf8 "📄 File formats: ".toList ++
          utf8 (strings.Join m.config.Extensions ", ".toList)) := by
  have hlt : m.cursor < 8 := by omega
  refine ⟨shortcutAt (getShortcuts env) m.cursor, ?_, ?_, ?_, rfl, rfl⟩
  · rw [hc]
    interval_cases i <;> rfl
  · intro hs
    rw [update_enter_dispatch, hs]
    simp only
    rw [updateSourceSelect_enter, if_pos hlt]
  · intro hs
    rw [update_enter_dispatch, hs]
    simp only
    rw [updateDestSelect_enter, if_pos hlt]

/-- The selection of C14 on the row of the home folder (row 1) of the source selection. -/
theorem select_bookmark_commits_witness :
    (1 : Nat) < 8 ∧
      ({ initialModel sampleEnv with state := state.stateSourceSelect, cursor := 1 } : model).cursor =
        ((1 : Nat) : Int) ∧
      ∃ sc : shortcut, (getShortcuts sampleEnv)[1]? = some sc ∧
        (Update (fun r => r) sampleEnv
          { initialModel sampleEnv with state := state.stateSourceSelect, cursor := 1 }
          (Msg.KeyMsg "enter".toList)).1.config.SourceDir = sc.path := by
  obtain ⟨sc, h1, h2, _⟩ := select_bookmark_commits (fun r => r) sampleEnv
    { initialModel sampleEnv with state := state.stateSourceSelect, cursor := 1 } 1 (by decide) rfl
  exact ⟨by decide, rfl, sc, h1, by rw [h2 rfl]⟩

/-- C16, at the failing input: the warning set by a refused start is never cleared. After
Enter on the start row of a fresh session the message is the warning; `View` empties the
message of its own copy of the model only; so after the drawing and a further key the
message is still the warning. No message handled by `Update` ever empties a non-empty
message, and `View` draws the warning whenever the message is not empty. -/
theorem warning_message_persists (tbl : Char → Char) (st : Styles) (env : Env) :
    (Update tbl env startRowModel (Msg.KeyMsg "enter".toList)).1.message = startWarning ∧
      (View st env (Update tbl env startRowModel (Msg.KeyMsg "enter".toList)).1).2.message = [] ∧
      (drawThenUpdate tbl st env (Update tbl env startRowModel (Msg.KeyMsg "enter".toList)).1
        (Msg.KeyMsg "down".toList)).2.1.message = startWarning ∧
      startWarning ≠ [] ∧
      (∀ (m : model) (msg : Msg), m.message ≠ [] → (Update tbl env m msg).1.message ≠ []) ∧
      ∀ m : model, m.quitting = false → m.message ≠ [] →
        ∃ pre post : Bytes,
          (View st env m).1 =
            pre ++ st.warningStyle (utf8 "⚠️ ".toList ++ utf8 m.message) ++ post := by
  refine ⟨rfl, rfl, rfl, by decide, update_message_stays tbl env, ?_⟩
  intro m hq hm
  unfold View
  simp only [hq, Bool.false_eq_true, if_false, hm, ne_eq, not_false_eq_true, if_true]
  generalize (utf8 "\n\n".toList ++ st.infoStyle _) = post
  generalize (st.titleStyle _ ++ _ ++ _ : Bytes) = body
  exact ⟨body ++ utf8 "\n".toList, post, by simp only [List.append_assoc]⟩

/-- C19: Copying and Complete are closed under key input. On the Copying screen every key
other than `esc` and `ctrl+c`, and on the Complete screen every key other than `q`, `esc`
and `ctrl+c`, returns the model unchanged with no command. On both screens every key leaves
the screen and the configuration as they are and returns no command or the quit command, so
no scan and no copy is started; and after any sequence of keys the screen is still the
same. -/
theorem Update_copying_complete_closed (tbl : Char → Char) (env : Env) (m : model)
    (key : GoString) :
    (m.state = state.stateCopying → key ≠ "esc".toList → key ≠ "ctrl+c".toList →
        Update tbl env m (Msg.KeyMsg key) = (m, Cmd.nil)) ∧
      (m.state = state.stateComplete → key ≠ "q".toList → key ≠ "esc".toList →
        key ≠ "ctrl+c".toList → Update tbl env m (Msg.KeyMsg key) = (m, Cmd.nil)) ∧
      (m.state = state.stateCopying ∨ m.state = state.stateComplete →
        (Update tbl env m (Msg.KeyMsg key)).1.state = m.state ∧
          (Update tbl env m (Msg.KeyMsg key)).1.config = m.config ∧
          ((Update tbl env m (Msg.KeyMsg key)).2 = Cmd.nil ∨
            (Update tbl env m (Msg.KeyMsg key)).2 = Cmd.Quit) ∧
          ∀ keys : List GoString, (runKeys tbl env m keys).state = m.state) := by
  refine ⟨?_, ?_, ?_⟩
  · intro hs h1 h2
    exact update_other_key_copying tbl env m key hs (fun h => h.elim h2 h1)
  · intro hs hq h1 h2
    exact update_other_key_complete tbl env m key hs (fun h => h.elim h2 h1) hq
  · intro hs
    obtain ⟨a, b, c⟩ := update_key_closed tbl env m key hs
    exact ⟨a, b, c, fun keys => runKeys_closed tbl env keys m hs⟩

/-- C20: in BrowseSource or BrowseDest, for every `currentPath` and every listing (its
entries carry the folder glyph, as all entries of `getDirectories` do; its length fits an
`int`), Enter with the cursor on the row that shows the directory at index `k` of the
listing, which is row `k + 2` when the row `Up` is present and row `k + 1` when it is
omitted, sets `currentPath` to `filepath.Join` of the old `currentPath` and the entry
without its glyph, recomputes the listing for the new path and sets the cursor to 0;
nothing else changes, the configuration and the screen included, and no command is
returned. The new listing is what `os.ReadDir` gives for the new path: it is empty when the
directory cannot be read, and otherwise it holds, in the order of `sort.Strings`, the names
of the entries that are directories and do not start with a dot, each behind the folder
glyph. -/
theorem updateBrowse_enter_subdirectory (tbl : Char → Char) (env : Env) (m : model) (k : Nat)
    (hs : m.state = state.stateBrowseSource ∨ m.state = state.stateBrowseDest)
    (hk : k < m.directories.length) (hsize : m.directories.length + 2 < 2 ^ 63)
    (hlist : ∀ d ∈ m.directories, strings.HasPrefix d "📁 ".toList = true)
    (hc : m.cursor =
      if m.currentPath ≠ ['/'] ∧ m.currentPath ≠ filepath.Dir m.currentPath then (k : Int) + 2
      else (k : Int) + 1) :
    (browseOptions m)[m.cursor.toNat]? = some (m.directories.get ⟨k, hk⟩) ∧
      Update tbl env m (Msg.KeyMsg "enter".toList) =
        ({ m with
            currentPath :=
              filepath.Join
                [m.currentPath, strings.TrimPrefix (m.directories.get ⟨k, hk⟩) "📁 ".toList]
            directories := getDirectories env
              (filepath.Join
                [m.currentPath, strings.TrimPrefix (m.directories.get ⟨k, hk⟩) "📁 ".toList])
            cursor := 0 }, Cmd.nil) ∧
      (∀ name : GoString, strings.TrimPrefix ("📁 ".toList ++ name) "📁 ".toList = name) ∧
      (∀ (p : GoString), ∀ d ∈ getDirectories env p,
        strings.HasPrefix d "📁 ".toList = true) ∧
      (env.readDir (Update tbl env m (Msg.KeyMsg "enter".toList)).1.currentPath = none →
        (Update tbl env m (Msg.KeyMsg "enter".toList)).1.directories = []) ∧
      ∀ entries : List (GoString × Bool),
        env.readDir (Update tbl env m (Msg.KeyMsg "enter".toList)).1.currentPath =
            some entries →
          List.Perm (Update tbl env m (Msg.KeyMsg "enter".toList)).1.directories
              ((entries.filter (fun e => e.2 && !strings.HasPrefix e.1 ['.'])).map
                (fun e => "📁 ".toList ++ e.1)) ∧
            List.Sorted (fun a b => stringLess b a = false)
              (Update tbl env m (Msg.KeyMsg "enter".toList)).1.directories := by
  have hdisp : Update tbl env m (Msg.KeyMsg "enter".toList) = updateBrowse env m "enter".toList := by
    rw [update_enter_dispatch]
    rcases hs with h | h <;> rw [h]
  have hfirst : m.directories[0]? ≠ some upLabel := by
    intro h
    have hmem : upLabel ∈ m.directories := List.mem_iff_getElem?.mpr ⟨0, h⟩
    exact glyph_ne_upLabel upLabel (hlist upLabel hmem) rfl
  have hrow : (browseOptions m)[m.cursor.toNat]? = some (m.directories.get ⟨k, hk⟩) := by
    by_cases hup : m.currentPath ≠ ['/'] ∧ m.currentPath ≠ filepath.Dir m.currentPath
    · rw [if_pos hup] at hc
      have hopt : browseOptions m =
          ["✅ Select this folder".toList, upLabel] ++ m.directories ++ ["🔙 Back".toList] := by
        simp [browseOptions, hup]
      rw [hopt, hc]
      have : ((k : Int) + 2).toNat = k + 2 := by omega
      rw [this]
      simp [List.getElem?_append, hk, List.getElem?_eq_getElem]
    · rw [if_neg hup] at hc
      have hopt : browseOptions m =
          ["✅ Select this folder".toList] ++ m.directories ++ ["🔙 Back".toList] := by
        simp [browseOptions, hup]
      rw [hopt, hc]
      have : ((k : Int) + 1).toNat = k + 1 := by omega
      rw [this]
      simp [List.getElem?_append, hk, List.getElem?_eq_getElem]
  have hupd : Update tbl env m (Msg.KeyMsg "enter".toList) =
      ({ m with
          currentPath :=
            filepath.Join
              [m.currentPath, strings.TrimPrefix (m.directories.get ⟨k, hk⟩) "📁 ".toList]
          directories := getDirectories env
            (filepath.Join
              [m.currentPath, strings.TrimPrefix (m.directories.get ⟨k, hk⟩) "📁 ".toList])
          cursor := 0 }, Cmd.nil) := by
    rw [hdisp]
    by_cases hup : m.currentPath ≠ ['/'] ∧ m.currentPath ≠ filepath.Dir m.currentPath
    · rw [if_pos hup] at hc
      exact updateBrowse_descend env m k 2 hk hsize (Or.inr rfl)
        (by simp [browseOptions, hup]) (fun h => absurd h (by decide)) (by rw [hc]; rfl)
    · rw [if_neg hup] at hc
      exact updateBrowse_descend env m k 1 hk hsize (Or.inl rfl)
        (by simp [browseOptions, hup]) (fun _ => hfirst) (by rw [hc]; rfl)
  have hnew := getDirectories_listing env
    (filepath.Join [m.currentPath, strings.TrimPrefix (m.directories.get ⟨k, hk⟩) "📁 ".toList])
  refine ⟨hrow, hupd, trimPrefix_glyph, getDirectories_glyph env, ?_, ?_⟩
  · rw [hupd]
    exact hnew.1
  · rw [hupd]
    exact hnew.2

/-- The descent of C20 on the browse screen of `/w`, from the row of the first listed
directory (row 2, below the row `Up`) into `/w/a`, whose subdirectories `y` and `x` are
listed in order, without its hidden directory and its file. -/
theorem updateBrowse_enter_subdirectory_witness :
    (nestedBrowseModel.state = state.stateBrowseSource ∨
        nestedBrowseModel.state = state.stateBrowseDest) ∧
      (0 : Nat) < nestedBrowseModel.directories.length ∧
      nestedBrowseModel.directories.length + 2 < 2 ^ 63 ∧
      (∀ d ∈ nestedBrowseModel.directories, strings.HasPrefix d "📁 ".toList = true) ∧
      (nestedBrowseModel.cursor =
        if nestedBrowseModel.currentPath ≠ ['/'] ∧
            nestedBrowseModel.currentPath ≠ filepath.Dir nestedBrowseModel.currentPath then
          ((0 : Nat) : Int) + 2
        else ((0 : Nat) : Int) + 1) ∧
      (Update (fun r => r) nestedEnv nestedBrowseModel (Msg.KeyMsg "enter".toList)).1.currentPath =
        "/w/a".toList ∧
      (Update (fun r => r) nestedEnv nestedBrowseModel (Msg.KeyMsg "enter".toList)).1.directories =
        ["📁 x".toList, "📁 y".toList] ∧
      List.Perm
        (Update (fun r => r) nestedEnv nestedBrowseModel (Msg.KeyMsg "enter".toList)).1.directories
        ["📁 y".toList, "📁 x".toList] := by
  have hk : (0 : Nat) < nestedBrowseModel.directories.length := by decide
  have hsize : nestedBrowseModel.directories.length + 2 < 2 ^ 63 := by
    show 2 + 2 < 2 ^ 63
    norm_num
  have hlist : ∀ d ∈ nestedBrowseModel.directories, strings.HasPrefix d "📁 ".toList = true := by
    decide
  have hc : nestedBrowseModel.cursor =
      if nestedBrowseModel.currentPath ≠ ['/'] ∧
          nestedBrowseModel.currentPath ≠ filepath.Dir nestedBrowseModel.currentPath then
        ((0 : Nat) : Int) + 2
      else ((0 : Nat) : Int) + 1 := by decide
  have h := updateBrowse_enter_subdirectory (fun r => r) nestedEnv nestedBrowseModel 0
    (Or.inl rfl) hk hsize hlist hc
  have hpath : (Update (fun r => r) nestedEnv nestedBrowseModel
      (Msg.KeyMsg "enter".toList)).1.currentPath = "/w/a".toList := by
    rw [h.2.1]
    rfl
  refine ⟨Or.inl rfl, hk, hsize, hlist, hc, hpath, by decide!, ?_⟩
  exact (h.2.2.2.2.2 _ (by rw [hpath]; rfl)).1

/-! ## Claims on the invariants of a session -/

/-- C21: the cursor stays in range. In every state reachable from the initial model by key
events, for any case table and any system (home directory, working directory and directory
listings), the cursor is not negative and it is a row of the active screen: at most 5 in the
menu, at most 9 in the two folder selection screens, at most `len(options) - 1` in the two
browse screens, at most 6 in the extensions screen, at most 3 in the options screen and at
most 1 in the confirmation. On the browse screens the options are the row that selects the
folder, the row `Up` unless the current path is its own parent, the directories listed for
the current path, and the row `Back`. -/
theorem reachable_cursor_in_range (tbl : Char → Char) (env : Env) (m : model)
    (h : Reachable tbl env m) :
    0 ≤ m.cursor ∧
      (m.state = state.stateMenu → m.cursor ≤ 5) ∧
      (m.state = state.stateSourceSelect ∨ m.state = state.stateDestSelect → m.cursor ≤ 9) ∧
      (m.state = state.stateBrowseSource ∨ m.state = state.stateBrowseDest →
        m.cursor ≤ len (browseOptions m) - 1 ∧
          browseOptions m =
            ["✅ Select this folder".toList] ++
              (if m.currentPath ≠ ['/'] ∧ m.currentPath ≠ filepath.Dir m.currentPath then
                [upLabel] else []) ++
              getDirectories env m.currentPath ++ ["🔙 Back".toList]) ∧
      (m.state = state.stateExtensions → m.cursor ≤ 6) ∧
      (m.state = state.stateOptions → m.cursor ≤ 3) ∧
      (m.state = state.stateConfirm → m.cursor ≤ 1) := by
  obtain ⟨h0, h1⟩ := reachable_range tbl env m h
  have hl := reachable_listed tbl env m h
  refine ⟨h0, ?_, ?_, ?_, ?_, ?_, ?_⟩
  · intro hs
    rw [hs] at h1
    exact h1
  · intro hs
    rcases hs with hs | hs <;> rw [hs] at h1 <;> exact h1
  · intro hs
    refine ⟨?_, ?_⟩
    · rcases hs with hs | hs <;> rw [hs] at h1 <;> exact h1
    · unfold browseOptions
      rw [hl hs]
      split <;> simp
  · intro hs
    rw [hs] at h1
    exact h1
  · intro hs
    rw [hs] at h1
    exact h1
  · intro hs
    rw [hs] at h1
    exact h1

/-- The invariant of C21 on the browse screen of the folder `/w`, reached from the menu, after
nine presses of the down key: the screen has five rows and the cursor stays on the last
one. -/
theorem reachable_cursor_in_range_witness :
    Reachable (fun r => r) sampleEnv
        (runKeys (fun r => r) sampleEnv (initialModel sampleEnv)
          (toBrowseKeys ++ List.replicate 9 "down".toList)) ∧
      (runKeys (fun r => r) sampleEnv (initialModel sampleEnv)
          (toBrowseKeys ++ List.replicate 9 "down".toList)).state = state.stateBrowseSource ∧
      len (browseOptions (runKeys (fun r => r) sampleEnv (initialModel sampleEnv)
          (toBrowseKeys ++ List.replicate 9 "down".toList))) = 5 ∧
      (runKeys (fun r => r) sampleEnv (initialModel sampleEnv)
          (toBrowseKeys ++ List.replicate 9 "down".toList)).cursor = 4 ∧
      (runKeys (fun r => r) sampleEnv (initialModel sampleEnv)
          (toBrowseKeys ++ List.replicate 9 "down".toList)).cursor ≤
        len (browseOptions (runKeys (fun r => r) sampleEnv (initialModel sampleEnv)
          (toBrowseKeys ++ List.replicate 9 "down".toList))) - 1 := by
  have hreach : Reachable (fun r => r) sampleEnv
      (runKeys (fun r => r) sampleEnv (initialModel sampleEnv)
        (toBrowseKeys ++ List.replicate 9 "down".toList)) :=
    reachable_runKeys _ _ _ _ Reachable.init
  have hstate : (runKeys (fun r => r) sampleEnv (initialModel sampleEnv)
      (toBrowseKeys ++ List.replicate 9 "down".toList)).state = state.stateBrowseSource := by
    decide!
  exact ⟨hreach, hstate, by decide!, by decide!,
    ((reachable_cursor_in_range _ _ _ hreach).2.2.2.1 (Or.inl hstate)).1⟩

/-- C22: the copy never starts without its folders. In every state reachable from the
initial model by key events, for any case table and any system, whenever the screen is the
confirmation or the copying screen both `config.SourceDir` and `config.DestDir` are
non-empty; hence whenever a key event makes `Update` return the command that scans and
copies, which only `updateConfirm` does, on the confirmation screen, the model that the
command carries has a non-empty source and a non-empty destination. -/
theorem reachable_folders_chosen (tbl : Char → Char) (env : Env) (m : model)
    (h : Reachable tbl env m) :
    (m.state = state.stateConfirm ∨ m.state = state.stateCopying →
        m.config.SourceDir ≠ [] ∧ m.config.DestDir ≠ []) ∧
      (∀ (key : GoString) (m1 : model),
        (Update tbl env m (Msg.KeyMsg key)).2 = Cmd.startCopying m1 →
          m.state = state.stateConfirm ∧
            Update tbl env m (Msg.KeyMsg key) = updateConfirm m key ∧
            m1.config.SourceDir ≠ [] ∧ m1.config.DestDir ≠ []) ∧
      (m.state = state.stateConfirm → ∀ (key : GoString) (m1 : model),
        (updateConfirm m key).2 = Cmd.startCopying m1 →
          m1.config.SourceDir ≠ [] ∧ m1.config.DestDir ≠ []) := by
  have hf := reachable_folders tbl env m h
  refine ⟨hf, fun key m1 hcmd => ?_, fun hs key m1 hcmd =>
    (updateConfirm_folders m key hs hf).2 m1 hcmd⟩
  have hfold := (update_folders tbl env m key hf).2 m1 hcmd
  rcases update_command tbl env m key with hc | hc | hc
  · rw [hc] at hcmd
    cases hcmd
  · rw [hc] at hcmd
    cases hcmd
  · exact ⟨hc.1, hc.2, hfold⟩

/-- The invariant of C22 on the session that takes the current folder `/w` as source and the
home folder as destination and enters the start row: it is on the confirmation with both
folders chosen, and Enter starts the copy with a model that has both. -/
theorem reachable_folders_chosen_witness :
    Reachable (fun r => r) sampleEnv
        (runKeys (fun r => r) sampleEnv (initialModel sampleEnv) toConfirmKeys) ∧
      (runKeys (fun r => r) sampleEnv (initialModel sampleEnv) toConfirmKeys).state =
        state.stateConfirm ∧
      (runKeys (fun r => r) sampleEnv (initialModel sampleEnv) toConfirmKeys).config.SourceDir =
        "/w".toList ∧
      (runKeys (fun r => r) sampleEnv (initialModel sampleEnv) toConfirmKeys).config.DestDir =
        "/home/u".toList ∧
      ∃ m1 : model,
        (Update (fun r => r) sampleEnv
            (runKeys (fun r => r) sampleEnv (initialModel sampleEnv) toConfirmKeys)
            (Msg.KeyMsg "enter".toList)).2 = Cmd.startCopying m1 ∧
          m1.state = state.stateCopying ∧
          m1.config.SourceDir ≠ [] ∧ m1.config.DestDir ≠ [] := by
  have hreach : Reachable (fun r => r) sampleEnv
      (runKeys (fun r => r) sampleEnv (initialModel sampleEnv) toConfirmKeys) :=
    reachable_runKeys _ _ _ _ Reachable.init
  have hcmd : (Update (fun r => r) sampleEnv
      (runKeys (fun r => r) sampleEnv (initialModel sampleEnv) toConfirmKeys)
      (Msg.KeyMsg "enter".toList)).2 =
        Cmd.startCopying (Update (fun r => r) sampleEnv
          (runKeys (fun r => r) sampleEnv (initialModel sampleEnv) toConfirmKeys)
          (Msg.KeyMsg "enter".toList)).1 := by
    decide!
  exact ⟨hreach, by decide!, by decide!, by decide!, _, hcmd, by decide!,
    ((reachable_folders_chosen _ _ _ hreach).2.1 _ _ hcmd).2.2⟩

/-- C23: the custom editor opened and left with Enter changes nothing. In every state
reachable from the initial model by key events, for any case table and any system, parsing
the current extensions joined by a comma and a space gives the current extensions back, as
a sequence; so when the screen is the extensions screen with the cursor on the row `Custom`
(index 5), Enter opens the editor with that joined text as its buffer, and Enter again,
with no edit in between, returns to the menu with `config.Extensions` equal to what it was. -/
theorem custom_editor_round_trip (tbl : Char → Char) (env : Env) (m : model)
    (h : Reachable tbl env m) :
    parseExtensions tbl (strings.Join m.config.Extensions ", ".toList) = m.config.Extensions ∧
      (m.state = state.stateExtensions → m.cursor = 5 →
        (runKeys tbl env m ["enter".toList]).state = state.stateCustomExtensions ∧
          (runKeys tbl env m ["enter".toList]).customInput =
            strings.Join m.config.Extensions ", ".toList ∧
          (runKeys tbl env m ["enter".toList]).config = m.config ∧
          (runKeys tbl env m ["enter".toList, "enter".toList]).state = state.stateMenu ∧
          (runKeys tbl env m ["enter".toList, "enter".toList]).config.Extensions =
            m.config.Extensions ∧
          (runKeys tbl env m ["enter".toList, "enter".toList]).config = m.config) := by
  have hround := settled_round_trip tbl m (reachable_settled tbl env m h)
  refine ⟨hround, fun hs hc => ?_⟩
  have h1 : runKeys tbl env m ["enter".toList] =
      { m with
        state := state.stateCustomExtensions
        customInput := strings.Join m.config.Extensions ", ".toList
        cursor := 0 } := by
    show (Update tbl env m (Msg.KeyMsg "enter".toList)).1 = _
    rw [update_open_editor tbl env m hs hc]
  have h2 : runKeys tbl env m ["enter".toList, "enter".toList] =
      { m with
        config := { m.config with
          Extensions := parseExtensions tbl (strings.Join m.config.Extensions ", ".toList) }
        state := state.stateMenu
        customInput := strings.Join m.config.Extensions ", ".toList
        cursor := 3 } := by
    show (Update tbl env (Update tbl env m (Msg.KeyMsg "enter".toList)).1
      (Msg.KeyMsg "enter".toList)).1 = _
    rw [update_open_editor tbl env m hs hc, update_editor_enter tbl env _ rfl]
  rw [h1, h2]
  refine ⟨rfl, rfl, rfl, rfl, hround, ?_⟩
  simp only [hround]

/-- The round trip of C23 on the session that goes from the start to the row `Custom` of the
extensions screen: the editor opens on `.jpg, .png, .pdf`, and Enter gives the three initial
extensions back. -/
theorem custom_editor_round_trip_witness :
    Reachable (fun r => r) sampleEnv
        (runKeys (fun r => r) sampleEnv (initialModel sampleEnv) toCustomRowKeys) ∧
      (runKeys (fun r => r) sampleEnv (initialModel sampleEnv) toCustomRowKeys).state =
        state.stateExtensions ∧
      (runKeys (fun r => r) sampleEnv (initialModel sampleEnv) toCustomRowKeys).cursor = 5 ∧
      (runKeys (fun r => r) sampleEnv
          (runKeys (fun r => r) sampleEnv (initialModel sampleEnv) toCustomRowKeys)
          ["enter".toList]).customInput = ".jpg, .png, .pdf".toList ∧
      (runKeys (fun r => r) sampleEnv
          (runKeys (fun r => r) sampleEnv (initialModel sampleEnv) toCustomRowKeys)
          ["enter".toList, "enter".toList]).config.Extensions =
        [".jpg".toList, ".png".toList, ".pdf".toList] := by
  have hreach : Reachable (fun r => r) sampleEnv
      (runKeys (fun r => r) sampleEnv (initialModel sampleEnv) toCustomRowKeys) :=
    reachable_runKeys _ _ _ _ Reachable.init
  have hs : (runKeys (fun r => r) sampleEnv (initialModel sampleEnv) toCustomRowKeys).state =
      state.stateExtensions := by decide!
  have hc : (runKeys (fun r => r) sampleEnv (initialModel sampleEnv) toCustomRowKeys).cursor =
      5 := by decide!
  have h := (custom_editor_round_trip _ _ _ hreach).2 hs hc
  refine ⟨hreach, hs, hc, ?_, ?_⟩
  · rw [h.2.1]
    decide!
  · rw [h.2.2.2.2.1]
    decide!

/-! ## Claims on copying over a file system -/

/-- C24: flat copying never overwrites. The file system is a finite map from paths to
contents; `os.Stat` never reports as not existing a file of the map, a path below one or a
directory above one, and beyond that the platform is arbitrary: any path resolution, any
error of `os.Stat`, `os.MkdirAll`, `os.Open`, `os.Create` and `io.Copy`. Every successful `copyFile` call puts the content of the source
under a path that `os.Stat` reported as not existing and that did not exist before, as the
only change, and it gives the same result with any larger bound on the rounds of the loop of
`resolveFileConflict`; that path is the flat name in the destination folder if `os.Stat`
reported it as not existing, and otherwise the first numbered name that it reported so
(`a_1.txt`, `a_2.txt`, ...). Every call that returns, successfully or not, leaves every file
that existed with the content it had. A run of `processFiles` that is not a dry run and in
which the copies of all `N` files succeed ends in the file system it started from plus
exactly `N` entries with distinct paths, none of which existed before, every file that
existed still holding what it held; more rounds for the loop change nothing in it. And where
only finitely many of the numbered names are taken, the call returns. -/
theorem copyFile_never_overwrites (sys : Platform) (fuel : Nat) (m : model) (fs : FileSystem)
    (files : List GoString) :
    (∀ (srcPath : GoString) (fs2 : FileSystem),
        copyFile sys fuel m fs srcPath = some (fs2, true) →
        ∃ (dest : GoString) (content : Bytes),
          resolveFileConflict (osStat sys fs) fuel
              (filepath.Join [m.config.DestDir, filepath.Base srcPath]) = some dest ∧
            osStat sys fs dest = false ∧ sys.canon dest ∉ fsPaths fs ∧
            fsRead fs (sys.canon srcPath) = some content ∧
            fs2 = (sys.canon dest, content) :: fs ∧
            fsRead fs2 (sys.canon dest) = some content ∧
            (∀ fuel2 : Nat, fuel ≤ fuel2 →
              copyFile sys fuel2 m fs srcPath = some (fs2, true)) ∧
            (fuel < 2 ^ 63 →
              (osStat sys fs (filepath.Join [m.config.DestDir, filepath.Base srcPath]) = false →
                dest = filepath.Join [m.config.DestDir, filepath.Base srcPath]) ∧
              (osStat sys fs (filepath.Join [m.config.DestDir, filepath.Base srcPath]) = true →
                ∃ k : Nat, 1 ≤ k ∧ k < fuel ∧
                  dest = conflictCandidate
                    (filepath.Join [m.config.DestDir, filepath.Base srcPath]) (k : Int) ∧
                  ∀ j : Nat, 1 ≤ j → j < k →
                    osStat sys fs (conflictCandidate
                      (filepath.Join [m.config.DestDir, filepath.Base srcPath]) (j : Int)) =
                        true))) ∧
      (∀ (srcPath : GoString) (r : FileSystem × Bool),
        copyFile sys fuel m fs srcPath = some r →
          ∀ p ∈ fsPaths fs, fsRead r.1 p = fsRead fs p) ∧
      (m.config.DryRun = false →
        (∀ b ∈ copyOutcomes (copyFileIn sys fuel m) files (some fs), b = true) →
          (∃ added : FileSystem,
            (processFiles (copyFileIn sys fuel m) m files (some fs)).2.2 = some (added ++ fs) ∧
              added.length = files.length ∧ (fsPaths added).Nodup ∧
              (∀ p ∈ fsPaths added, p ∉ fsPaths fs) ∧
              ∀ p ∈ fsPaths fs, fsRead (added ++ fs) p = fsRead fs p) ∧
            ∀ fuel2 : Nat, fuel ≤ fuel2 →
              processFiles (copyFileIn sys fuel2 m) m files (some fs) =
                processFiles (copyFileIn sys fuel m) m files (some fs)) ∧
      ∀ (srcPath : GoString) (occupied : List GoString),
        (∀ k : Nat, 1 ≤ k →
          osStat sys fs (conflictCandidate
            (filepath.Join [m.config.DestDir, filepath.Base srcPath]) (k : Int)) = true →
          conflictCandidate (filepath.Join [m.config.DestDir, filepath.Base srcPath])
            (k : Int) ∈ occupied) →
        occupied.length + 2 < 2 ^ 63 →
          ∃ r : FileSystem × Bool, ∀ fuel2 : Nat, occupied.length + 2 ≤ fuel2 →
            copyFile sys fuel2 m fs srcPath = some r := by
  refine ⟨?_, ?_, ?_, ?_⟩
  · intro srcPath fs2 hok
    obtain ⟨dest, content, hres, hfree, hnew, hread, hfs⟩ :=
      copyFile_success sys fuel m fs fs2 srcPath hok
    refine ⟨dest, content, hres, hfree, hnew, hread, hfs, ?_,
      fun fuel2 hle => copyFile_mono sys fuel fuel2 m fs srcPath _ hok hle, fun hfuel => ?_⟩
    · rw [hfs]
      exact fsRead_cons_self fs _ content
    · obtain ⟨_, h2, h3⟩ := resolveFileConflict_result (osStat sys fs) _ dest fuel hfuel hres
      exact ⟨h2, h3⟩
  · intro srcPath r hr
    exact copyFile_keeps_files sys fuel m fs srcPath r hr
  · intro hreal hok
    constructor
    · have h := processLoop_real_run sys fuel m (len files) files 0 0 fs hok
      unfold processFiles
      simp only [hreal]
      exact h
    · intro fuel2 hle
      have h := (processLoop_real_run_mono sys fuel fuel2 hle m (len files) files 0 0 fs hok).1
      unfold processFiles
      simp only [hreal, h]
  · intro srcPath occupied hfin hsize
    exact copyFile_returns sys m fs srcPath occupied hfin hsize

/-- The run of C24 on three source files that share the base name `a.txt`, each call with
five rounds for the loop: every copy succeeds, the destination folder receives `a.txt`,
`a_1.txt` and `a_2.txt`, in processing order, and the three source files stay as they were.
The source spelled `x/./a.txt` is copied all the same; and where `dst` is a regular file the
call does not return within nine rounds. -/
theorem copyFile_never_overwrites_witness :
    flatScanModel.config.DryRun = false ∧
      (∀ b ∈ copyOutcomes (copyFileIn noFaults 5 flatScanModel)
          ["x/a.txt".toList, "y/a.txt".toList, "z/a.txt".toList] (some sameNameFiles),
        b = true) ∧
      (processFiles (copyFileIn noFaults 5 flatScanModel) flatScanModel
          ["x/a.txt".toList, "y/a.txt".toList, "z/a.txt".toList] (some sameNameFiles)).2.2 =
        some ([("dst/a_2.txt".toList, utf8 "three".toList),
          ("dst/a_1.txt".toList, utf8 "two".toList),
          ("dst/a.txt".toList, utf8 "one".toList)] ++ sameNameFiles) ∧
      (∃ added : FileSystem,
        (processFiles (copyFileIn noFaults 5 flatScanModel) flatScanModel
            ["x/a.txt".toList, "y/a.txt".toList, "z/a.txt".toList] (some sameNameFiles)).2.2 =
          some (added ++ sameNameFiles) ∧ added.length = 3 ∧ (fsPaths added).Nodup ∧
          ∀ p ∈ fsPaths added, p ∉ fsPaths sameNameFiles) ∧
      copyFile noFaults 5 flatScanModel sameNameFiles "x/./a.txt".toList =
        some (("dst/a.txt".toList, utf8 "one".toList) :: sameNameFiles, true) ∧
      copyFile noFaults 9 flatScanModel dstIsFile "s/a.txt".toList = none := by
  have hok : ∀ b ∈ copyOutcomes (copyFileIn noFaults 5 flatScanModel)
      ["x/a.txt".toList, "y/a.txt".toList, "z/a.txt".toList] (some sameNameFiles),
      b = true := by
    decide!
  obtain ⟨added, h1, h2, h3, h4, _⟩ := ((copyFile_never_overwrites noFaults 5 flatScanModel
    sameNameFiles ["x/a.txt".toList, "y/a.txt".toList, "z/a.txt".toList]).2.2.1 rfl hok).1
  exact ⟨rfl, hok, by decide!, ⟨added, h1, h2, h3, h4⟩, by decide!, by decide!⟩

end Ficout
